import Mathlib

/-!
Verification of epibayes, a latent S/I/R trajectory sampler.

A shallow embedding of `epibayes.go` and the properties of its prior constructor
(`ObservationsToPriorSample`), starting-state sampler (`SampleStartingState`) and forward
step sampler (`Step`).

Numbers.  Values that the program compares, multiplies and divides (cells, rates, draws) are
`F64`: a rational number or one of NaN, -Inf, +Inf, without signed zeros.  The running total of
`SampleStartingState` is added with `F64.addRound`, which rounds each sum to binary64 (to
nearest, ties to even), because the compartment selected depends on the rounded total.  The
conditional weights of `Step` are computed without rounding.  The conversion `int(math.Ceil(x))`
of `GeometricSample` is `F64.toInt (F64.ceil x)`, the conversion to a 64-bit integer.
Values that the program only ever builds from `0.0`, `math.Log` and `+`
(`PriorLP`, `PosteriorLP`) are `LogVal`: such a value is stored through its exponential, so that
`log a + log b` and `log (a * b)` are the same value, as they are for real numbers.
Other Go `int`s are unbounded integers; slice lengths are natural numbers.
A run-time panic (index out of range) is the result `none`.

The random generator is not part of the repository: `RNG` is a deterministic stream, the value
of the `i`-th call being given by the field for the operation that is called.
-/

namespace Epibayes

/-! ## Numbers -/

/-- Linear-domain value of a Go `float64`. -/
inductive F64 where
  | nan
  | ninf
  | fin (q : ℚ)
  | pinf
  deriving DecidableEq

/-- Log-domain value of a Go `float64`: `ofExp p` stands for `log p` (with `0 < p`),
`ninf` for `log 0`, `pinf` for `log (+Inf)`. -/
inductive LogVal where
  | nan
  | ninf
  | ofExp (p : ℚ)
  | pinf
  deriving DecidableEq

/-- Rounding of a rational to the nearest integer, a tie going to the even one. -/
def roundHalfEven (n : ℚ) : Int :=
  if n - ⌊n⌋ < 1 / 2 then ⌊n⌋
  else if 1 / 2 < n - ⌊n⌋ then ⌊n⌋ + 1
  else if ⌊n⌋ % 2 = 0 then ⌊n⌋ else ⌊n⌋ + 1

namespace F64

/-- Unary minus. -/
def neg : F64 → F64
  | nan => nan
  | ninf => pinf
  | fin q => fin (-q)
  | pinf => ninf

/-- Go `x + y`. -/
def add : F64 → F64 → F64
  | fin a, fin b => fin (a + b)
  | nan, _ => nan
  | _, nan => nan
  | pinf, ninf => nan
  | ninf, pinf => nan
  | pinf, _ => pinf
  | _, pinf => pinf
  | ninf, _ => ninf
  | _, ninf => ninf

/-- Go `x - y`. -/
def sub (x y : F64) : F64 := add x (neg y)

/-- Sign-directed infinity: `+Inf` for a positive sign, `-Inf` for a negative one, NaN for zero. -/
def infOfSign (q : ℚ) : F64 :=
  if q = 0 then nan else if 0 < q then pinf else ninf

/-- Go `x * y`. -/
def mul : F64 → F64 → F64
  | fin a, fin b => fin (a * b)
  | nan, _ => nan
  | _, nan => nan
  | fin a, pinf => infOfSign a
  | fin a, ninf => infOfSign (-a)
  | pinf, fin b => infOfSign b
  | ninf, fin b => infOfSign (-b)
  | pinf, pinf => pinf
  | ninf, ninf => pinf
  | pinf, ninf => ninf
  | ninf, pinf => ninf

/-- Go `x / y` (a zero divisor is the positive zero). -/
def div : F64 → F64 → F64
  | fin a, fin b => if b = 0 then infOfSign a else fin (a / b)
  | nan, _ => nan
  | _, nan => nan
  | fin _, pinf => fin 0
  | fin _, ninf => fin 0
  | pinf, fin b => if 0 ≤ b then pinf else ninf
  | ninf, fin b => if 0 ≤ b then ninf else pinf
  | pinf, pinf => nan
  | pinf, ninf => nan
  | ninf, pinf => nan
  | ninf, ninf => nan

/-- Go `x < y`. -/
def lt : F64 → F64 → Bool
  | fin a, fin b => decide (a < b)
  | nan, _ => false
  | _, nan => false
  | ninf, ninf => false
  | ninf, _ => true
  | _, ninf => false
  | pinf, _ => false
  | fin _, pinf => true

/-- Go `x <= y`. -/
def le : F64 → F64 → Bool
  | fin a, fin b => decide (a ≤ b)
  | nan, _ => false
  | _, nan => false
  | ninf, _ => true
  | pinf, pinf => true
  | pinf, _ => false
  | fin _, pinf => true
  | fin _, ninf => false

/-- Go `x == y` (NaN is equal to nothing). -/
def eq : F64 → F64 → Bool
  | fin a, fin b => decide (a = b)
  | ninf, ninf => true
  | pinf, pinf => true
  | _, _ => false

/-- Go `float64(n)` for an `int`. -/
def ofInt (n : Int) : F64 := fin (n : ℚ)

/-- Go `math.Log`. -/
def log : F64 → LogVal
  | fin q => if q < 0 then LogVal.nan else if q = 0 then LogVal.ninf else LogVal.ofExp q
  | pinf => LogVal.pinf
  | ninf => LogVal.nan
  | nan => LogVal.nan

/-- Rounding of a positive rational to binary64, to nearest with ties to even: the exponent is
that of the binade of `q`, not below `-1022` (subnormal numbers); the significand has 53 bits;
a result of `2 ^ 1024` or more is `+Inf`. -/
def roundPos (q : ℚ) : F64 :=
  if (2 : ℚ) ^ (1024 : ℤ) ≤
      (roundHalfEven (q / (2 : ℚ) ^ (max (Int.log 2 q) (-1022) - 52)) : ℚ) *
        (2 : ℚ) ^ (max (Int.log 2 q) (-1022) - 52) then pinf
  else fin ((roundHalfEven (q / (2 : ℚ) ^ (max (Int.log 2 q) (-1022) - 52)) : ℚ) *
        (2 : ℚ) ^ (max (Int.log 2 q) (-1022) - 52))

/-- Rounding of a rational to binary64. -/
def round64 (q : ℚ) : F64 :=
  if q = 0 then fin 0 else if 0 < q then roundPos q else neg (roundPos (-q))

/-- Go `x + y` on `float64`, the sum of two finite values being rounded to binary64. -/
def addRound : F64 → F64 → F64
  | fin a, fin b => round64 (a + b)
  | x, y => add x y

/-- Go `math.Ceil`. -/
def ceil : F64 → F64
  | fin q => fin (⌈q⌉ : ℚ)
  | x => x

/-- Go `int(x)` for a `float64` (64-bit `int`): the value truncated toward zero; a value that
does not fit, an infinity or NaN gives `-2 ^ 63`, as the conversion does on amd64. -/
def toInt : F64 → Int
  | fin q =>
    if -(2 : Int) ^ 63 ≤ (if 0 ≤ q then ⌊q⌋ else ⌈q⌉) ∧ (if 0 ≤ q then ⌊q⌋ else ⌈q⌉) < (2 : Int) ^ 63
    then (if 0 ≤ q then ⌊q⌋ else ⌈q⌉)
    else -(2 : Int) ^ 63
  | _ => -(2 : Int) ^ 63

end F64

namespace LogVal

/-- The literal `0.0` in the log domain, `log 1`. -/
def zero : LogVal := ofExp 1

/-- Go `x + y` in the log domain. -/
def add : LogVal → LogVal → LogVal
  | ofExp a, ofExp b => ofExp (a * b)
  | nan, _ => nan
  | _, nan => nan
  | pinf, ninf => nan
  | ninf, pinf => nan
  | pinf, _ => pinf
  | _, pinf => pinf
  | ninf, _ => ninf
  | _, ninf => ninf

end LogVal

/-! ## Compartments -/

/-- Row index of the susceptible compartment (`S = iota`). -/
def S : Nat := 0

/-- Row index of the infected compartment. -/
def I : Nat := 1

/-- Row index of the recovered compartment. -/
def R : Nat := 2

/-! ## State matrix -/

/-- Go `ZeroVector`: a slice of `length` cells, each then set to `0.0`. -/
def ZeroVector (length : Nat) : List F64 :=
  (List.range length).foldl (fun x i => x.set i (F64.fin 0)) (List.replicate length (F64.fin 0))

/-- Go `map[string]int`, as the list of its entries. -/
abbrev StateMap := List (String × Nat)

/-- Go `m[k] = v`. -/
def StateMap.insert (m : StateMap) (k : String) (v : Nat) : StateMap :=
  if m.any (fun p => p.1 == k) then m.map (fun p => if p.1 == k then (k, v) else p)
  else m ++ [(k, v)]

/-- Go `m[k]`: the zero value for a missing key. -/
def StateMap.lookup (m : StateMap) (k : String) : Nat :=
  match m.find? (fun p => p.1 == k) with
  | some p => p.2
  | none => 0

/-- Go `StateMatrix`. -/
structure StateMatrix where
  length : Nat
  Values : List (List F64)
  orderedStates : List String
  States : StateMap

/-- Read of `rows[r][t]`; `none` when an index is out of range. -/
def getCell (rows : List (List F64)) (r : Nat) (t : Int) : Option F64 :=
  if t < 0 then none
  else
    match rows[r]? with
    | none => none
    | some row => row[t.toNat]?

/-- Write `rows[r][t] = x`; `none` when an index is out of range. -/
def setCell (rows : List (List F64)) (r : Nat) (t : Int) (x : F64) : Option (List (List F64)) :=
  if t < 0 then none
  else
    match rows[r]? with
    | none => none
    | some row => if t.toNat < row.length then some (rows.set r (row.set t.toNat x)) else none

/-- Go `(*StateMatrix).Len`. -/
def StateMatrix.Len (sm : StateMatrix) : Nat := sm.length

/-- Go `(*StateMatrix).Get`. -/
def StateMatrix.Get (sm : StateMatrix) (state : String) (index : Int) : Option F64 :=
  getCell sm.Values (sm.States.lookup state) index

/-- Go `(*StateMatrix).Set`. -/
def StateMatrix.Set (sm : StateMatrix) (x : F64) (state : String) (index : Int) :
    Option StateMatrix :=
  (setCell sm.Values (sm.States.lookup state) index x).map (fun v => { sm with Values := v })

/-- Go `NewStateMatrix`. -/
def NewStateMatrix (length : Nat) (states : List String) : StateMatrix :=
  let m : StateMap := states.enum.foldl (fun m p => m.insert p.2 p.1) []
  { length := length
    Values := (List.range m.length).map (fun _ => ZeroVector length)
    orderedStates := states
    States := m }

/-! ## Random generator -/

/-- Deterministic stand-in for `randist.RNG`: `pos` counts the calls made so far, and the
three fields give the value returned by call number `pos` for each operation. -/
structure RNG where
  pos : Nat
  uniformAt : Nat → F64
  uniformIntAt : Nat → Int → Int
  exponentialAt : Nat → F64 → F64

/-- Go `randist.UniformRandomFloat64`. -/
def RNG.UniformRandomFloat64 (rd : RNG) : F64 × RNG :=
  (rd.uniformAt rd.pos, { rd with pos := rd.pos + 1 })

/-- Go `randist.UniformRandomInt`. -/
def RNG.UniformRandomInt (rd : RNG) (n : Int) : Int × RNG :=
  (rd.uniformIntAt rd.pos n, { rd with pos := rd.pos + 1 })

/-- Go `randist.ExponentialRandomFloat64`. -/
def RNG.ExponentialRandomFloat64 (rd : RNG) (mu : F64) : F64 × RNG :=
  (rd.exponentialAt rd.pos mu, { rd with pos := rd.pos + 1 })

/-! ## Partially observed individual -/

/-- Go `PartialObserved`. -/
structure PartialObserved where
  StartingProbabilities : List F64
  InfectionObservations : List Int
  NonInfectionObservations : List Int
  Prior : StateMatrix
  PriorLP : LogVal
  PosteriorSample : StateMatrix
  PosteriorLP : LogVal

/-- Go `NewPartialObserved` (the two log-probabilities start at the zero value `0.0`). -/
def NewPartialObserved (length : Nat) (startingProbs : List F64) (infObs nonInfObs : List Int) :
    PartialObserved :=
  { StartingProbabilities := startingProbs
    InfectionObservations := infObs
    NonInfectionObservations := nonInfObs
    Prior := NewStateMatrix length ["S", "I", "R"]
    PriorLP := LogVal.zero
    PosteriorSample := NewStateMatrix length ["S", "I", "R"]
    PosteriorLP := LogVal.zero }

/-- Write `po.Prior.Values[r][t] = x`. -/
def PartialObserved.setPrior (po : PartialObserved) (r : Nat) (t : Int) (x : F64) :
    Option PartialObserved :=
  (setCell po.Prior.Values r t x).map
    (fun v => { po with Prior := { po.Prior with Values := v } })

/-- Write `po.PosteriorSample.Values[r][t] = x`. -/
def PartialObserved.setPosterior (po : PartialObserved) (r : Nat) (t : Int) (x : F64) :
    Option PartialObserved :=
  (setCell po.PosteriorSample.Values r t x).map
    (fun v => { po with PosteriorSample := { po.PosteriorSample with Values := v } })

/-- The three writes `Values[S][t] = a; Values[I][t] = b; Values[R][t] = c` on the prior. -/
def PartialObserved.setPriorColumn (po : PartialObserved) (t : Int) (a b c : F64) :
    Option PartialObserved :=
  ((po.setPrior S t a).bind (fun po => po.setPrior I t b)).bind (fun po => po.setPrior R t c)

/-- The three writes `Values[S][t] = a; Values[I][t] = b; Values[R][t] = c` on the posterior
sample. -/
def PartialObserved.setPosteriorColumn (po : PartialObserved) (t : Int) (a b c : F64) :
    Option PartialObserved :=
  ((po.setPosterior S t a).bind (fun po => po.setPosterior I t b)).bind
    (fun po => po.setPosterior R t c)

/-- Go `for t := lo; t < hi; t++ { body }`, run for the `n` iterations that remain. -/
def forLoopAux {σ : Type} (body : Int → σ → Option σ) : Nat → Int → σ → Option σ
  | 0, _, s => some s
  | n + 1, t, s => (body t s).bind (forLoopAux body n (t + 1))

/-- Go `for t := lo; t < hi; t++ { body }`. -/
def forLoop {σ : Type} (lo hi : Int) (body : Int → σ → Option σ) (s : σ) : Option σ :=
  forLoopAux body (hi - lo).toNat lo s

/-! ## Random-variate helpers -/

/-- Go `GeometricSample`. -/
def GeometricSample (l : F64) (rd : RNG) : Int × RNG :=
  let x := rd.ExponentialRandomFloat64 (F64.div (F64.fin 1) l)
  (F64.toInt (F64.ceil x.1), x.2)

/-- Go `SampleGeometricInfectiousPeriod`: the pair `(start, end)` and the generator after the
two draws. -/
def SampleGeometricInfectiousPeriod (obsTime : Int) (gamma : F64) (rd : RNG) :
    (Int × Int) × RNG :=
  let g := GeometricSample gamma rd
  let duration := g.1
  let u := g.2.UniformRandomInt duration
  let start := obsTime - u.1
  let stop := start + duration
  let start := if start < 0 then 0 else start
  ((start, stop), u.2)

/-! ## Prior constructor -/

/-- Go `map[int]bool` filled by `nonObsTimes[nt] = true` for every entry of the list; the
result of a lookup is `none` when the key is absent. -/
def nonObsTimes (nonInfObs : List Int) : Int → Option Bool :=
  nonInfObs.foldl (fun m nt => fun t => if t = nt then some true else m t) (fun _ => none)

/-- First loop of `ObservationsToPriorSample`: the default feasibility of every time index. -/
def defaultPriorBody (m : Int → Option Bool) (t : Int) (po : PartialObserved) :
    Option PartialObserved :=
  if (m t).isSome then po.setPriorColumn t (F64.fin 1) (F64.fin 0) (F64.fin 1)
  else po.setPriorColumn t (F64.fin 1) (F64.fin 1) (F64.fin 1)

/-- Body of the loop of `ObservationsToPriorSample` over the infection observations. -/
def infectionObservationBody (gamma : F64) (st : PartialObserved × RNG) (io : Int) :
    Option (PartialObserved × RNG) :=
  let po := st.1
  let w := SampleGeometricInfectiousPeriod io gamma st.2
  let s := w.1.1
  let e := if w.1.2 ≥ (po.Prior.Len : Int) then (po.Prior.Len : Int) - 1 else w.1.2
  (forLoop s (e + 1) (fun t po => po.setPriorColumn t (F64.fin 0) (F64.fin 1) (F64.fin 0)) po).bind
    fun po =>
  (forLoop 0 s (fun t po => po.setPriorColumn t (F64.fin 1) (F64.fin 0) (F64.fin 0)) po).bind
    fun po =>
  (forLoop (e + 1) ((po.Prior.Len : Int) - 1)
    (fun t po => po.setPriorColumn t (F64.fin 0) (F64.fin 0) (F64.fin 1)) po).bind
    fun po =>
  some ({ po with
          PriorLP := LogVal.add po.PriorLP (F64.log (F64.div (F64.fin 1) (F64.ofInt (e - s)))) },
        w.2)

/-- Go `ObservationsToPriorSample`. -/
def ObservationsToPriorSample (po : PartialObserved) (gamma : F64) (rng : RNG) :
    Option (PartialObserved × RNG) :=
  let po := { po with PriorLP := LogVal.zero }
  let m := nonObsTimes po.NonInfectionObservations
  (forLoop 0 (po.Prior.Len : Int) (defaultPriorBody m) po).bind
    fun po => po.InfectionObservations.foldlM (infectionObservationBody gamma) (po, rng)

/-! ## Starting-state sampler -/

/-- The loop `for i := 0; i < 3; i++` of `SampleStartingState`, with `n` iterations left; the
result is the pair `(st, pr)` the loop ends with. -/
def startingLoop (sp : List F64) (x : F64) : Nat → Nat → F64 → Nat → F64 → Option (Nat × F64)
  | 0, _, _, st, pr => some (st, pr)
  | n + 1, i, total, st, _ =>
    match sp[i]? with
    | none => none
    | some p =>
      if F64.eq p (F64.fin 0) then startingLoop sp x n (i + 1) total st p
      else
        if F64.le x (F64.addRound total p) then some (i, p)
        else startingLoop sp x n (i + 1) (F64.addRound total p) st p

/-- Go `SampleStartingState`. -/
def SampleStartingState (po : PartialObserved) (rd : RNG) :
    Option (F64 × PartialObserved × RNG) :=
  let po := { po with PosteriorLP := LogVal.zero }
  let u := rd.UniformRandomFloat64
  (startingLoop po.StartingProbabilities u.1 3 0 (F64.fin 0) 0 (F64.fin 0)).bind fun sel =>
  (po.setPosterior sel.1 0 (F64.fin 1)).bind fun po =>
  let po := { po with PosteriorLP := LogVal.add po.PosteriorLP (LogVal.add po.PriorLP (F64.log sel.2)) }
  some (if sel.1 = I then F64.fin 1 else F64.fin 0, po, u.2)

/-! ## Forward step sampler -/

/-- The test `rate > 0.0 && randist.UniformRandomFloat64(rng) < cond`: the draw is made only
when the first operand holds. -/
def rateAndDraw (rate cond : F64) (rng : RNG) : Bool × RNG :=
  if F64.lt (F64.fin 0) rate then
    let u := rng.UniformRandomFloat64
    (F64.lt u.1 cond, u.2)
  else (false, rng)

/-- Branch of `Step` taken when `PosteriorSample.Values[S][t] == 1` (the normalised weight of
staying, which the source computes and never reads, is left out). -/
def stepFromS (po : PartialObserved) (t : Int) (StoI : F64) (rng : RNG) :
    Option (F64 × PartialObserved × RNG) :=
  (getCell po.Prior.Values I (t + 1)).bind fun pI =>
  (getCell po.Prior.Values S (t + 1)).bind fun pS =>
  let ConditionalStoI := F64.mul pI StoI
  let ConditionalStoS := F64.mul pS (F64.sub (F64.fin 1) StoI)
  let total := F64.add ConditionalStoI ConditionalStoS
  let ConditionalStoI := F64.div ConditionalStoI total
  let d := rateAndDraw StoI ConditionalStoI rng
  if d.1 then
    (po.setPosteriorColumn (t + 1) (F64.fin 0) (F64.fin 1) (F64.fin 0)).bind fun po =>
    some (F64.fin 1, { po with PosteriorLP := LogVal.add po.PosteriorLP (F64.log StoI) }, d.2)
  else
    (po.setPosteriorColumn (t + 1) (F64.fin 1) (F64.fin 0) (F64.fin 0)).bind fun po =>
    some (F64.fin 0,
      { po with PosteriorLP := LogVal.add po.PosteriorLP (F64.log (F64.sub (F64.fin 1) StoI)) },
      d.2)

/-- Branch of `Step` taken when `PosteriorSample.Values[I][t] == 1` (the normalised weight of
staying, which the source computes and never reads, is left out). -/
def stepFromI (po : PartialObserved) (t : Int) (ItoR : F64) (rng : RNG) :
    Option (F64 × PartialObserved × RNG) :=
  (getCell po.Prior.Values R (t + 1)).bind fun pR =>
  (getCell po.Prior.Values I (t + 1)).bind fun pI =>
  let ConditionalItoR := F64.mul pR ItoR
  let ConditionalItoI := F64.mul pI (F64.sub (F64.fin 1) ItoR)
  let total := F64.add ConditionalItoR ConditionalItoI
  let ConditionalItoR := F64.div ConditionalItoR total
  let d := rateAndDraw ItoR ConditionalItoR rng
  if d.1 then
    (po.setPosteriorColumn (t + 1) (F64.fin 0) (F64.fin 0) (F64.fin 1)).bind fun po =>
    some (F64.fin 0, { po with PosteriorLP := LogVal.add po.PosteriorLP (F64.log ItoR) }, d.2)
  else
    (po.setPosteriorColumn (t + 1) (F64.fin 0) (F64.fin 1) (F64.fin 0)).bind fun po =>
    some (F64.fin 1,
      { po with PosteriorLP := LogVal.add po.PosteriorLP (F64.log (F64.sub (F64.fin 1) ItoR)) },
      d.2)

/-- Go `Step`: the returned value, the updated individual and the generator. -/
def Step (po : PartialObserved) (t : Int) (StoI ItoR : F64) (rng : RNG) :
    Option (F64 × PartialObserved × RNG) :=
  (getCell po.PosteriorSample.Values S t).bind fun vS =>
  if F64.eq vS (F64.fin 1) then stepFromS po t StoI rng
  else
    (getCell po.PosteriorSample.Values I t).bind fun vI =>
    if F64.eq vI (F64.fin 1) then stepFromI po t ItoR rng
    else
      (getCell po.PosteriorSample.Values R t).bind fun vR =>
      if F64.eq vR (F64.fin 1) then
        (po.setPosteriorColumn (t + 1) (F64.fin 0) (F64.fin 0) (F64.fin 1)).bind fun po =>
        some (F64.fin 0, po, rng)
      else some (F64.fin 0, po, rng)

/-! ## Orchestration -/

/-- Modelled from the spec: the caller's loop, which is not in the repository; one iteration
calls `Step` at time `t` and drops the returned value. -/
def stepBody (StoI ItoR : F64) (t : Int) (st : PartialObserved × RNG) :
    Option (PartialObserved × RNG) :=
  (Step st.1 t StoI ItoR st.2).map (fun r => r.2)

/-- Modelled from the spec: the caller's invocation sequence `SampleStartingState(po, rng)`,
then `Step(po, t, StoI, ItoR, rng)` for `t = 0, ..., n - 1`. -/
def forwardPass (po : PartialObserved) (n : Nat) (StoI ItoR : F64) (rng : RNG) :
    Option (PartialObserved × RNG) :=
  (SampleStartingState po rng).bind fun r => forLoop 0 (n : Int) (stepBody StoI ItoR) r.2

/-! ## Reading a matrix by columns -/

/-- The cells `(Values[S][t], Values[I][t], Values[R][t])`. -/
def column (rows : List (List F64)) (t : Int) : Option (F64 × F64 × F64) :=
  (getCell rows S t).bind fun a =>
  (getCell rows I t).bind fun b =>
  (getCell rows R t).bind fun c => some (a, b, c)

/-- A matrix of three rows of `T` cells each. -/
def Shape (T : Nat) (rows : List (List F64)) : Prop :=
  rows.length = 3 ∧ ∀ row ∈ rows, row.length = T

/-- Column marking exactly the susceptible compartment. -/
def onlyS : F64 × F64 × F64 := (F64.fin 1, F64.fin 0, F64.fin 0)

/-- Column marking exactly the infected compartment. -/
def onlyI : F64 × F64 × F64 := (F64.fin 0, F64.fin 1, F64.fin 0)

/-- Column marking exactly the recovered compartment. -/
def onlyR : F64 × F64 × F64 := (F64.fin 0, F64.fin 0, F64.fin 1)

/-- Exactly one of the three cells is 1 and the other two are 0. -/
def OneHot (c : F64 × F64 × F64) : Prop := c = onlyS ∨ c = onlyI ∨ c = onlyR

/-- The one-hot column of the compartment with row index `st`. -/
def hot (st : Nat) : F64 × F64 × F64 :=
  if st = S then onlyS else if st = I then onlyI else onlyR

/-- The compartment an inverse-CDF walk in exact arithmetic selects: the first index, in the
order S, I, R, whose probability is non-zero and whose cumulative mass `p_0 + ... + p_i`, an
exact sum of rationals, reaches the draw `x`. -/
def firstReaching (ps : List ℚ) (x : ℚ) : Option Nat :=
  (List.range ps.length).find? (fun i => decide (ps.getD i 0 ≠ 0 ∧ x ≤ (ps.take (i + 1)).sum))

/-- The moves of the chain S → I → R: a compartment is kept or left for the next one, and R is
kept. -/
def Move (c c2 : F64 × F64 × F64) : Prop :=
  (c = onlyS ∧ (c2 = onlyS ∨ c2 = onlyI)) ∨ (c = onlyI ∧ (c2 = onlyI ∨ c2 = onlyR)) ∨
    (c = onlyR ∧ c2 = onlyR)

/-- Amount `Step` adds to `PosteriorLP` when it goes from column `c` to column `c2`:
`log StoI` for S → I, `log (1 - StoI)` for S → S, `log ItoR` for I → R, `log (1 - ItoR)` for
I → I and nothing, the value `0`, for R → R.  The value `0` is also given to a pair that is not
a move; `transitionLP` is the variant that has no value there. -/
def moveLP (StoI ItoR : F64) (c c2 : F64 × F64 × F64) : LogVal :=
  if c = onlyS ∧ c2 = onlyI then F64.log StoI
  else if c = onlyS ∧ c2 = onlyS then F64.log (F64.sub (F64.fin 1) StoI)
  else if c = onlyI ∧ c2 = onlyR then F64.log ItoR
  else if c = onlyI ∧ c2 = onlyI then F64.log (F64.sub (F64.fin 1) ItoR)
  else LogVal.zero

/-- Total of `moveLP` over the pairs of columns `t`, `t + 1` with `t < n` of a trajectory, a
missing column counting for `0`; `rederivedLP` is the variant that has no value when a column
is missing or a pair is not a move. -/
def realizedLP (StoI ItoR : F64) (rows : List (List F64)) : Nat → LogVal
  | 0 => LogVal.zero
  | n + 1 =>
    LogVal.add (realizedLP StoI ItoR rows n)
      (match column rows (n : Int), column rows ((n : Int) + 1) with
        | some c, some c2 => moveLP StoI ItoR c c2
        | _, _ => LogVal.zero)

/-- Raw transition log-probability of a realized move between two columns, as the claim names
it: `log StoI` for S → I, `log (1 - StoI)` for S → S, `log ItoR` for I → R, `log (1 - ItoR)`
for I → I and `0` for R → R; a pair of columns that is none of these five moves has no term. -/
def transitionLP (StoI ItoR : F64) (c c2 : F64 × F64 × F64) : Option LogVal :=
  if c = onlyS ∧ c2 = onlyI then some (F64.log StoI)
  else if c = onlyS ∧ c2 = onlyS then some (F64.log (F64.sub (F64.fin 1) StoI))
  else if c = onlyI ∧ c2 = onlyR then some (F64.log ItoR)
  else if c = onlyI ∧ c2 = onlyI then some (F64.log (F64.sub (F64.fin 1) ItoR))
  else if c = onlyR ∧ c2 = onlyR then some LogVal.zero
  else none

/-- Independent re-derivation of PosteriorLP from a trajectory: starting from `base`, the
terms of the moves from column `t` to column `t + 1` are added for `t = 0, ..., n - 1` in this
order; there is no result when a column is missing or two successive columns are not a move. -/
def rederivedLP (StoI ItoR : F64) (rows : List (List F64)) (base : LogVal) : Nat → Option LogVal
  | 0 => some base
  | n + 1 =>
    match rederivedLP StoI ItoR rows base n, column rows (n : Int), column rows ((n : Int) + 1) with
    | some acc, some c, some c2 => (transitionLP StoI ItoR c c2).map (LogVal.add acc)
    | _, _, _ => none

/-- A non-negative `float64` value: `+Inf`, or a non-negative number that rounding to binary64
keeps. -/
def NonnegFloat (t : F64) : Prop :=
  t = F64.pinf ∨ ∃ r : ℚ, t = F64.fin r ∧ 0 ≤ r ∧ F64.round64 r = F64.fin r

/-- Cumulative mass `p_0 + ... + p_i` of a list of probabilities, added in `float64` in the
order of the list. -/
def cumulativeMass (ps : List F64) (i : Nat) : F64 :=
  (ps.take (i + 1)).foldl F64.addRound (F64.fin 0)

/-- The compartment an inverse-CDF walk in `float64` selects: the first index, in the order S,
I, R, whose probability is non-zero and whose cumulative mass reaches the draw `x`. -/
def firstReachingRounded (ps : List F64) (x : F64) : Option Nat :=
  (List.range ps.length).find?
    (fun i => !(F64.eq (ps.getD i (F64.fin 0)) (F64.fin 0)) && F64.le x (cumulativeMass ps i))

/-- Effect of one infection window `[s, e]` on a prior of horizon `T`: susceptible-only before
the window, infected-only inside it, recovered-only after it up to time `T - 2`, and the last
column kept when the window ends before it. -/
def WindowWritten (T : Nat) (s e : Int) (rows rows2 : List (List F64)) : Prop :=
  Shape T rows2 ∧ (∀ t : Int, 0 ≤ t → t < s → column rows2 t = some onlyS) ∧
    (∀ t : Int, s ≤ t → t ≤ e → column rows2 t = some onlyI) ∧
    (∀ t : Int, e < t → t < (T : Int) - 1 → column rows2 t = some onlyR) ∧
    (e < (T : Int) - 1 → column rows2 ((T : Int) - 1) = column rows ((T : Int) - 1))

/-- Contract of the generator for the prior constructor: every duration drawn is at least 1
and every integer drawn for a bound `n ≥ 1` lies in `[0, n)`. -/
def GoodDraws (rng : RNG) : Prop :=
  (∀ i mu, 1 ≤ F64.toInt (F64.ceil (rng.exponentialAt i mu))) ∧
    ∀ i n, 1 ≤ n → 0 ≤ rng.uniformIntAt i n ∧ rng.uniformIntAt i n < n

/-- Default column of the prior at time `t`: infection excluded at the times listed in
`NonInfectionObservations`, everything feasible elsewhere. -/
def defaultColumn (nonInfObs : List Int) (t : Int) : F64 × F64 × F64 :=
  if t ∈ nonInfObs then (F64.fin 1, F64.fin 0, F64.fin 1) else (F64.fin 1, F64.fin 1, F64.fin 1)

/-- A column of flags (each cell 0 or 1) with at least one feasible compartment. -/
def Feasible (c : F64 × F64 × F64) : Prop :=
  (c.1 = F64.fin 0 ∨ c.1 = F64.fin 1) ∧ (c.2.1 = F64.fin 0 ∨ c.2.1 = F64.fin 1) ∧
    (c.2.2 = F64.fin 0 ∨ c.2.2 = F64.fin 1) ∧ c ≠ (F64.fin 0, F64.fin 0, F64.fin 0)

/-! ## Concrete inputs -/

/-- A generator whose uniform draws are all `1/2`, whose integer draws are all `0` and whose
exponential draws are all `1`. -/
def exampleRNG : RNG :=
  { pos := 0
    uniformAt := fun _ => F64.fin (1 / 2)
    uniformIntAt := fun _ _ => 0
    exponentialAt := fun _ _ => F64.fin 1 }

/-- A fresh individual of horizon 3 that certainly starts susceptible, with no observation. -/
def examplePO : PartialObserved :=
  NewPartialObserved 3 [F64.fin 1, F64.fin 0, F64.fin 0] [] []

/-- A generator whose exponential draws are all `5` and whose integer draws are all `0`. -/
def longDrawRNG : RNG :=
  { pos := 0
    uniformAt := fun _ => F64.fin (9 / 10)
    uniformIntAt := fun _ _ => 0
    exponentialAt := fun _ _ => F64.fin 5 }

/-- A fresh individual of horizon 6 observed infected at time 3. -/
def observedPO : PartialObserved :=
  NewPartialObserved 6 [F64.fin 1, F64.fin 0, F64.fin 0] [3] []

/-- A fresh individual of horizon 3 whose starting distribution leaves mass `2/5` excluded. -/
def excludedMassPO : PartialObserved :=
  NewPartialObserved 3 [F64.fin (1 / 5), F64.fin (3 / 10), F64.fin (1 / 10)] [] []

/-- A fresh individual of horizon 3 whose starting probabilities are all zero. -/
def zeroMassPO : PartialObserved :=
  NewPartialObserved 3 [F64.fin 0, F64.fin 0, F64.fin 0] [] []

/-- A generator whose uniform draws are all `0`. -/
def zeroDrawRNG : RNG :=
  { pos := 0
    uniformAt := fun _ => F64.fin 0
    uniformIntAt := fun _ _ => 0
    exponentialAt := fun _ _ => F64.fin 1 }

/-! ## The forward step as a function of the draw -/

/-- The column `Step` writes at time `t + 1`, from the rates, the prior column `p` at `t + 1`,
the posterior column `c` at `t` and the value `u` the next uniform draw has. -/
def stepColumn (StoI ItoR : F64) (p c : F64 × F64 × F64) (u : F64) : F64 × F64 × F64 :=
  if c = onlyS then
    if F64.lt (F64.fin 0) StoI &&
        F64.lt u (F64.div (F64.mul p.2.1 StoI)
          (F64.add (F64.mul p.2.1 StoI) (F64.mul p.1 (F64.sub (F64.fin 1) StoI)))) then onlyI
    else onlyS
  else if c = onlyI then
    if F64.lt (F64.fin 0) ItoR &&
        F64.lt u (F64.div (F64.mul p.2.2 ItoR)
          (F64.add (F64.mul p.2.2 ItoR) (F64.mul p.2.1 (F64.sub (F64.fin 1) ItoR)))) then onlyR
    else onlyI
  else onlyR

/-- Contract of the generator for the samplers: every uniform draw is a number of `[0, 1)`. -/
def UnitDraws (rng : RNG) : Prop :=
  ∀ i, ∃ x : ℚ, rng.uniformAt i = F64.fin x ∧ 0 ≤ x ∧ x < 1

/-- A column of flags: each cell is 0 or 1. -/
def Flags (p : F64 × F64 × F64) : Prop :=
  (p.1 = F64.fin 0 ∨ p.1 = F64.fin 1) ∧ (p.2.1 = F64.fin 0 ∨ p.2.1 = F64.fin 1) ∧
    (p.2.2 = F64.fin 0 ∨ p.2.2 = F64.fin 1)

/-- The compartment that the one-hot column `c` marks is flagged feasible in the prior
column `p`. -/
def MarkedFeasible (c p : F64 × F64 × F64) : Prop :=
  (c = onlyS → p.1 = F64.fin 1) ∧ (c = onlyI → p.2.1 = F64.fin 1) ∧
    (c = onlyR → p.2.2 = F64.fin 1)

/-- An individual of horizon 3 whose prior flags every compartment feasible at every time and
whose posterior sample marks S at time 0. -/
def startedPO : PartialObserved :=
  { examplePO with
    Prior := { examplePO.Prior with
      Values := [[F64.fin 1, F64.fin 1, F64.fin 1], [F64.fin 1, F64.fin 1, F64.fin 1],
        [F64.fin 1, F64.fin 1, F64.fin 1]] }
    PosteriorSample := { examplePO.PosteriorSample with
      Values := [[F64.fin 1, F64.fin 0, F64.fin 0], [F64.fin 0, F64.fin 0, F64.fin 0],
        [F64.fin 0, F64.fin 0, F64.fin 0]] } }

/-- A generator whose exponential draws are all `0`. -/
def zeroExpRNG : RNG :=
  { pos := 0
    uniformAt := fun _ => F64.fin (1 / 2)
    uniformIntAt := fun _ _ => 0
    exponentialAt := fun _ _ => F64.fin 0 }

/-- A fresh individual of horizon 6 observed infected at the last time, 5. -/
def lastTimePO : PartialObserved :=
  NewPartialObserved 6 [F64.fin 1, F64.fin 0, F64.fin 0] [5] []

/-- A fresh individual of horizon 3 that certainly starts infected, whose prior flags every
compartment feasible at every time. -/
def infectedPO : PartialObserved :=
  { NewPartialObserved 3 [F64.fin 0, F64.fin 1, F64.fin 0] [] [] with
    Prior := { (NewPartialObserved 3 [F64.fin 0, F64.fin 1, F64.fin 0] [] []).Prior with
      Values := [[F64.fin 1, F64.fin 1, F64.fin 1], [F64.fin 1, F64.fin 1, F64.fin 1],
        [F64.fin 1, F64.fin 1, F64.fin 1]] } }

/-- A fresh individual of horizon 3 whose starting probabilities are the `float64` values
nearest to 0.1, 0.2 and 0.7. -/
def decimalPO : PartialObserved :=
  NewPartialObserved 3
    [F64.fin (3602879701896397 / 2 ^ 55), F64.fin (3602879701896397 / 2 ^ 54),
      F64.fin (3152519739159347 / 2 ^ 52)] [] []

/-- A generator whose uniform draws are all the `float64` value 0.30000000000000004. -/
def tieDrawRNG : RNG :=
  { pos := 0
    uniformAt := fun _ => F64.fin (5404319552844596 / 2 ^ 54)
    uniformIntAt := fun _ _ => 0
    exponentialAt := fun _ _ => F64.fin 1 }

/-- A generator whose exponential draws are all `10 ^ 19`, above `2 ^ 63`. -/
def hugeExpRNG : RNG :=
  { pos := 0
    uniformAt := fun _ => F64.fin (1 / 2)
    uniformIntAt := fun _ _ => 0
    exponentialAt := fun _ _ => F64.fin (10 ^ 19) }

/-! # Theorems -/

/-! ## Rounding to binary64 -/

theorem roundHalfEven_intCast (m : Int) : roundHalfEven (m : ℚ) = m := by
  simp [roundHalfEven]

theorem floor_le_roundHalfEven (n : ℚ) : ⌊n⌋ ≤ roundHalfEven n := by
  unfold roundHalfEven
  split_ifs <;> omega

theorem roundHalfEven_le_floor_succ (n : ℚ) : roundHalfEven n ≤ ⌊n⌋ + 1 := by
  unfold roundHalfEven
  split_ifs <;> omega

theorem roundHalfEven_le_add_half (n : ℚ) : (roundHalfEven n : ℚ) ≤ n + 1 / 2 := by
  have hfl : (⌊n⌋ : ℚ) ≤ n := Int.floor_le n
  unfold roundHalfEven
  split_ifs with h1 h2 h3
  · linarith
  · push_cast; linarith
  · linarith
  · push_cast
    have : n - ⌊n⌋ = 1 / 2 := le_antisymm (not_lt.mp h2) (not_lt.mp h1)
    linarith

theorem two_zpow_pos (k : ℤ) : (0 : ℚ) < (2 : ℚ) ^ k := zpow_pos (by norm_num) k

theorem log_bounds {q : ℚ} (hq : 0 < q) :
    (2 : ℚ) ^ (Int.log 2 q) ≤ q ∧ q < (2 : ℚ) ^ (Int.log 2 q + 1) := by
  have h1 := Int.zpow_log_le_self (R := ℚ) (b := 2) (by norm_num) hq
  have h2 := Int.lt_zpow_succ_log_self (R := ℚ) (b := 2) (by norm_num) q
  simp only [Nat.cast_ofNat] at h1 h2
  exact ⟨h1, h2⟩

/-- Numbers of the binary64 grid: `m * 2 ^ k` with `0 < m < 2 ^ 53` and
`-1074 ≤ k ≤ 971`. -/
theorem roundPos_of_grid (m k : ℤ) (hm0 : 0 < m) (hm : m < 2 ^ 53) (hk0 : -1074 ≤ k)
    (hk1 : k ≤ 971) : F64.roundPos ((m : ℚ) * (2 : ℚ) ^ k) = F64.fin ((m : ℚ) * (2 : ℚ) ^ k) := by
  have hmq : (0 : ℚ) < (m : ℚ) := by exact_mod_cast hm0
  have hq : (0 : ℚ) < (m : ℚ) * (2 : ℚ) ^ k := mul_pos hmq (two_zpow_pos k)
  obtain ⟨hlo, -⟩ := log_bounds hq
  have hmlt : (m : ℚ) < (2 : ℚ) ^ (53 : ℤ) := by
    have : ((2 ^ 53 : ℤ) : ℚ) = (2 : ℚ) ^ (53 : ℤ) := by norm_num
    rw [← this]
    exact_mod_cast hm
  have hqlt : (m : ℚ) * (2 : ℚ) ^ k < (2 : ℚ) ^ (k + 53) := by
    rw [zpow_add₀ (by norm_num : (2 : ℚ) ≠ 0), mul_comm ((2 : ℚ) ^ k)]
    exact mul_lt_mul_of_pos_right hmlt (two_zpow_pos k)
  have he : Int.log 2 ((m : ℚ) * (2 : ℚ) ^ k) < k + 53 :=
    (zpow_lt_zpow_iff_right₀ (by norm_num : (1 : ℚ) < 2)).mp (lt_of_le_of_lt hlo hqlt)
  have hE : max (Int.log 2 ((m : ℚ) * (2 : ℚ) ^ k)) (-1022) ≤ k + 52 := max_le (by omega) (by omega)
  unfold F64.roundPos
  generalize max (Int.log 2 ((m : ℚ) * (2 : ℚ) ^ k)) (-1022) = E at hE
  have hdiv : (m : ℚ) * (2 : ℚ) ^ k / (2 : ℚ) ^ (E - 52) =
      ((m * 2 ^ (k + 52 - E).toNat : ℤ) : ℚ) := by
    push_cast
    rw [← zpow_natCast, Int.toNat_of_nonneg (by omega), mul_div_assoc,
      ← zpow_sub₀ (by norm_num : (2 : ℚ) ≠ 0)]
    congr 2
    ring
  rw [hdiv, roundHalfEven_intCast, ← hdiv,
    div_mul_cancel₀ _ (ne_of_gt (two_zpow_pos (E - 52)))]
  have hlt : ¬ (2 : ℚ) ^ (1024 : ℤ) ≤ (m : ℚ) * (2 : ℚ) ^ k := by
    rw [not_le]
    calc (m : ℚ) * (2 : ℚ) ^ k < (2 : ℚ) ^ (k + 53) := hqlt
      _ ≤ (2 : ℚ) ^ (1024 : ℤ) := zpow_le_zpow_right₀ (by norm_num) (by omega)
  rw [if_neg hlt]


theorem zpow_52_le_mantissa {q : ℚ} (hq : 0 < q) :
    (2 : ℤ) ^ 52 ≤ roundHalfEven (q / (2 : ℚ) ^ (Int.log 2 q - 52)) := by
  obtain ⟨hlo, -⟩ := log_bounds hq
  have h1 : ((2 ^ 52 : ℤ) : ℚ) ≤ q / (2 : ℚ) ^ (Int.log 2 q - 52) := by
    rw [le_div_iff₀ (two_zpow_pos _)]
    have : ((2 ^ 52 : ℤ) : ℚ) = (2 : ℚ) ^ (52 : ℤ) := by norm_num
    rw [this, ← zpow_add₀ (by norm_num : (2 : ℚ) ≠ 0)]
    have : (52 : ℤ) + (Int.log 2 q - 52) = Int.log 2 q := by ring
    rw [this]
    exact hlo
  exact le_trans (Int.le_floor.mpr h1) (floor_le_roundHalfEven _)

theorem mantissa_le {q : ℚ} (hq : 0 < q) :
    roundHalfEven (q / (2 : ℚ) ^ (max (Int.log 2 q) (-1022) - 52)) ≤ 2 ^ 53 := by
  obtain ⟨-, hhi⟩ := log_bounds hq
  have hlt : q / (2 : ℚ) ^ (max (Int.log 2 q) (-1022) - 52) < ((2 ^ 53 : ℤ) : ℚ) := by
    rw [div_lt_iff₀ (two_zpow_pos _)]
    have : ((2 ^ 53 : ℤ) : ℚ) = (2 : ℚ) ^ (53 : ℤ) := by norm_num
    rw [this, ← zpow_add₀ (by norm_num : (2 : ℚ) ≠ 0)]
    refine lt_of_lt_of_le hhi (zpow_le_zpow_right₀ (by norm_num) ?_)
    have := le_max_left (Int.log 2 q) (-1022)
    omega
  have hfl : ⌊q / (2 : ℚ) ^ (max (Int.log 2 q) (-1022) - 52)⌋ < 2 ^ 53 := Int.floor_lt.mpr hlt
  have := roundHalfEven_le_floor_succ (q / (2 : ℚ) ^ (max (Int.log 2 q) (-1022) - 52))
  omega

theorem mantissa_nonneg {q : ℚ} (hq : 0 < q) :
    0 ≤ roundHalfEven (q / (2 : ℚ) ^ (max (Int.log 2 q) (-1022) - 52)) := by
  have h : (0 : ℚ) ≤ q / (2 : ℚ) ^ (max (Int.log 2 q) (-1022) - 52) :=
    le_of_lt (div_pos hq (two_zpow_pos _))
  exact le_trans (Int.floor_nonneg.mpr h) (floor_le_roundHalfEven _)

/-- A value that rounding a positive rational produces is kept by rounding. -/
theorem roundPos_idem {q r : ℚ} (hq : 0 < q) (h : F64.roundPos q = F64.fin r) :
    r = 0 ∨ (0 < r ∧ F64.roundPos r = F64.fin r) := by
  have hM0 := mantissa_nonneg hq
  have hM1 := mantissa_le hq
  unfold F64.roundPos at h
  split_ifs at h with hov
  have hr := F64.fin.inj h
  rw [not_le] at hov
  rw [hr] at hov
  -- the exponent is in range
  have hElo : -1022 ≤ max (Int.log 2 q) (-1022) := le_max_right _ _
  have hEhi : max (Int.log 2 q) (-1022) ≤ 1023 := by
    by_contra hcon
    rw [not_le] at hcon
    have hlog : max (Int.log 2 q) (-1022) = Int.log 2 q := by
      rcases max_cases (Int.log 2 q) (-1022) with ⟨h1, -⟩ | ⟨h1, -⟩
      · exact h1
      · omega
    have hge := zpow_52_le_mantissa hq
    rw [hlog] at hr hcon
    have hge2 : (2 : ℚ) ^ (52 : ℤ) ≤
        (roundHalfEven (q / (2 : ℚ) ^ (Int.log 2 q - 52)) : ℚ) := by
      have : ((2 ^ 52 : ℤ) : ℚ) = (2 : ℚ) ^ (52 : ℤ) := by norm_num
      rw [← this]
      exact_mod_cast hge
    have : (2 : ℚ) ^ (1024 : ℤ) ≤ r := by
      rw [← hr]
      calc (2 : ℚ) ^ (1024 : ℤ) ≤ (2 : ℚ) ^ (Int.log 2 q) :=
            zpow_le_zpow_right₀ (by norm_num) (by omega)
        _ = (2 : ℚ) ^ (52 : ℤ) * (2 : ℚ) ^ (Int.log 2 q - 52) := by
            rw [← zpow_add₀ (by norm_num : (2 : ℚ) ≠ 0)]; congr 1; ring
        _ ≤ _ := mul_le_mul_of_nonneg_right hge2 (le_of_lt (two_zpow_pos _))
    exact absurd hov (not_lt.mpr this)
  generalize max (Int.log 2 q) (-1022) = E at *
  generalize roundHalfEven (q / (2 : ℚ) ^ (E - 52)) = M at *
  rcases eq_or_lt_of_le hM0 with h0 | hpos
  · left
    rw [← hr, ← h0]
    simp
  · right
    have hrpos : 0 < r := by
      rw [← hr]
      exact mul_pos (by exact_mod_cast hpos) (two_zpow_pos _)
    refine ⟨hrpos, ?_⟩
    rcases eq_or_lt_of_le hM1 with h53 | hlt
    · -- the mantissa reached 2 ^ 53: the value is 2 ^ 52 in the next binade
      have hE2 : E ≤ 1022 := by
        by_contra hcon
        have hE3 : E = 1023 := by omega
        rw [← hr, h53, hE3] at hov
        norm_num at hov
      have hval : r = ((2 ^ 52 : ℤ) : ℚ) * (2 : ℚ) ^ (E - 51) := by
        rw [← hr, h53]
        have h1 : ((2 ^ 53 : ℤ) : ℚ) = (2 : ℚ) ^ (53 : ℤ) := by norm_num
        have h2 : ((2 ^ 52 : ℤ) : ℚ) = (2 : ℚ) ^ (52 : ℤ) := by norm_num
        rw [h1, h2, ← zpow_add₀ (by norm_num : (2 : ℚ) ≠ 0),
          ← zpow_add₀ (by norm_num : (2 : ℚ) ≠ 0)]
        congr 1
        ring
      rw [hval]
      exact roundPos_of_grid (2 ^ 52) (E - 51) (by norm_num) (by norm_num) (by omega) (by omega)
    · rw [← hr]
      exact roundPos_of_grid M (E - 52) hpos hlt (by omega) (by omega)

/-- Rounding a number of `(0, 1]` adds at most `2 ^ (-53)`. -/
theorem roundPos_le {q : ℚ} (hq : 0 < q) (hq1 : q ≤ 1) :
    ∃ r, F64.roundPos q = F64.fin r ∧ 0 ≤ r ∧ r ≤ q + 1 / 2 ^ 53 := by
  obtain ⟨hlo, -⟩ := log_bounds hq
  have he : Int.log 2 q ≤ 0 := by
    have : (2 : ℚ) ^ (Int.log 2 q) ≤ (2 : ℚ) ^ (0 : ℤ) := by
      rw [zpow_zero]; exact le_trans hlo hq1
    exact (zpow_le_zpow_iff_right₀ (by norm_num : (1 : ℚ) < 2)).mp this
  have hE : max (Int.log 2 q) (-1022) ≤ 0 := max_le he (by norm_num)
  have hM0 := mantissa_nonneg hq
  have hhalf := roundHalfEven_le_add_half (q / (2 : ℚ) ^ (max (Int.log 2 q) (-1022) - 52))
  unfold F64.roundPos
  generalize max (Int.log 2 q) (-1022) = E at *
  generalize roundHalfEven (q / (2 : ℚ) ^ (E - 52)) = M at *
  have hulp : (2 : ℚ) ^ (E - 52) ≤ 1 / 2 ^ 52 := by
    have h1 : (2 : ℚ) ^ (E - 52) ≤ (2 : ℚ) ^ (-52 : ℤ) :=
      zpow_le_zpow_right₀ (by norm_num) (by omega)
    have h2 : (2 : ℚ) ^ (-52 : ℤ) = 1 / 2 ^ 52 := by
      rw [zpow_neg, one_div]; norm_cast
    rw [← h2]; exact h1
  have hpos := two_zpow_pos (E - 52)
  have hbound : (M : ℚ) * (2 : ℚ) ^ (E - 52) ≤ q + 1 / 2 ^ 53 := by
    calc (M : ℚ) * (2 : ℚ) ^ (E - 52)
        ≤ (q / (2 : ℚ) ^ (E - 52) + 1 / 2) * (2 : ℚ) ^ (E - 52) :=
          mul_le_mul_of_nonneg_right hhalf (le_of_lt hpos)
      _ = q + (2 : ℚ) ^ (E - 52) / 2 := by
          rw [add_mul, div_mul_cancel₀ _ (ne_of_gt hpos)]; ring
      _ ≤ q + 1 / 2 ^ 53 := by
          have : (2 : ℚ) ^ (E - 52) / 2 ≤ 1 / 2 ^ 52 / 2 := by linarith
          have h3 : (1 : ℚ) / 2 ^ 52 / 2 = 1 / 2 ^ 53 := by norm_num
          linarith
  have hnot : ¬ (2 : ℚ) ^ (1024 : ℤ) ≤ (M : ℚ) * (2 : ℚ) ^ (E - 52) := by
    rw [not_le]
    have h2 : (2 : ℚ) ≤ (2 : ℚ) ^ (1024 : ℤ) := by
      have := zpow_le_zpow_right₀ (by norm_num : (1 : ℚ) ≤ 2) (show (1 : ℤ) ≤ 1024 by norm_num)
      simpa using this
    have h3 : (1 : ℚ) / 2 ^ 53 < 1 := by norm_num
    linarith
  rw [if_neg hnot]
  refine ⟨_, rfl, ?_, hbound⟩
  exact mul_nonneg (by exact_mod_cast hM0) (le_of_lt hpos)

theorem log_eq_of_bounds {q : ℚ} {e : ℤ} (h1 : (2 : ℚ) ^ e ≤ q) (h2 : q < (2 : ℚ) ^ (e + 1)) :
    Int.log 2 q = e := by
  have hq : 0 < q := lt_of_lt_of_le (two_zpow_pos e) h1
  obtain ⟨hlo, hhi⟩ := log_bounds hq
  have a1 : e < Int.log 2 q + 1 :=
    (zpow_lt_zpow_iff_right₀ (by norm_num : (1 : ℚ) < 2)).mp (lt_of_le_of_lt h1 hhi)
  have a2 : Int.log 2 q < e + 1 :=
    (zpow_lt_zpow_iff_right₀ (by norm_num : (1 : ℚ) < 2)).mp (lt_of_le_of_lt hlo h2)
  omega

/-- The binary64 sum of the doubles nearest to 0.1 and 0.2 is the double nearest to
0.30000000000000004 (a tie, rounded to the even mantissa). -/
theorem roundPos_tenth_plus_fifth :
    F64.roundPos (3602879701896397 / 2 ^ 55 + 3602879701896397 / 2 ^ 54) =
      F64.fin (5404319552844596 / 2 ^ 54) := by
  have hlog : Int.log 2 ((3602879701896397 : ℚ) / 2 ^ 55 + 3602879701896397 / 2 ^ 54) = -2 := by
    apply log_eq_of_bounds
    · rw [zpow_neg]; norm_num
    · norm_num
  have hmax : max (-2 : ℤ) (-1022) = -2 := by norm_num
  have hz : (2 : ℚ) ^ (-2 - 52 : ℤ) = 1 / 2 ^ 54 := by
    rw [show (-2 - 52 : ℤ) = -54 by norm_num, zpow_neg, one_div]; norm_cast
  have hfl : ⌊((3602879701896397 : ℚ) / 2 ^ 55 + 3602879701896397 / 2 ^ 54) / (1 / 2 ^ 54)⌋ =
      5404319552844595 := by
    rw [Int.floor_eq_iff]
    constructor <;> norm_num
  have hrhe : roundHalfEven
      (((3602879701896397 : ℚ) / 2 ^ 55 + 3602879701896397 / 2 ^ 54) / (1 / 2 ^ 54)) =
      5404319552844596 := by
    unfold roundHalfEven
    rw [hfl]
    norm_num
  unfold F64.roundPos
  rw [hlog, hmax, hz, hrhe]
  norm_num

theorem round64_of_pos {q : ℚ} (hq : 0 < q) : F64.round64 q = F64.roundPos q := by
  unfold F64.round64
  rw [if_neg (ne_of_gt hq), if_pos hq]

theorem round64_zero : F64.round64 0 = F64.fin 0 := by
  simp [F64.round64]

theorem round64_one : F64.round64 1 = F64.fin 1 := by
  rw [round64_of_pos (by norm_num)]
  have h := roundPos_of_grid 1 0 (by norm_num) (by norm_num) (by norm_num) (by norm_num)
  simpa using h

theorem nonnegFloat_round64 {q : ℚ} (hq : 0 ≤ q) : NonnegFloat (F64.round64 q) := by
  rcases eq_or_lt_of_le hq with h0 | hpos
  · rw [← h0, round64_zero]
    exact Or.inr ⟨0, rfl, le_refl _, round64_zero⟩
  · rw [round64_of_pos hpos]
    cases hr : F64.roundPos q with
    | nan => unfold F64.roundPos at hr; split_ifs at hr
    | ninf => unfold F64.roundPos at hr; split_ifs at hr
    | pinf => exact Or.inl rfl
    | fin r =>
      rcases roundPos_idem hpos hr with h | ⟨hrpos, hidem⟩
      · rw [h]
        exact Or.inr ⟨0, rfl, le_refl _, round64_zero⟩
      · exact Or.inr ⟨r, rfl, le_of_lt hrpos, by rw [round64_of_pos hrpos, hidem]⟩

theorem nonnegFloat_zero : NonnegFloat (F64.fin 0) :=
  Or.inr ⟨0, rfl, le_refl _, round64_zero⟩

theorem nonnegFloat_addRound {t : F64} (ht : NonnegFloat t) {p : ℚ} (hp : 0 ≤ p) :
    NonnegFloat (F64.addRound t (F64.fin p)) := by
  rcases ht with h | ⟨r, h, hr, -⟩
  · rw [h]
    exact Or.inl rfl
  · rw [h]
    exact nonnegFloat_round64 (add_nonneg hr hp)

theorem addRound_zero {t : F64} (ht : NonnegFloat t) : F64.addRound t (F64.fin 0) = t := by
  rcases ht with h | ⟨r, h, -, hidem⟩
  · rw [h]
    rfl
  · rw [h]
    simp only [F64.addRound, add_zero]
    exact hidem

theorem addRound_le (t p : ℚ) (ht : 0 ≤ t) (hp : 0 < p) (h1 : t + p ≤ 1) :
    ∃ r, F64.addRound (F64.fin t) (F64.fin p) = F64.fin r ∧ 0 ≤ r ∧ r ≤ t + p + 1 / 2 ^ 53 := by
  have hpos : 0 < t + p := by linarith
  obtain ⟨r, hr, h0, hle⟩ := roundPos_le hpos h1
  exact ⟨r, by simp only [F64.addRound]; rw [round64_of_pos hpos, hr], h0, hle⟩

theorem toInt_ceil_of_range (x : ℚ) (hx0 : 0 ≤ x) (hx1 : x ≤ 2 ^ 63 - 1) :
    F64.toInt (F64.ceil (F64.fin x)) = ⌈x⌉ := by
  have hc0 : 0 ≤ ⌈x⌉ := Int.ceil_nonneg hx0
  have hc1 : ⌈x⌉ ≤ 2 ^ 63 - 1 := by
    apply Int.ceil_le.mpr
    have h : (((2 ^ 63 - 1 : Int)) : ℚ) = 2 ^ 63 - 1 := by norm_num
    rw [h]
    exact hx1
  have hq : (0 : ℚ) ≤ ((⌈x⌉ : Int) : ℚ) := by exact_mod_cast hc0
  simp only [F64.ceil, F64.toInt, if_pos hq, Int.floor_intCast]
  rw [if_pos ⟨by omega, by omega⟩]

theorem toInt_ceil_one : F64.toInt (F64.ceil (F64.fin 1)) = 1 := by
  rw [toInt_ceil_of_range 1 (by norm_num) (by norm_num)]
  simp

theorem toInt_ceil_five : F64.toInt (F64.ceil (F64.fin 5)) = 5 := by
  rw [toInt_ceil_of_range 5 (by norm_num) (by norm_num)]
  have : ((5 : Int) : ℚ) = 5 := by norm_num
  rw [← this, Int.ceil_intCast]

/-! ## Cells and columns of a three-row matrix -/

theorem shape_row {T : Nat} {rows : List (List F64)} (h : Shape T rows) {r : Nat} (hr : r < 3) :
    ∃ row, rows[r]? = some row ∧ row.length = T := by
  have hlt : r < rows.length := by rw [h.1]; exact hr
  exact ⟨rows[r], List.getElem?_eq_getElem hlt, h.2 _ (List.getElem_mem hlt)⟩

theorem getCell_isSome {T : Nat} {rows : List (List F64)} (h : Shape T rows) {r : Nat}
    (hr : r < 3) {t : Int} (h0 : 0 ≤ t) (hT : t < T) : ∃ x, getCell rows r t = some x := by
  obtain ⟨row, hrow, hlen⟩ := shape_row h hr
  have hlt : t.toNat < row.length := by omega
  refine ⟨row[t.toNat], ?_⟩
  simp [getCell, hrow, not_lt.mpr h0, List.getElem?_eq_getElem hlt]

theorem setCell_spec {T : Nat} {rows : List (List F64)} (h : Shape T rows) {r : Nat}
    (hr : r < 3) {t : Int} (h0 : 0 ≤ t) (hT : t < T) (x : F64) :
    ∃ rows2, setCell rows r t x = some rows2 ∧ Shape T rows2 ∧ getCell rows2 r t = some x ∧
      ∀ r2 t2, (r2 ≠ r ∨ t2 ≠ t) → getCell rows2 r2 t2 = getCell rows r2 t2 := by
  obtain ⟨row, hrow, hlen⟩ := shape_row h hr
  have hlt : t.toNat < row.length := by omega
  have hrl : r < rows.length := by rw [h.1]; exact hr
  refine ⟨rows.set r (row.set t.toNat x), ?_, ⟨?_, ?_⟩, ?_, ?_⟩
  · simp [setCell, hrow, not_lt.mpr h0, hlt]
  · simp [h.1]
  · intro row2 hmem
    rcases List.mem_or_eq_of_mem_set hmem with hm | he
    · exact h.2 _ hm
    · rw [he, List.length_set, hlen]
  · simp [getCell, not_lt.mpr h0, List.getElem?_set_self hrl, List.getElem?_set_self hlt]
  · intro r2 t2 hne
    unfold getCell
    by_cases ht2 : t2 < 0
    · simp [ht2]
    · simp only [ht2, if_false]
      by_cases hr2 : r2 = r
      · subst hr2
        have hne2 : t.toNat ≠ t2.toNat := by
          rcases hne with hne | hne
          · exact absurd rfl hne
          · omega
        simp [List.getElem?_set_self hrl, hrow, List.getElem?_set_ne hne2]
      · rw [List.getElem?_set_ne (Ne.symm hr2)]

/-- The three writes of a column, on the rows themselves. -/
theorem setColumn_spec {T : Nat} {rows : List (List F64)} (h : Shape T rows) {t : Int}
    (h0 : 0 ≤ t) (hT : t < T) (a b c : F64) :
    ∃ rows2, ((setCell rows S t a).bind (fun v => setCell v I t b)).bind
        (fun v => setCell v R t c) = some rows2 ∧
      Shape T rows2 ∧ column rows2 t = some (a, b, c) ∧
      ∀ t2, t2 ≠ t → column rows2 t2 = column rows t2 := by
  obtain ⟨r1, e1, s1, g1, o1⟩ := setCell_spec h (r := S) (by decide) h0 hT a
  obtain ⟨r2, e2, s2, g2, o2⟩ := setCell_spec s1 (r := I) (by decide) h0 hT b
  obtain ⟨r3, e3, s3, g3, o3⟩ := setCell_spec s2 (r := R) (by decide) h0 hT c
  refine ⟨r3, by simp [e1, e2, e3], s3, ?_, ?_⟩
  · have hS : getCell r3 S t = some a := by
      rw [o3 S t (Or.inl (by decide)), o2 S t (Or.inl (by decide)), g1]
    have hI : getCell r3 I t = some b := by
      rw [o3 I t (Or.inl (by decide)), g2]
    simp [column, hS, hI, g3]
  · intro t2 hne
    unfold column
    rw [o3 S t2 (Or.inr hne), o2 S t2 (Or.inr hne), o1 S t2 (Or.inr hne),
      o3 I t2 (Or.inr hne), o2 I t2 (Or.inr hne), o1 I t2 (Or.inr hne),
      o3 R t2 (Or.inr hne), o2 R t2 (Or.inr hne), o1 R t2 (Or.inr hne)]

theorem column_isSome {T : Nat} {rows : List (List F64)} (h : Shape T rows) {t : Int}
    (h0 : 0 ≤ t) (hT : t < T) : ∃ c, column rows t = some c := by
  obtain ⟨a, ha⟩ := getCell_isSome h (r := S) (by decide) h0 hT
  obtain ⟨b, hb⟩ := getCell_isSome h (r := I) (by decide) h0 hT
  obtain ⟨c, hc⟩ := getCell_isSome h (r := R) (by decide) h0 hT
  exact ⟨(a, b, c), by simp [column, ha, hb, hc]⟩

theorem column_cells {rows : List (List F64)} {t : Int} {a b c : F64}
    (h : column rows t = some (a, b, c)) :
    getCell rows S t = some a ∧ getCell rows I t = some b ∧ getCell rows R t = some c := by
  unfold column at h
  cases hS : getCell rows S t with
  | none => simp [hS] at h
  | some x =>
    cases hI : getCell rows I t with
    | none => simp [hS, hI] at h
    | some y =>
      cases hR : getCell rows R t with
      | none => simp [hS, hI, hR] at h
      | some z =>
        simp [hS, hI, hR] at h
        obtain ⟨h1, h2, h3⟩ := h
        subst h1; subst h2; subst h3
        exact ⟨rfl, rfl, rfl⟩

theorem setPriorColumn_spec {T : Nat} (po : PartialObserved) (h : Shape T po.Prior.Values)
    {t : Int} (h0 : 0 ≤ t) (hT : t < T) (a b c : F64) :
    ∃ rows2, po.setPriorColumn t a b c =
        some { po with Prior := { po.Prior with Values := rows2 } } ∧
      Shape T rows2 ∧ column rows2 t = some (a, b, c) ∧
      ∀ t2, t2 ≠ t → column rows2 t2 = column po.Prior.Values t2 := by
  obtain ⟨r1, e1, s1, g1, o1⟩ := setCell_spec h (r := S) (by decide) h0 hT a
  obtain ⟨r2, e2, s2, g2, o2⟩ := setCell_spec s1 (r := I) (by decide) h0 hT b
  obtain ⟨r3, e3, s3, g3, o3⟩ := setCell_spec s2 (r := R) (by decide) h0 hT c
  obtain ⟨q, hq, sq, cq, oq⟩ := setColumn_spec h h0 hT a b c
  simp only [e1, e2, e3, Option.some_bind, Option.some.injEq] at hq
  subst hq
  refine ⟨r3, ?_, sq, cq, oq⟩
  simp [PartialObserved.setPriorColumn, PartialObserved.setPrior, e1, e2, e3]

theorem setPosteriorColumn_spec {T : Nat} (po : PartialObserved)
    (h : Shape T po.PosteriorSample.Values) {t : Int} (h0 : 0 ≤ t) (hT : t < T) (a b c : F64) :
    ∃ rows2, po.setPosteriorColumn t a b c =
        some { po with PosteriorSample := { po.PosteriorSample with Values := rows2 } } ∧
      Shape T rows2 ∧ column rows2 t = some (a, b, c) ∧
      ∀ t2, t2 ≠ t → column rows2 t2 = column po.PosteriorSample.Values t2 := by
  obtain ⟨r1, e1, s1, g1, o1⟩ := setCell_spec h (r := S) (by decide) h0 hT a
  obtain ⟨r2, e2, s2, g2, o2⟩ := setCell_spec s1 (r := I) (by decide) h0 hT b
  obtain ⟨r3, e3, s3, g3, o3⟩ := setCell_spec s2 (r := R) (by decide) h0 hT c
  obtain ⟨q, hq, sq, cq, oq⟩ := setColumn_spec h h0 hT a b c
  simp only [e1, e2, e3, Option.some_bind, Option.some.injEq] at hq
  subst hq
  refine ⟨r3, ?_, sq, cq, oq⟩
  simp [PartialObserved.setPosteriorColumn, PartialObserved.setPosterior, e1, e2, e3]

/-! ## Loops that write columns of the prior -/

theorem forLoopAux_priorColumns {T : Nat} (c : Int → F64 × F64 × F64)
    (body : Int → PartialObserved → Option PartialObserved)
    (hbody : ∀ t po, body t po = po.setPriorColumn t (c t).1 (c t).2.1 (c t).2.2) :
    ∀ (n : Nat) (lo : Int) (po : PartialObserved), Shape T po.Prior.Values → 0 ≤ lo →
      lo + n ≤ T →
      ∃ rows2, forLoopAux body n lo po =
          some { po with Prior := { po.Prior with Values := rows2 } } ∧
        Shape T rows2 ∧ (∀ t, lo ≤ t → t < lo + n → column rows2 t = some (c t)) ∧
        ∀ t, (t < lo ∨ lo + n ≤ t) → column rows2 t = column po.Prior.Values t := by
  intro n
  induction n with
  | zero =>
    intro lo po h _ _
    refine ⟨po.Prior.Values, rfl, h, ?_, fun _ _ => rfl⟩
    intro t h1 h2
    simp at h2
    omega
  | succ n ih =>
    intro lo po h h0 hT
    have hlt : lo < T := by push_cast at hT; omega
    obtain ⟨r1, e1, s1, c1, o1⟩ :=
      setPriorColumn_spec po h h0 hlt (c lo).1 (c lo).2.1 (c lo).2.2
    obtain ⟨r2, e2, s2, c2, o2⟩ :=
      ih (lo + 1) { po with Prior := { po.Prior with Values := r1 } } s1 (by omega)
        (by push_cast at hT; omega)
    refine ⟨r2, ?_, s2, ?_, ?_⟩
    · simp only [forLoopAux, hbody, e1, Option.some_bind]
      exact e2
    · intro t h1 h2
      by_cases ht : t = lo
      · subst ht
        rw [o2 t (Or.inl (by omega))]
        exact c1
      · exact c2 t (by omega) (by push_cast at h2; omega)
    · intro t ht
      rw [o2 t (by push_cast at ht; omega)]
      exact o1 t (by push_cast at ht; omega)

theorem forLoop_priorColumns {T : Nat} (c : Int → F64 × F64 × F64)
    (body : Int → PartialObserved → Option PartialObserved)
    (hbody : ∀ t po, body t po = po.setPriorColumn t (c t).1 (c t).2.1 (c t).2.2)
    (lo hi : Int) (po : PartialObserved) (h : Shape T po.Prior.Values) (h0 : 0 ≤ lo)
    (hT : hi ≤ T ∨ hi ≤ lo) :
    ∃ rows2, forLoop lo hi body po =
        some { po with Prior := { po.Prior with Values := rows2 } } ∧
      Shape T rows2 ∧ (∀ t, lo ≤ t → t < hi → column rows2 t = some (c t)) ∧
      ∀ t, (t < lo ∨ hi ≤ t) → column rows2 t = column po.Prior.Values t := by
  by_cases hle : hi ≤ lo
  · refine ⟨po.Prior.Values, ?_, h, ?_, fun _ _ => rfl⟩
    · have : (hi - lo).toNat = 0 := by omega
      simp [forLoop, this, forLoopAux]
    · intro t h1 h2
      omega
  · have hhi : hi ≤ T := by
      rcases hT with h1 | h1
      · exact h1
      · exact absurd h1 hle
    have hn : lo + ((hi - lo).toNat : Int) = hi := by omega
    obtain ⟨r2, e2, s2, c2, o2⟩ :=
      forLoopAux_priorColumns c body hbody (hi - lo).toNat lo po h h0 (by omega)
    refine ⟨r2, e2, s2, ?_, ?_⟩
    · intro t h1 h2
      exact c2 t h1 (by omega)
    · intro t ht
      exact o2 t (by omega)

/-! ## Freshly constructed matrices -/

theorem set_replicate_same (n i : Nat) (a : F64) :
    (List.replicate n a).set i a = List.replicate n a := by
  apply List.ext_getElem?
  intro j
  rw [List.getElem?_set]
  by_cases hij : i = j
  · subst hij
    by_cases hi : i < n
    · simp [hi]
    · simp [hi]
      omega
  · simp [hij]

theorem zeroVector_eq (length : Nat) : ZeroVector length = List.replicate length (F64.fin 0) := by
  unfold ZeroVector
  generalize List.range length = l
  induction l with
  | nil => rfl
  | cons i l ih => rw [List.foldl_cons, set_replicate_same]; exact ih

theorem newStateMatrix_SIR (T : Nat) :
    NewStateMatrix T ["S", "I", "R"] =
      { length := T
        Values := [List.replicate T (F64.fin 0), List.replicate T (F64.fin 0),
          List.replicate T (F64.fin 0)]
        orderedStates := ["S", "I", "R"]
        States := [("S", 0), ("I", 1), ("R", 2)] } := by
  simp [NewStateMatrix, StateMap.insert, zeroVector_eq, List.enum, List.enumFrom, List.range,
    List.range.loop]

theorem shape_new (T : Nat) : Shape T (NewStateMatrix T ["S", "I", "R"]).Values := by
  rw [newStateMatrix_SIR]
  refine ⟨rfl, ?_⟩
  intro row hrow
  simp at hrow
  rw [hrow, List.length_replicate]

theorem column_new (T : Nat) {t : Int} (h0 : 0 ≤ t) (hT : t < T) :
    column (NewStateMatrix T ["S", "I", "R"]).Values t =
      some (F64.fin 0, F64.fin 0, F64.fin 0) := by
  have hlt : t.toNat < T := by omega
  rw [newStateMatrix_SIR]
  simp [column, getCell, S, I, R, not_lt.mpr h0, hlt]

/-! ## Log-domain addition -/

theorem LogVal.add_zero (x : LogVal) : LogVal.add x LogVal.zero = x := by
  cases x <;> simp [LogVal.add, LogVal.zero]

theorem LogVal.zero_add (x : LogVal) : LogVal.add LogVal.zero x = x := by
  cases x <;> simp [LogVal.add, LogVal.zero]

theorem LogVal.add_assoc (x y z : LogVal) :
    LogVal.add (LogVal.add x y) z = LogVal.add x (LogVal.add y z) := by
  cases x <;> cases y <;> cases z <;> simp [LogVal.add, mul_assoc]

/-! ## One forward step -/

theorem oneHot_hot {st : Nat} : OneHot (hot st) := by
  unfold hot OneHot
  split_ifs <;> simp

theorem step_spec {T : Nat} (po : PartialObserved) (t : Int) (StoI ItoR : F64) (rng : RNG)
    (hP : Shape T po.Prior.Values) (hQ : Shape T po.PosteriorSample.Values) (h0 : 0 ≤ t)
    (hT : t + 1 < T) {c : F64 × F64 × F64} (hc : column po.PosteriorSample.Values t = some c)
    (hhot : OneHot c) :
    ∃ ret rows2 lp rng2, Step po t StoI ItoR rng =
        some (ret, { po with PosteriorSample := { po.PosteriorSample with Values := rows2 }
                             PosteriorLP := lp }, rng2) ∧
      Shape T rows2 ∧
      (∀ t2, t2 ≠ t + 1 → column rows2 t2 = column po.PosteriorSample.Values t2) ∧
      (c = onlyR → rng2 = rng) ∧
      ∃ c2, column rows2 (t + 1) = some c2 ∧ Move c c2 ∧
        lp = LogVal.add po.PosteriorLP (moveLP StoI ItoR c c2) ∧
        ret = (if c2 = onlyI then F64.fin 1 else F64.fin 0) := by
  have h1 : (0 : Int) ≤ t + 1 := by omega
  obtain ⟨pS, hpS⟩ := getCell_isSome hP (r := S) (by decide) h1 hT
  obtain ⟨pI, hpI⟩ := getCell_isSome hP (r := I) (by decide) h1 hT
  obtain ⟨pR, hpR⟩ := getCell_isSome hP (r := R) (by decide) h1 hT
  obtain ⟨rS, eS, sS, cS, oS⟩ :=
    setPosteriorColumn_spec po hQ h1 hT (F64.fin 1) (F64.fin 0) (F64.fin 0)
  obtain ⟨rI, eI, sI, cI, oI⟩ :=
    setPosteriorColumn_spec po hQ h1 hT (F64.fin 0) (F64.fin 1) (F64.fin 0)
  obtain ⟨rR, eR, sR, cR, oR⟩ :=
    setPosteriorColumn_spec po hQ h1 hT (F64.fin 0) (F64.fin 0) (F64.fin 1)
  rcases hhot with hc1 | hc1 | hc1
  · -- susceptible at `t`
    subst hc1
    obtain ⟨gS, -, -⟩ := column_cells hc
    cases hd : (rateAndDraw StoI
        (F64.div (F64.mul pI StoI)
          (F64.add (F64.mul pI StoI) (F64.mul pS (F64.sub (F64.fin 1) StoI)))) rng).1 with
    | true =>
      refine ⟨F64.fin 1, rI, LogVal.add po.PosteriorLP (F64.log StoI), (rateAndDraw StoI
        (F64.div (F64.mul pI StoI)
          (F64.add (F64.mul pI StoI) (F64.mul pS (F64.sub (F64.fin 1) StoI)))) rng).2,
        ?_, sI, oI, ?_,
        onlyI, cI, ?_, ?_, ?_⟩
      · simp [Step, gS, F64.eq, stepFromS, hpI, hpS, hd, eI]
      · intro h; simp [onlyS, onlyR] at h
      · exact Or.inl ⟨rfl, Or.inr rfl⟩
      · simp [moveLP]
      · simp
    | false =>
      refine ⟨F64.fin 0, rS, LogVal.add po.PosteriorLP (F64.log (F64.sub (F64.fin 1) StoI)),
        (rateAndDraw StoI
        (F64.div (F64.mul pI StoI)
          (F64.add (F64.mul pI StoI) (F64.mul pS (F64.sub (F64.fin 1) StoI)))) rng).2,
        ?_, sS, oS, ?_, onlyS, cS, ?_, ?_, ?_⟩
      · simp [Step, gS, F64.eq, stepFromS, hpI, hpS, hd, eS]
      · intro h; simp [onlyS, onlyR] at h
      · exact Or.inl ⟨rfl, Or.inl rfl⟩
      · simp [moveLP, onlyS, onlyI]
      · simp [onlyS, onlyI]
  · -- infected at `t`
    subst hc1
    obtain ⟨gS, gI, -⟩ := column_cells hc
    cases hd : (rateAndDraw ItoR
        (F64.div (F64.mul pR ItoR)
          (F64.add (F64.mul pR ItoR) (F64.mul pI (F64.sub (F64.fin 1) ItoR)))) rng).1 with
    | true =>
      refine ⟨F64.fin 0, rR, LogVal.add po.PosteriorLP (F64.log ItoR), (rateAndDraw ItoR
        (F64.div (F64.mul pR ItoR)
          (F64.add (F64.mul pR ItoR) (F64.mul pI (F64.sub (F64.fin 1) ItoR)))) rng).2,
        ?_, sR, oR, ?_,
        onlyR, cR, ?_, ?_, ?_⟩
      · simp [Step, gS, gI, F64.eq, stepFromI, hpI, hpR, hd, eR]
      · intro h; simp [onlyI, onlyR] at h
      · exact Or.inr (Or.inl ⟨rfl, Or.inr rfl⟩)
      · simp [moveLP, onlyS, onlyI, onlyR]
      · simp [onlyI, onlyR]
    | false =>
      refine ⟨F64.fin 1, rI, LogVal.add po.PosteriorLP (F64.log (F64.sub (F64.fin 1) ItoR)),
        (rateAndDraw ItoR
        (F64.div (F64.mul pR ItoR)
          (F64.add (F64.mul pR ItoR) (F64.mul pI (F64.sub (F64.fin 1) ItoR)))) rng).2,
        ?_, sI, oI, ?_, onlyI, cI, ?_, ?_, ?_⟩
      · simp [Step, gS, gI, F64.eq, stepFromI, hpI, hpR, hd, eI]
      · intro h; simp [onlyI, onlyR] at h
      · exact Or.inr (Or.inl ⟨rfl, Or.inl rfl⟩)
      · simp [moveLP, onlyS, onlyI, onlyR]
      · simp
  · -- recovered at `t`
    subst hc1
    obtain ⟨gS, gI, gR⟩ := column_cells hc
    refine ⟨F64.fin 0, rR, po.PosteriorLP, rng, ?_, sR, oR, fun _ => rfl, onlyR, cR, ?_, ?_, ?_⟩
    · simp [Step, gS, gI, gR, F64.eq, eR]
    · exact Or.inr (Or.inr ⟨rfl, rfl⟩)
    · simp [moveLP, onlyS, onlyI, onlyR, LogVal.add_zero]
    · simp [onlyI, onlyR]

/-! ## The starting state -/

theorem startingLoop_three (a b c x : F64) :
    startingLoop [a, b, c] x 3 0 (F64.fin 0) 0 (F64.fin 0) =
      some
        (if F64.eq a (F64.fin 0) = false ∧ F64.le x (F64.addRound (F64.fin 0) a) = true then (0, a)
         else if F64.eq b (F64.fin 0) = false ∧
            F64.le x (F64.addRound (if F64.eq a (F64.fin 0) then F64.fin 0
              else F64.addRound (F64.fin 0) a) b) = true then (1, b)
         else if F64.eq c (F64.fin 0) = false ∧
            F64.le x (F64.addRound (if F64.eq b (F64.fin 0) then
                (if F64.eq a (F64.fin 0) then F64.fin 0 else F64.addRound (F64.fin 0) a)
              else F64.addRound (if F64.eq a (F64.fin 0) then F64.fin 0
                else F64.addRound (F64.fin 0) a) b) c) = true then (2, c)
         else (0, c)) := by
  simp only [startingLoop, List.getElem?_cons_zero, List.getElem?_cons_succ, zero_add]
  cases ha : F64.eq a (F64.fin 0) <;> cases hb : F64.eq b (F64.fin 0) <;>
    cases hc : F64.eq c (F64.fin 0) <;>
    cases h1 : F64.le x (F64.addRound (F64.fin 0) a) <;> simp <;>
    split_ifs <;> simp_all

theorem startingLoop_total (sp : List F64) (x : F64) (h : sp.length = 3) :
    ∃ st pr, startingLoop sp x 3 0 (F64.fin 0) 0 (F64.fin 0) = some (st, pr) ∧ st < 3 := by
  obtain ⟨a, b, c, rfl⟩ := List.length_eq_three.mp h
  rw [startingLoop_three]
  split_ifs <;> exact ⟨_, _, rfl, by decide⟩

theorem sampleStartingState_of_loop {T : Nat} (po : PartialObserved) (rd : RNG) {st : Nat}
    {pr : F64}
    (hsel : startingLoop po.StartingProbabilities (rd.uniformAt rd.pos) 3 0 (F64.fin 0) 0
      (F64.fin 0) = some (st, pr))
    (hst : st < 3) (hT : 0 < T) (hQ : Shape T po.PosteriorSample.Values)
    (hz : column po.PosteriorSample.Values 0 = some (F64.fin 0, F64.fin 0, F64.fin 0)) :
    ∃ rows2, SampleStartingState po rd =
        some (if st = I then F64.fin 1 else F64.fin 0,
          { po with PosteriorSample := { po.PosteriorSample with Values := rows2 }
                    PosteriorLP := LogVal.add po.PriorLP (F64.log pr) },
          { rd with pos := rd.pos + 1 }) ∧
      Shape T rows2 ∧ column rows2 0 = some (hot st) ∧
      ∀ t, t ≠ 0 → column rows2 t = column po.PosteriorSample.Values t := by
  have hT2 : (0 : Int) < T := by omega
  obtain ⟨r1, e1, s1, g1, o1⟩ := setCell_spec hQ hst (le_refl (0 : Int)) hT2 (F64.fin 1)
  obtain ⟨zS, zI, zR⟩ := column_cells hz
  refine ⟨r1, ?_, s1, ?_, ?_⟩
  · simp [SampleStartingState, RNG.UniformRandomFloat64, hsel, PartialObserved.setPosterior, e1,
      LogVal.zero_add]
  · have hcases : st = 0 ∨ st = 1 ∨ st = 2 := by omega
    rcases hcases with h | h | h
    · subst h
      have hI : getCell r1 I 0 = some (F64.fin 0) := by
        rw [o1 I 0 (Or.inl (by decide)), zI]
      have hR : getCell r1 R 0 = some (F64.fin 0) := by
        rw [o1 R 0 (Or.inl (by decide)), zR]
      have hS : getCell r1 S 0 = some (F64.fin 1) := g1
      rw [show hot 0 = onlyS from rfl]
      simp [column, hS, hI, hR, onlyS]
    · subst h
      have hS : getCell r1 S 0 = some (F64.fin 0) := by
        rw [o1 S 0 (Or.inl (by decide)), zS]
      have hR : getCell r1 R 0 = some (F64.fin 0) := by
        rw [o1 R 0 (Or.inl (by decide)), zR]
      have hI : getCell r1 I 0 = some (F64.fin 1) := g1
      rw [show hot 1 = onlyI from rfl]
      simp [column, hS, hI, hR, onlyI]
    · subst h
      have hS : getCell r1 S 0 = some (F64.fin 0) := by
        rw [o1 S 0 (Or.inl (by decide)), zS]
      have hI : getCell r1 I 0 = some (F64.fin 0) := by
        rw [o1 I 0 (Or.inl (by decide)), zI]
      have hR : getCell r1 R 0 = some (F64.fin 1) := g1
      rw [show hot 2 = onlyR from rfl]
      simp [column, hS, hI, hR, onlyR]
  · intro t ht
    unfold column
    rw [o1 S t (Or.inr ht), o1 I t (Or.inr ht), o1 R t (Or.inr ht)]

/-! ## The forward pass -/

theorem forLoopAux_succ_last {σ : Type} (body : Int → σ → Option σ) :
    ∀ (n : Nat) (lo : Int) (s : σ),
      forLoopAux body (n + 1) lo s = (forLoopAux body n lo s).bind (body (lo + n)) := by
  intro n
  induction n with
  | zero =>
    intro lo s
    simp [forLoopAux]
  | succ n ih =>
    intro lo s
    rw [forLoopAux]
    cases hb : body lo s with
    | none => simp [forLoopAux, hb]
    | some s1 =>
      simp only [Option.some_bind]
      rw [ih (lo + 1) s1]
      conv_rhs => rw [forLoopAux]
      simp only [hb, Option.some_bind]
      have : lo + 1 + (n : Int) = lo + ((n + 1 : Nat) : Int) := by push_cast; ring
      rw [this]

theorem realizedLP_congr (StoI ItoR : F64) {rows rows2 : List (List F64)} :
    ∀ (n : Nat), (∀ t : Int, 0 ≤ t → t ≤ n → column rows2 t = column rows t) →
      realizedLP StoI ItoR rows2 n = realizedLP StoI ItoR rows n := by
  intro n
  induction n with
  | zero => intro _; rfl
  | succ n ih =>
    intro h
    have h1 := ih (fun t h0 hn => h t h0 (by push_cast; omega))
    have h2 := h (n : Int) (by omega) (by push_cast; omega)
    have h3 := h ((n : Int) + 1) (by omega) (by push_cast; omega)
    simp only [realizedLP, h1, h2, h3]

theorem oneHot_of_move {c c2 : F64 × F64 × F64} (h : Move c c2) : OneHot c2 := by
  unfold OneHot
  rcases h with ⟨-, h | h⟩ | ⟨-, h | h⟩ | ⟨-, h⟩ <;> simp [h]

theorem steps_spec {T : Nat} (StoI ItoR : F64) (po : PartialObserved) (rng : RNG)
    (hP : Shape T po.Prior.Values) (hQ : Shape T po.PosteriorSample.Values)
    {c0 : F64 × F64 × F64} (hc0 : column po.PosteriorSample.Values 0 = some c0)
    (hh : OneHot c0) :
    ∀ n : Nat, (n : Int) < T →
      ∃ rows2 lp rng2, forLoopAux (stepBody StoI ItoR) n 0 (po, rng) =
          some ({ po with PosteriorSample := { po.PosteriorSample with Values := rows2 }
                          PosteriorLP := lp }, rng2) ∧
        Shape T rows2 ∧ column rows2 0 = some c0 ∧
        (∀ t : Int, 0 ≤ t → t ≤ n → ∃ c, column rows2 t = some c ∧ OneHot c) ∧
        (∀ t : Int, 0 ≤ t → t < n →
          ∃ c c2, column rows2 t = some c ∧ column rows2 (t + 1) = some c2 ∧ Move c c2) ∧
        (∀ t : Int, (n : Int) < t → column rows2 t = column po.PosteriorSample.Values t) ∧
        lp = LogVal.add po.PosteriorLP (realizedLP StoI ItoR rows2 n) := by
  intro n
  induction n with
  | zero =>
    intro _
    refine ⟨po.PosteriorSample.Values, po.PosteriorLP, rng, rfl, hQ, hc0, ?_, ?_, fun _ _ => rfl,
      ?_⟩
    · intro t h0 h1
      have : t = 0 := by simp at h1; omega
      subst this
      exact ⟨c0, hc0, hh⟩
    · intro t h0 h1
      simp at h1
      omega
    · simp [realizedLP, LogVal.add_zero]
  | succ n ih =>
    intro hn
    have hn1 : (n : Int) + 1 < T := by push_cast at hn; exact hn
    obtain ⟨rows1, lp1, rng1, e1, s1, z1, hot1, mv1, later1, hlp1⟩ := ih (by omega)
    obtain ⟨c, hc, hhc⟩ := hot1 (n : Int) (by omega) (le_refl _)
    obtain ⟨ret, rows2, lp2, rng2, e2, s2, o2, -, c2, hc2, hmv, hlp2, -⟩ :=
      step_spec
        { po with PosteriorSample := { po.PosteriorSample with Values := rows1 }
                  PosteriorLP := lp1 }
        (n : Int) StoI ItoR rng1 hP s1 (by omega) hn1 hc hhc
    have keep : ∀ t : Int, t ≤ n → column rows2 t = column rows1 t := by
      intro t ht
      exact o2 t (by omega)
    refine ⟨rows2, lp2, rng2, ?_, s2, ?_, ?_, ?_, ?_, ?_⟩
    · rw [forLoopAux_succ_last, e1]
      simp only [Option.some_bind, zero_add, stepBody, e2, Option.map_some']
    · rw [keep 0 (by omega)]
      exact z1
    · intro t h0 h1
      by_cases ht : t = (n : Int) + 1
      · subst ht
        exact ⟨c2, hc2, oneHot_of_move hmv⟩
      · have hle : t ≤ n := by push_cast at h1; omega
        rw [keep t hle]
        exact hot1 t h0 hle
    · intro t h0 h1
      by_cases ht : t = (n : Int)
      · subst ht
        refine ⟨c, c2, ?_, hc2, hmv⟩
        rw [keep _ (le_refl _)]
        exact hc
      · have hlt : t < n := by push_cast at h1; omega
        obtain ⟨d, d2, hd, hd2, hm⟩ := mv1 t h0 hlt
        refine ⟨d, d2, ?_, ?_, hm⟩
        · rw [keep t (by omega)]; exact hd
        · rw [keep (t + 1) (by omega)]; exact hd2
    · intro t ht
      have h1 : t ≠ (n : Int) + 1 := by push_cast at ht; omega
      have h2 : (n : Int) < t := by push_cast at ht; omega
      have h3 := o2 t h1
      simp only at h3
      rw [h3]
      exact later1 t h2
    · have hr : realizedLP StoI ItoR rows2 n = realizedLP StoI ItoR rows1 n :=
        realizedLP_congr StoI ItoR n (fun t _ ht => keep t ht)
      have hcn : column rows2 (n : Int) = some c := by
        rw [keep _ (le_refl _)]; exact hc
      simp only [realizedLP, hr, hcn, hc2]
      rw [hlp2, ← LogVal.add_assoc]
      simp only
      rw [hlp1]

theorem forwardPass_spec {T : Nat} (po : PartialObserved) (n : Nat) (StoI ItoR : F64) (rng : RNG)
    (hP : Shape T po.Prior.Values) (hQ : Shape T po.PosteriorSample.Values)
    (hz : column po.PosteriorSample.Values 0 = some (F64.fin 0, F64.fin 0, F64.fin 0))
    (hn : n < T) {st : Nat} {pr : F64}
    (hsel : startingLoop po.StartingProbabilities (rng.uniformAt rng.pos) 3 0 (F64.fin 0) 0
      (F64.fin 0) = some (st, pr))
    (hst : st < 3) :
    ∃ rows2 lp rng2, forwardPass po n StoI ItoR rng =
        some ({ po with PosteriorSample := { po.PosteriorSample with Values := rows2 }
                        PosteriorLP := lp }, rng2) ∧
      Shape T rows2 ∧ column rows2 0 = some (hot st) ∧
      (∀ t : Int, 0 ≤ t → t ≤ n → ∃ c, column rows2 t = some c ∧ OneHot c) ∧
      (∀ t : Int, 0 ≤ t → t < n →
        ∃ c c2, column rows2 t = some c ∧ column rows2 (t + 1) = some c2 ∧ Move c c2) ∧
      (∀ t : Int, (n : Int) < t → column rows2 t = column po.PosteriorSample.Values t) ∧
      lp = LogVal.add (LogVal.add po.PriorLP (F64.log pr)) (realizedLP StoI ItoR rows2 n) := by
  obtain ⟨rows1, e1, s1, c1, o1⟩ :=
    sampleStartingState_of_loop po rng hsel hst (by omega) hQ hz
  obtain ⟨rows2, lp, rng2, e2, s2, z2, hot2, mv2, later2, hlp⟩ :=
    steps_spec StoI ItoR
      { po with PosteriorSample := { po.PosteriorSample with Values := rows1 }
                PosteriorLP := LogVal.add po.PriorLP (F64.log pr) }
      { rng with pos := rng.pos + 1 } hP s1 c1 oneHot_hot n (by omega)
  refine ⟨rows2, lp, rng2, ?_, s2, z2, hot2, mv2, ?_, hlp⟩
  · simp only [forwardPass, e1, Option.some_bind, forLoop, sub_zero, Int.toNat_ofNat]
    exact e2
  · intro t ht
    rw [later2 t ht]
    exact o1 t (by omega)

/-! ## The prior constructor -/

theorem nonObsTimes_isSome (l : List Int) (t : Int) :
    (nonObsTimes l t).isSome = true ↔ t ∈ l := by
  unfold nonObsTimes
  have gen : ∀ (l : List Int) (m : Int → Option Bool),
      ((l.foldl (fun m nt => fun t => if t = nt then some true else m t) m) t).isSome = true ↔
        (t ∈ l ∨ (m t).isSome = true) := by
    intro l
    induction l with
    | nil => intro m; simp
    | cons a l ih =>
      intro m
      rw [List.foldl_cons, ih]
      by_cases hta : t = a
      · simp [hta]
      · simp [hta]
  rw [gen]
  simp

theorem defaultLoop_spec {T : Nat} (po : PartialObserved) (nonInfObs : List Int)
    (hP : Shape T po.Prior.Values) :
    ∃ rows2, forLoop 0 (T : Int) (defaultPriorBody (nonObsTimes nonInfObs)) po =
        some { po with Prior := { po.Prior with Values := rows2 } } ∧
      Shape T rows2 ∧
      ∀ t : Int, 0 ≤ t → t < T → column rows2 t = some (defaultColumn nonInfObs t) := by
  obtain ⟨rows2, e, s, c, -⟩ :=
    forLoop_priorColumns (T := T) (defaultColumn nonInfObs)
      (defaultPriorBody (nonObsTimes nonInfObs))
      (by
        intro t po
        unfold defaultPriorBody defaultColumn
        by_cases h : t ∈ nonInfObs
        · simp [(nonObsTimes_isSome nonInfObs t).mpr h, h]
        · have : (nonObsTimes nonInfObs t).isSome = false := by
            cases hh : (nonObsTimes nonInfObs t).isSome
            · rfl
            · exact absurd ((nonObsTimes_isSome nonInfObs t).mp hh) h
          simp [this, h])
      0 (T : Int) po hP (le_refl _) (Or.inl (le_refl _))
  exact ⟨rows2, e, s, c⟩

theorem sampleGeometricInfectiousPeriod_eq (io : Int) (gamma : F64) (rng : RNG) :
    SampleGeometricInfectiousPeriod io gamma rng =
      ((max 0 (io - rng.uniformIntAt (rng.pos + 1) (GeometricSample gamma rng).1),
        io - rng.uniformIntAt (rng.pos + 1) (GeometricSample gamma rng).1 +
          (GeometricSample gamma rng).1),
       { rng with pos := rng.pos + 2 }) := by
  simp only [SampleGeometricInfectiousPeriod, GeometricSample, RNG.ExponentialRandomFloat64,
    RNG.UniformRandomInt]
  congr 2
  split_ifs with h
  · rw [max_eq_left (le_of_lt h)]
  · rw [max_eq_right (not_lt.mp h)]

theorem infectionObservationBody_spec {T : Nat} (gamma : F64) (po : PartialObserved) (rng : RNG)
    (io d k : Int) (hP : Shape T po.Prior.Values) (hlen : po.Prior.Len = T)
    (hio0 : 0 ≤ io) (hioT : io < T)
    (hd : (GeometricSample gamma rng).1 = d) (hk : rng.uniformIntAt (rng.pos + 1) d = k)
    (hk0 : 0 ≤ k) (hkd : k < d) :
    ∃ rows2, infectionObservationBody gamma (po, rng) io =
        some ({ po with
                Prior := { po.Prior with Values := rows2 }
                PriorLP := LogVal.add po.PriorLP
                  (F64.log (F64.div (F64.fin 1)
                    (F64.ofInt (min (io - k + d) ((T : Int) - 1) - max 0 (io - k))))) },
              { rng with pos := rng.pos + 2 }) ∧
      WindowWritten T (max 0 (io - k)) (min (io - k + d) ((T : Int) - 1)) po.Prior.Values rows2 := by
  have hs0 : (0 : Int) ≤ max 0 (io - k) := le_max_left _ _
  have hsio : max 0 (io - k) ≤ io := max_le hio0 (by omega)
  have hioe : io ≤ min (io - k + d) ((T : Int) - 1) := le_min (by omega) (by omega)
  have heT : min (io - k + d) ((T : Int) - 1) ≤ (T : Int) - 1 := min_le_right _ _
  have hclamp : (if io - k + d ≥ (T : Int) then (T : Int) - 1 else io - k + d) =
      min (io - k + d) ((T : Int) - 1) := by
    split_ifs with h
    · rw [min_eq_right (by omega)]
    · rw [min_eq_left (by omega)]
  generalize hsdef : max 0 (io - k) = s at *
  generalize hedef : min (io - k + d) ((T : Int) - 1) = e at *
  obtain ⟨r1, e1, s1, c1, o1⟩ :=
    forLoop_priorColumns (T := T) (fun _ => onlyI)
      (fun t po => po.setPriorColumn t (F64.fin 0) (F64.fin 1) (F64.fin 0)) (fun _ _ => rfl)
      s (e + 1) po hP hs0 (Or.inl (by omega))
  obtain ⟨r2, e2, s2, c2, o2⟩ :=
    forLoop_priorColumns (T := T) (fun _ => onlyS)
      (fun t po => po.setPriorColumn t (F64.fin 1) (F64.fin 0) (F64.fin 0)) (fun _ _ => rfl)
      0 s { po with Prior := { po.Prior with Values := r1 } } s1 (le_refl _)
      (Or.inl (by omega))
  obtain ⟨r3, e3, s3, c3, o3⟩ :=
    forLoop_priorColumns (T := T) (fun _ => onlyR)
      (fun t po => po.setPriorColumn t (F64.fin 0) (F64.fin 0) (F64.fin 1)) (fun _ _ => rfl)
      (e + 1) ((T : Int) - 1) { po with Prior := { po.Prior with Values := r2 } } s2
      (by omega) (Or.inl (by omega))
  refine ⟨r3, ?_, s3, ?_, ?_, ?_, ?_⟩
  · have hlen2 : (po.Prior.length : Int) = T := by
      have := hlen
      unfold StateMatrix.Len at this
      rw [this]
    simp only [infectionObservationBody, sampleGeometricInfectiousPeriod_eq, hd, hk,
      StateMatrix.Len, hlen2, hclamp, hsdef, hedef, e1, e2, e3, Option.some_bind]
  · intro t h0 hlt
    rw [o3 t (Or.inl (by omega))]
    exact c2 t h0 hlt
  · intro t h1 h2
    rw [o3 t (Or.inl (by omega)), o2 t (Or.inr h1)]
    exact c1 t h1 (by omega)
  · intro t h1 h2
    exact c3 t (by omega) h2
  · intro h
    rw [o3 _ (Or.inr (le_refl _)), o2 _ (Or.inr (by omega)), o1 _ (Or.inr (by omega))]

theorem window_bounds {T : Nat} {io d k : Int} (hio0 : 0 ≤ io) (hioT : io < T) (hk0 : 0 ≤ k)
    (hkd : k < d) :
    0 ≤ max 0 (io - k) ∧ max 0 (io - k) ≤ io ∧ io ≤ min (io - k + d) ((T : Int) - 1) ∧
      min (io - k + d) ((T : Int) - 1) ≤ (T : Int) - 1 :=
  ⟨le_max_left _ _, max_le hio0 (by omega), le_min (by omega) (by omega), min_le_right _ _⟩

theorem observations_fold {T : Nat} (gamma : F64) (P : List (List F64) → Prop)
    (hPres : ∀ rows rows2 (s e : Int), P rows → 0 ≤ s → s ≤ e → e ≤ (T : Int) - 1 →
      WindowWritten T s e rows rows2 → P rows2) :
    ∀ (l : List Int) (po : PartialObserved) (rng : RNG), Shape T po.Prior.Values →
      po.Prior.Len = T → GoodDraws rng → (∀ io ∈ l, 0 ≤ io ∧ io < (T : Int)) →
      P po.Prior.Values →
      ∃ rows2 lp n, l.foldlM (infectionObservationBody gamma) (po, rng) =
          some ({ po with Prior := { po.Prior with Values := rows2 }, PriorLP := lp },
                { rng with pos := n }) ∧
        Shape T rows2 ∧ P rows2 := by
  intro l
  induction l with
  | nil =>
    intro po rng hP _ _ _ hp
    exact ⟨po.Prior.Values, po.PriorLP, rng.pos, rfl, hP, hp⟩
  | cons io l ih =>
    intro po rng hP hlen hg hio hp
    obtain ⟨hio0, hioT⟩ := hio io (List.mem_cons_self _ _)
    have hd1 : 1 ≤ (GeometricSample gamma rng).1 := hg.1 _ _
    obtain ⟨hk0, hkd⟩ := hg.2 (rng.pos + 1) _ hd1
    obtain ⟨r1, e1, w1⟩ :=
      infectionObservationBody_spec gamma po rng io _ _ hP hlen hio0 hioT rfl rfl hk0 hkd
    obtain ⟨b0, b1, b2, b3⟩ := window_bounds (T := T) hio0 hioT hk0 hkd
    have hp1 := hPres _ _ _ _ hp b0 (le_trans b1 b2) b3 w1
    obtain ⟨r2, lp, n, e2, s2, p2⟩ :=
      ih { po with
            Prior := { po.Prior with Values := r1 }
            PriorLP := LogVal.add po.PriorLP
              (F64.log (F64.div (F64.fin 1)
                (F64.ofInt (min (io - rng.uniformIntAt (rng.pos + 1) (GeometricSample gamma rng).1 +
                    (GeometricSample gamma rng).1) ((T : Int) - 1) -
                  max 0 (io - rng.uniformIntAt (rng.pos + 1) (GeometricSample gamma rng).1))))) }
        { rng with pos := rng.pos + 2 } w1.1 hlen hg
        (fun x hx => hio x (List.mem_cons_of_mem _ hx)) hp1
    refine ⟨r2, lp, n, ?_, s2, p2⟩
    rw [List.foldlM_cons, e1]
    exact e2

theorem shape_of_eq_new {T : Nat} {sm : StateMatrix} (h : sm = NewStateMatrix T ["S", "I", "R"]) :
    Shape T sm.Values ∧
      ∀ t : Int, 0 ≤ t → t < T → column sm.Values t = some (F64.fin 0, F64.fin 0, F64.fin 0) := by
  subst h
  exact ⟨shape_new T, fun t h0 hT => column_new T h0 hT⟩

/-! ## Chains of moves -/

theorem onlyS_ne_onlyI : onlyS ≠ onlyI := by simp [onlyS, onlyI]

theorem onlyS_ne_onlyR : onlyS ≠ onlyR := by simp [onlyS, onlyR]

theorem onlyI_ne_onlyR : onlyI ≠ onlyR := by simp [onlyI, onlyR]

theorem chain_recovered {rows : List (List F64)} {n : Int}
    (hmv : ∀ t : Int, 0 ≤ t → t < n →
      ∃ c c2, column rows t = some c ∧ column rows (t + 1) = some c2 ∧ Move c c2)
    {t : Int} (h0 : 0 ≤ t) (hR : column rows t = some onlyR) :
    ∀ k : Nat, t + k ≤ n → column rows (t + k) = some onlyR := by
  intro k
  induction k with
  | zero => intro _; simpa using hR
  | succ k ih =>
    intro hk
    have hprev := ih (by push_cast at hk; omega)
    obtain ⟨c, c2, hc, hc2, hm⟩ := hmv (t + k) (by omega) (by push_cast at hk; omega)
    rw [hprev] at hc
    have hceq : c = onlyR := (Option.some.inj hc).symm
    subst hceq
    have h2 : c2 = onlyR := by
      rcases hm with ⟨h, -⟩ | ⟨h, -⟩ | ⟨-, h⟩
      · exact absurd h.symm onlyS_ne_onlyR
      · exact absurd h.symm onlyI_ne_onlyR
      · exact h
    have : t + ((k + 1 : Nat) : Int) = t + k + 1 := by push_cast; ring
    rw [this, hc2, h2]

theorem chain_infected {rows : List (List F64)} {n : Int}
    (hmv : ∀ t : Int, 0 ≤ t → t < n →
      ∃ c c2, column rows t = some c ∧ column rows (t + 1) = some c2 ∧ Move c c2)
    {t : Int} (h0 : 0 ≤ t)
    (hI : column rows t = some onlyI ∨ column rows t = some onlyR) :
    ∀ k : Nat, t + k ≤ n →
      column rows (t + k) = some onlyI ∨ column rows (t + k) = some onlyR := by
  intro k
  induction k with
  | zero => intro _; simpa using hI
  | succ k ih =>
    intro hk
    have hprev := ih (by push_cast at hk; omega)
    obtain ⟨c, c2, hc, hc2, hm⟩ := hmv (t + k) (by omega) (by push_cast at hk; omega)
    have : t + ((k + 1 : Nat) : Int) = t + k + 1 := by push_cast; ring
    rw [this, hc2]
    rcases hprev with hp | hp
    · rw [hp] at hc
      have hceq : c = onlyI := (Option.some.inj hc).symm
      subst hceq
      rcases hm with ⟨h, -⟩ | ⟨-, h | h⟩ | ⟨h, -⟩
      · exact absurd h onlyS_ne_onlyI.symm
      · exact Or.inl (by rw [h])
      · exact Or.inr (by rw [h])
      · exact absurd h onlyI_ne_onlyR
    · rw [hp] at hc
      have hceq : c = onlyR := (Option.some.inj hc).symm
      subst hceq
      rcases hm with ⟨h, -⟩ | ⟨h, -⟩ | ⟨-, h⟩
      · exact absurd h.symm onlyS_ne_onlyR
      · exact absurd h.symm onlyI_ne_onlyR
      · exact Or.inr (by rw [h])

/-! ## Claims on the sampled trajectory -/

/-- C1: for every horizon `T ≥ 1`, every prior of horizon `T`, every rates, every starting
distribution of length 3 and every draws, the forward pass (SampleStartingState, then Step for
`t = 0, ..., T - 2`) on an individual whose posterior sample is fresh returns, and every time
column `t` in `[0, T)` of the posterior sample is one-hot. -/
theorem posteriorSample_oneHot (T : Nat) (po : PartialObserved) (StoI ItoR : F64) (rng : RNG)
    (hT : 1 ≤ T) (hP : Shape T po.Prior.Values)
    (hQ : po.PosteriorSample = NewStateMatrix T ["S", "I", "R"])
    (hsp : po.StartingProbabilities.length = 3) :
    ∃ po2 rng2, forwardPass po (T - 1) StoI ItoR rng = some (po2, rng2) ∧
      ∀ t : Int, 0 ≤ t → t < T →
        ∃ c, column po2.PosteriorSample.Values t = some c ∧ OneHot c := by
  obtain ⟨hsh, hzero⟩ := shape_of_eq_new hQ
  obtain ⟨st, pr, hsel, hst⟩ :=
    startingLoop_total po.StartingProbabilities (rng.uniformAt rng.pos) hsp
  obtain ⟨rows2, lp, rng2, e, -, -, hhot, -, -, -⟩ :=
    forwardPass_spec po (T - 1) StoI ItoR rng hP hsh (hzero 0 (le_refl _) (by omega))
      (by omega) hsel hst
  refine ⟨_, rng2, e, ?_⟩
  intro t h0 h1
  exact hhot t h0 (by omega)

/-- Witness of C1 at horizon 3. -/
theorem posteriorSample_oneHot_witness :
    (1 ≤ 3 ∧ Shape 3 examplePO.Prior.Values ∧
      examplePO.PosteriorSample = NewStateMatrix 3 ["S", "I", "R"] ∧
      examplePO.StartingProbabilities.length = 3) ∧
    ∃ po2 rng2, forwardPass examplePO (3 - 1) (F64.fin (1 / 2)) (F64.fin (1 / 2)) exampleRNG =
        some (po2, rng2) ∧
      ∀ t : Int, 0 ≤ t → t < (3 : Nat) →
        ∃ c, column po2.PosteriorSample.Values t = some c ∧ OneHot c :=
  ⟨⟨by decide, shape_new 3, rfl, rfl⟩,
    posteriorSample_oneHot 3 examplePO (F64.fin (1 / 2)) (F64.fin (1 / 2)) exampleRNG
      (by decide) (shape_new 3) rfl rfl⟩

/-- C2: on the trajectory the forward pass produces (fresh posterior sample, any prior, rates and
draws), a time marked R is followed by R at every later time, and a time marked I is followed
only by I or R, so S is not marked at any later time. -/
theorem posteriorSample_monotone (T : Nat) (po : PartialObserved) (StoI ItoR : F64) (rng : RNG)
    (hT : 1 ≤ T) (hP : Shape T po.Prior.Values)
    (hQ : po.PosteriorSample = NewStateMatrix T ["S", "I", "R"])
    (hsp : po.StartingProbabilities.length = 3) :
    ∃ po2 rng2, forwardPass po (T - 1) StoI ItoR rng = some (po2, rng2) ∧
      ∀ t t2 : Int, 0 ≤ t → t < t2 → t2 < T →
        (column po2.PosteriorSample.Values t = some onlyR →
          column po2.PosteriorSample.Values t2 = some onlyR) ∧
        (column po2.PosteriorSample.Values t = some onlyI →
          (column po2.PosteriorSample.Values t2 = some onlyI ∨
            column po2.PosteriorSample.Values t2 = some onlyR) ∧
          getCell po2.PosteriorSample.Values S t2 = some (F64.fin 0)) := by
  obtain ⟨hsh, hzero⟩ := shape_of_eq_new hQ
  obtain ⟨st, pr, hsel, hst⟩ :=
    startingLoop_total po.StartingProbabilities (rng.uniformAt rng.pos) hsp
  obtain ⟨rows2, lp, rng2, e, -, -, -, hmv, -, -⟩ :=
    forwardPass_spec po (T - 1) StoI ItoR rng hP hsh (hzero 0 (le_refl _) (by omega))
      (by omega) hsel hst
  refine ⟨_, rng2, e, ?_⟩
  intro t t2 h0 h1 h2
  have hk : t + (((t2 - t).toNat : Nat) : Int) = t2 := by omega
  have hle : t + (((t2 - t).toNat : Nat) : Int) ≤ ((T - 1 : Nat) : Int) := by omega
  constructor
  · intro hR
    have := chain_recovered hmv h0 hR (t2 - t).toNat hle
    rwa [hk] at this
  · intro hI
    have := chain_infected hmv h0 (Or.inl hI) (t2 - t).toNat hle
    rw [hk] at this
    refine ⟨this, ?_⟩
    rcases this with h | h
    · exact (column_cells h).1
    · exact (column_cells h).1

/-! ## The starting state for finite probabilities -/

theorem firstReaching_three (a b c x : ℚ) :
    firstReaching [a, b, c] x =
      if a ≠ 0 ∧ x ≤ a then some 0
      else if b ≠ 0 ∧ x ≤ a + b then some 1
      else if c ≠ 0 ∧ x ≤ a + b + c then some 2
      else none := by
  have hsum : ∀ p q r : ℚ, p + (q + r) = p + q + r := fun p q r => (add_assoc p q r).symm
  by_cases h1 : a ≠ 0 ∧ x ≤ a
  · simp [firstReaching, List.range, List.range.loop, List.find?_cons, h1]
  · by_cases h2 : b ≠ 0 ∧ x ≤ a + b
    · simp [firstReaching, List.range, List.range.loop, List.find?_cons, h1, h2]
    · by_cases h3 : c ≠ 0 ∧ x ≤ a + b + c
      · simp [firstReaching, List.range, List.range.loop, List.find?_cons, h1, h2, h3, hsum]
      · simp [firstReaching, List.range, List.range.loop, List.find?_cons, h1, h2, h3, hsum]

theorem cumulativeMass_at_zero (a b c : F64) :
    cumulativeMass [a, b, c] 0 = F64.addRound (F64.fin 0) a := by
  simp [cumulativeMass]

theorem cumulativeMass_at_one (a b c : F64) :
    cumulativeMass [a, b, c] 1 = F64.addRound (F64.addRound (F64.fin 0) a) b := by
  simp [cumulativeMass]

theorem cumulativeMass_at_two (a b c : F64) :
    cumulativeMass [a, b, c] 2 =
      F64.addRound (F64.addRound (F64.addRound (F64.fin 0) a) b) c := by
  simp [cumulativeMass]

theorem eq_fin_zero (a : ℚ) : F64.eq (F64.fin a) (F64.fin 0) = decide (a = 0) := rfl

/-- The loop of `SampleStartingState` on three non-negative entries, in terms of the
cumulative masses added in `float64`. -/
theorem startingLoop_cumulative (a b c : ℚ) (x : F64) (ha : 0 ≤ a) (hb : 0 ≤ b) :
    startingLoop [F64.fin a, F64.fin b, F64.fin c] x 3 0 (F64.fin 0) 0 (F64.fin 0) =
      some
        (if a ≠ 0 ∧ F64.le x (cumulativeMass [F64.fin a, F64.fin b, F64.fin c] 0) = true then
          (0, F64.fin a)
         else if b ≠ 0 ∧
            F64.le x (cumulativeMass [F64.fin a, F64.fin b, F64.fin c] 1) = true then
          (1, F64.fin b)
         else if c ≠ 0 ∧
            F64.le x (cumulativeMass [F64.fin a, F64.fin b, F64.fin c] 2) = true then
          (2, F64.fin c)
         else (0, F64.fin c)) := by
  have hA : NonnegFloat (F64.addRound (F64.fin 0) (F64.fin a)) :=
    nonnegFloat_addRound nonnegFloat_zero ha
  have hB : NonnegFloat (F64.addRound (F64.addRound (F64.fin 0) (F64.fin a)) (F64.fin b)) :=
    nonnegFloat_addRound hA hb
  rw [startingLoop_three, cumulativeMass_at_zero, cumulativeMass_at_one, cumulativeMass_at_two]
  simp only [eq_fin_zero]
  by_cases h1 : a = 0
  · subst h1
    have e0 : F64.addRound (F64.fin 0) (F64.fin 0) = F64.fin 0 := addRound_zero nonnegFloat_zero
    by_cases h2 : b = 0
    · subst h2
      simp [e0]
    · simp [e0, h2]
  · by_cases h2 : b = 0
    · subst h2
      simp [h1, addRound_zero hA]
    · simp [h1, h2]

theorem firstReachingRounded_three (a b c : ℚ) (x : F64) :
    firstReachingRounded [F64.fin a, F64.fin b, F64.fin c] x =
      if a ≠ 0 ∧ F64.le x (cumulativeMass [F64.fin a, F64.fin b, F64.fin c] 0) = true then some 0
      else if b ≠ 0 ∧
          F64.le x (cumulativeMass [F64.fin a, F64.fin b, F64.fin c] 1) = true then some 1
      else if c ≠ 0 ∧
          F64.le x (cumulativeMass [F64.fin a, F64.fin b, F64.fin c] 2) = true then some 2
      else none := by
  by_cases h1 : a ≠ 0 ∧ F64.le x (cumulativeMass [F64.fin a, F64.fin b, F64.fin c] 0) = true
  · simp [firstReachingRounded, List.range, List.range.loop, List.find?_cons, eq_fin_zero, h1]
  · by_cases h2 : b ≠ 0 ∧ F64.le x (cumulativeMass [F64.fin a, F64.fin b, F64.fin c] 1) = true
    · simp [firstReachingRounded, List.range, List.range.loop, List.find?_cons, eq_fin_zero,
        h1, h2]
    · by_cases h3 : c ≠ 0 ∧
          F64.le x (cumulativeMass [F64.fin a, F64.fin b, F64.fin c] 2) = true
      · simp [firstReachingRounded, List.range, List.range.loop, List.find?_cons, eq_fin_zero,
          h1, h2, h3]
      · simp [firstReachingRounded, List.range, List.range.loop, List.find?_cons, eq_fin_zero,
          h1, h2, h3]

/-- With non-negative entries that are not all zero and a draw that the total added in
`float64` reaches, the loop selects the first non-zero entry whose cumulative mass reaches the
draw. -/
theorem startingLoop_selects_rounded (a b c : ℚ) (x : F64) (ha : 0 ≤ a) (hb : 0 ≤ b)
    (hne : ¬(a = 0 ∧ b = 0 ∧ c = 0))
    (hx : F64.le x (cumulativeMass [F64.fin a, F64.fin b, F64.fin c] 2) = true) :
    ∃ st p, startingLoop [F64.fin a, F64.fin b, F64.fin c] x 3 0 (F64.fin 0) 0
        (F64.fin 0) = some (st, F64.fin p) ∧
      [a, b, c][st]? = some p ∧
      firstReachingRounded [F64.fin a, F64.fin b, F64.fin c] x = some st ∧ st < 3 := by
  have hA : NonnegFloat (F64.addRound (F64.fin 0) (F64.fin a)) :=
    nonnegFloat_addRound nonnegFloat_zero ha
  have hB : NonnegFloat (F64.addRound (F64.addRound (F64.fin 0) (F64.fin a)) (F64.fin b)) :=
    nonnegFloat_addRound hA hb
  rw [startingLoop_cumulative a b c x ha hb, firstReachingRounded_three]
  by_cases h1 : a ≠ 0 ∧ F64.le x (cumulativeMass [F64.fin a, F64.fin b, F64.fin c] 0) = true
  · exact ⟨0, a, by rw [if_pos h1], rfl, by rw [if_pos h1], by decide⟩
  · by_cases h2 : b ≠ 0 ∧ F64.le x (cumulativeMass [F64.fin a, F64.fin b, F64.fin c] 1) = true
    · exact ⟨1, b, by rw [if_neg h1, if_pos h2], rfl, by rw [if_neg h1, if_pos h2], by decide⟩
    · by_cases h3 : c ≠ 0 ∧
          F64.le x (cumulativeMass [F64.fin a, F64.fin b, F64.fin c] 2) = true
      · exact ⟨2, c, by rw [if_neg h1, if_neg h2, if_pos h3], rfl,
          by rw [if_neg h1, if_neg h2, if_pos h3], by decide⟩
      · exfalso
        have hc0 : c = 0 := by
          by_contra h
          exact h3 ⟨h, hx⟩
        have hx1 : F64.le x (cumulativeMass [F64.fin a, F64.fin b, F64.fin c] 1) = true := by
          rw [cumulativeMass_at_one]
          rw [cumulativeMass_at_two, hc0, addRound_zero hB] at hx
          exact hx
        have hb0 : b = 0 := by
          by_contra h
          exact h2 ⟨h, hx1⟩
        have hx0 : F64.le x (cumulativeMass [F64.fin a, F64.fin b, F64.fin c] 0) = true := by
          rw [cumulativeMass_at_zero]
          rw [cumulativeMass_at_one, hb0, addRound_zero hA] at hx1
          exact hx1
        have ha0 : a = 0 := by
          by_contra h
          exact h1 ⟨h, hx0⟩
        exact hne ⟨ha0, hb0, hc0⟩

/-- A starting distribution that puts all its mass on S selects S for every draw up to 1. -/
theorem startingLoop_certain (x : ℚ) (hx : x ≤ 1) :
    startingLoop [F64.fin 1, F64.fin 0, F64.fin 0] (F64.fin x) 3 0 (F64.fin 0) 0 (F64.fin 0) =
      some (0, F64.fin 1) := by
  have e1 : F64.addRound (F64.fin 0) (F64.fin 1) = F64.fin 1 := by
    simp only [F64.addRound, zero_add]
    exact round64_one
  rw [startingLoop_cumulative 1 0 0 (F64.fin x) (by norm_num) (le_refl _),
    cumulativeMass_at_zero, e1]
  simp [F64.le, hx]

theorem sub_half_le_roundHalfEven (n : ℚ) : n - 1 / 2 ≤ (roundHalfEven n : ℚ) := by
  have hfl : n < (⌊n⌋ : ℚ) + 1 := Int.lt_floor_add_one n
  unfold roundHalfEven
  split_ifs with h1 h2 h3
  · linarith
  · push_cast; linarith
  · have : n - ⌊n⌋ = 1 / 2 := le_antisymm (not_lt.mp h2) (not_lt.mp h1)
    linarith
  · push_cast; linarith

/-- Rounding a number of `(0, 1]` moves it by at most `2 ^ (-54)`. -/
theorem roundPos_near {q : ℚ} (hq : 0 < q) (hq1 : q ≤ 1) :
    ∃ r, F64.roundPos q = F64.fin r ∧ q - 1 / 2 ^ 54 ≤ r ∧ r ≤ q + 1 / 2 ^ 54 := by
  rcases eq_or_lt_of_le hq1 with h1 | hlt
  · subst h1
    have h := roundPos_of_grid 1 0 (by norm_num) (by norm_num) (by norm_num) (by norm_num)
    simp only [Int.cast_one, zpow_zero, mul_one] at h
    exact ⟨1, h, by norm_num, by norm_num⟩
  · obtain ⟨hlo, -⟩ := log_bounds hq
    have he : Int.log 2 q < 0 := by
      have : (2 : ℚ) ^ (Int.log 2 q) < (2 : ℚ) ^ (0 : ℤ) := by
        rw [zpow_zero]; exact lt_of_le_of_lt hlo hlt
      exact (zpow_lt_zpow_iff_right₀ (by norm_num : (1 : ℚ) < 2)).mp this
    have hE : max (Int.log 2 q) (-1022) ≤ -1 := max_le (by omega) (by norm_num)
    have hup := roundHalfEven_le_add_half (q / (2 : ℚ) ^ (max (Int.log 2 q) (-1022) - 52))
    have hdn := sub_half_le_roundHalfEven (q / (2 : ℚ) ^ (max (Int.log 2 q) (-1022) - 52))
    unfold F64.roundPos
    generalize max (Int.log 2 q) (-1022) = E at *
    generalize roundHalfEven (q / (2 : ℚ) ^ (E - 52)) = M at *
    have hulp : (2 : ℚ) ^ (E - 52) ≤ 1 / 2 ^ 53 := by
      have h1 : (2 : ℚ) ^ (E - 52) ≤ (2 : ℚ) ^ (-53 : ℤ) :=
        zpow_le_zpow_right₀ (by norm_num) (by omega)
      have h2 : (2 : ℚ) ^ (-53 : ℤ) = 1 / 2 ^ 53 := by
        rw [zpow_neg, one_div]; norm_cast
      rw [← h2]; exact h1
    have hpos := two_zpow_pos (E - 52)
    have h3 : (1 : ℚ) / 2 ^ 53 / 2 = 1 / 2 ^ 54 := by norm_num
    have hhi : (M : ℚ) * (2 : ℚ) ^ (E - 52) ≤ q + 1 / 2 ^ 54 := by
      calc (M : ℚ) * (2 : ℚ) ^ (E - 52)
          ≤ (q / (2 : ℚ) ^ (E - 52) + 1 / 2) * (2 : ℚ) ^ (E - 52) :=
            mul_le_mul_of_nonneg_right hup (le_of_lt hpos)
        _ = q + (2 : ℚ) ^ (E - 52) / 2 := by
            rw [add_mul, div_mul_cancel₀ _ (ne_of_gt hpos)]; ring
        _ ≤ q + 1 / 2 ^ 54 := by linarith
    have hlow : q - 1 / 2 ^ 54 ≤ (M : ℚ) * (2 : ℚ) ^ (E - 52) := by
      calc q - 1 / 2 ^ 54 ≤ q - (2 : ℚ) ^ (E - 52) / 2 := by linarith
        _ = (q / (2 : ℚ) ^ (E - 52) - 1 / 2) * (2 : ℚ) ^ (E - 52) := by
            rw [sub_mul, div_mul_cancel₀ _ (ne_of_gt hpos)]; ring
        _ ≤ (M : ℚ) * (2 : ℚ) ^ (E - 52) :=
            mul_le_mul_of_nonneg_right hdn (le_of_lt hpos)
    have hnot : ¬ (2 : ℚ) ^ (1024 : ℤ) ≤ (M : ℚ) * (2 : ℚ) ^ (E - 52) := by
      rw [not_le]
      have h2 : (2 : ℚ) ≤ (2 : ℚ) ^ (1024 : ℤ) := by
        have := zpow_le_zpow_right₀ (by norm_num : (1 : ℚ) ≤ 2) (show (1 : ℤ) ≤ 1024 by norm_num)
        simpa using this
      have h4 : (1 : ℚ) / 2 ^ 54 < 1 := by norm_num
      linarith
    rw [if_neg hnot]
    exact ⟨_, rfl, hlow, hhi⟩

/-- A number within `2 ^ (-54)` of 1 is rounded to 1. -/
theorem round64_near_one {q : ℚ} (h1 : 1 - 1 / 2 ^ 54 ≤ q) (h2 : q ≤ 1 + 1 / 2 ^ 54) :
    F64.round64 q = F64.fin 1 := by
  have hq : 0 < q := by
    have : (0 : ℚ) < 1 - 1 / 2 ^ 54 := by norm_num
    linarith
  rw [round64_of_pos hq]
  by_cases hge : 1 ≤ q
  · have hlog : Int.log 2 q = 0 := by
      apply log_eq_of_bounds
      · simpa using hge
      · have : (1 : ℚ) + 1 / 2 ^ 54 < 2 := by norm_num
        have h3 : (2 : ℚ) ^ ((0 : ℤ) + 1) = 2 := by norm_num
        rw [h3]; linarith
    have hz : (2 : ℚ) ^ (max (0 : ℤ) (-1022) - 52) = 1 / 2 ^ 52 := by
      rw [show (max (0 : ℤ) (-1022) - 52) = -52 by norm_num, zpow_neg, one_div]; norm_cast
    have hfl : ⌊q / (1 / 2 ^ 52)⌋ = 2 ^ 52 := by
      rw [Int.floor_eq_iff]
      constructor
      · rw [le_div_iff₀ (by norm_num)]
        push_cast
        linarith
      · rw [div_lt_iff₀ (by norm_num)]
        push_cast
        have : ((2 : ℚ) ^ 52 + 1) * (1 / 2 ^ 52) = 1 + 1 / 2 ^ 52 := by norm_num
        have h4 : (1 : ℚ) / 2 ^ 54 < 1 / 2 ^ 52 := by norm_num
        linarith
    have hrhe : roundHalfEven (q / (1 / 2 ^ 52)) = 2 ^ 52 := by
      unfold roundHalfEven
      rw [hfl]
      have hlt : q / (1 / 2 ^ 52) - ((2 ^ 52 : ℤ) : ℚ) < 1 / 2 := by
        rw [sub_lt_iff_lt_add, div_lt_iff₀ (by norm_num)]
        push_cast
        have : ((1 : ℚ) / 2 + 2 ^ 52) * (1 / 2 ^ 52) = 1 + 1 / 2 ^ 53 := by norm_num
        have h4 : (1 : ℚ) / 2 ^ 54 < 1 / 2 ^ 53 := by norm_num
        linarith
      rw [if_pos hlt]
    unfold F64.roundPos
    rw [hlog, hz, hrhe]
    norm_num
  · rw [not_le] at hge
    have hlog : Int.log 2 q = -1 := by
      apply log_eq_of_bounds
      · have h3 : (2 : ℚ) ^ (-1 : ℤ) = 1 / 2 := by norm_num
        rw [h3]
        have : (1 : ℚ) / 2 ≤ 1 - 1 / 2 ^ 54 := by norm_num
        linarith
      · have h3 : (2 : ℚ) ^ ((-1 : ℤ) + 1) = 1 := by norm_num
        rw [h3]; exact hge
    have hz : (2 : ℚ) ^ (max (-1 : ℤ) (-1022) - 52) = 1 / 2 ^ 53 := by
      rw [show (max (-1 : ℤ) (-1022) - 52) = -53 by norm_num, zpow_neg, one_div]; norm_cast
    have hfl : ⌊q / (1 / 2 ^ 53)⌋ = 2 ^ 53 - 1 := by
      rw [Int.floor_eq_iff]
      constructor
      · rw [le_div_iff₀ (by norm_num)]
        push_cast
        have : ((2 : ℚ) ^ 53 - 1) * (1 / 2 ^ 53) = 1 - 1 / 2 ^ 53 := by norm_num
        have h4 : (1 : ℚ) / 2 ^ 54 < 1 / 2 ^ 53 := by norm_num
        linarith
      · rw [div_lt_iff₀ (by norm_num)]
        push_cast
        have : ((2 : ℚ) ^ 53 - 1 + 1) * (1 / 2 ^ 53) = 1 := by norm_num
        linarith
    have hrhe : roundHalfEven (q / (1 / 2 ^ 53)) = 2 ^ 53 := by
      unfold roundHalfEven
      rw [hfl]
      have hnlt : ¬ q / (1 / 2 ^ 53) - ((2 ^ 53 - 1 : ℤ) : ℚ) < 1 / 2 := by
        rw [not_lt, le_sub_iff_add_le, le_div_iff₀ (by norm_num)]
        push_cast
        have : ((1 : ℚ) / 2 + (2 ^ 53 - 1)) * (1 / 2 ^ 53) = 1 - 1 / 2 ^ 54 := by norm_num
        linarith
      rw [if_neg hnlt]
      have hodd : ¬ ((2 ^ 53 - 1 : ℤ) % 2 = 0) := by norm_num
      rw [if_neg hodd]
      split_ifs <;> norm_num
    unfold F64.roundPos
    rw [hlog, hz, hrhe]
    norm_num

/-- Three non-negative `float64` values whose exact sum is 1 also add up to 1 in `float64`,
in the order in which `SampleStartingState` adds them. -/
theorem cumulativeMass_exact_one (a b c : ℚ) (ha : 0 ≤ a) (hb : 0 ≤ b) (hc : 0 ≤ c)
    (hfa : F64.round64 a = F64.fin a) (hsum : a + b + c = 1) :
    cumulativeMass [F64.fin a, F64.fin b, F64.fin c] 2 = F64.fin 1 := by
  rw [cumulativeMass_at_two]
  have e1 : F64.addRound (F64.fin 0) (F64.fin a) = F64.fin a := by
    simp only [F64.addRound, zero_add]
    exact hfa
  rw [e1]
  have hab : ∃ s, F64.addRound (F64.fin a) (F64.fin b) = F64.fin s ∧
      a + b - 1 / 2 ^ 54 ≤ s ∧ s ≤ a + b + 1 / 2 ^ 54 := by
    rcases eq_or_lt_of_le (add_nonneg ha hb) with h0 | hpos
    · refine ⟨0, ?_, ?_, ?_⟩
      · simp only [F64.addRound]
        rw [← h0]
        exact round64_zero
      · rw [← h0]; norm_num
      · rw [← h0]; norm_num
    · obtain ⟨r, hr, hlo, hhi⟩ := roundPos_near hpos (by linarith)
      exact ⟨r, by simp only [F64.addRound]; rw [round64_of_pos hpos, hr], hlo, hhi⟩
  obtain ⟨s, hs, hlo, hhi⟩ := hab
  rw [hs]
  simp only [F64.addRound]
  exact round64_near_one (by linarith) (by linarith)

theorem transitionLP_of_move (StoI ItoR : F64) {c c2 : F64 × F64 × F64} (h : Move c c2) :
    transitionLP StoI ItoR c c2 = some (moveLP StoI ItoR c c2) := by
  have hSI : onlyS ≠ onlyI := by simp [onlyS, onlyI]
  have hSR : onlyS ≠ onlyR := by simp [onlyS, onlyR]
  have hIR : onlyI ≠ onlyR := by simp [onlyI, onlyR]
  rcases h with ⟨h1, h2 | h2⟩ | ⟨h1, h2 | h2⟩ | ⟨h1, h2⟩ <;> subst h1 <;> subst h2 <;>
    simp [transitionLP, moveLP, hSI, hSR, hIR, hSI.symm, hSR.symm, hIR.symm]

/-- On a trajectory whose successive columns are moves, the re-derivation has a value: the
base plus the amounts `Step` added. -/
theorem rederivedLP_of_moves (StoI ItoR : F64) (rows : List (List F64)) (base : LogVal) :
    ∀ n : Nat,
      (∀ t : Int, 0 ≤ t → t < n →
        ∃ c c2, column rows t = some c ∧ column rows (t + 1) = some c2 ∧ Move c c2) →
      rederivedLP StoI ItoR rows base n =
        some (LogVal.add base (realizedLP StoI ItoR rows n)) := by
  intro n
  induction n with
  | zero =>
    intro _
    simp [rederivedLP, realizedLP, LogVal.add_zero]
  | succ n ih =>
    intro h
    have hprev := ih (fun t h0 ht => h t h0 (by push_cast; omega))
    obtain ⟨c, c2, hc, hc2, hm⟩ := h (n : Int) (by omega) (by push_cast; omega)
    simp only [rederivedLP, realizedLP, hprev, hc, hc2, transitionLP_of_move StoI ItoR hm,
      Option.map_some', LogVal.add_assoc]

/-- C3: for a starting distribution of three non-negative `float64` entries whose sum is
exactly 1 and a uniform draw in `[0, 1)`, after SampleStartingState and Step for
`t = 0, ..., n - 1` (with `n ≤ T - 1`) on an individual whose posterior sample is fresh, every
pair of successive columns up to time `n` is one of the moves S → I, S → S, I → R, I → I, R → R,
and PosteriorLP is the value re-derived from the trajectory: PriorLP plus the log of the
starting probability of the compartment marked at time 0, to which the raw transition
log-probabilities of these moves are added in the order of time, as the program adds them. -/
theorem posteriorLP_rederived (T : Nat) (po : PartialObserved) (n : Nat) (StoI ItoR : F64)
    (rng : RNG) (a b c x : ℚ) (hn : n + 1 ≤ T) (hP : Shape T po.Prior.Values)
    (hQ : po.PosteriorSample = NewStateMatrix T ["S", "I", "R"])
    (hsp : po.StartingProbabilities = [F64.fin a, F64.fin b, F64.fin c])
    (ha : 0 ≤ a) (hb : 0 ≤ b) (hc : 0 ≤ c)
    (hfa : F64.round64 a = F64.fin a) (_hfb : F64.round64 b = F64.fin b)
    (_hfc : F64.round64 c = F64.fin c) (hsum : a + b + c = 1)
    (hu : rng.uniformAt rng.pos = F64.fin x) (_hx0 : 0 ≤ x) (hx1 : x < 1) :
    ∃ po2 rng2 st p, forwardPass po n StoI ItoR rng = some (po2, rng2) ∧
      column po2.PosteriorSample.Values 0 = some (hot st) ∧
      po.StartingProbabilities[st]? = some p ∧
      po2.PriorLP = po.PriorLP ∧
      rederivedLP StoI ItoR po2.PosteriorSample.Values
        (LogVal.add po2.PriorLP (F64.log p)) n = some po2.PosteriorLP := by
  obtain ⟨hsh, hzero⟩ := shape_of_eq_new hQ
  have hne : ¬(a = 0 ∧ b = 0 ∧ c = 0) := by
    rintro ⟨h1, h2, h3⟩
    rw [h1, h2, h3] at hsum
    norm_num at hsum
  have htot : F64.le (F64.fin x) (cumulativeMass [F64.fin a, F64.fin b, F64.fin c] 2) = true := by
    rw [cumulativeMass_exact_one a b c ha hb hc hfa hsum]
    simp [F64.le, le_of_lt hx1]
  obtain ⟨st, p, hsel, hp, -, hst⟩ :=
    startingLoop_selects_rounded a b c (F64.fin x) ha hb hne htot
  rw [← hsp, ← hu] at hsel
  obtain ⟨rows2, lp, rng2, e, -, h0, -, hmv, -, hlp⟩ :=
    forwardPass_spec po n StoI ItoR rng hP hsh (hzero 0 (le_refl _) (by omega))
      (by omega) hsel hst
  refine ⟨_, rng2, st, F64.fin p, e, h0, ?_, rfl, ?_⟩
  · rw [hsp]
    have hcases : st = 0 ∨ st = 1 ∨ st = 2 := by omega
    rcases hcases with h | h | h <;> subst h <;> simp at hp ⊢ <;> exact hp
  · rw [hlp]
    exact rederivedLP_of_moves StoI ItoR rows2 _ n hmv

/-- Witness of C3 at horizon 3 with two steps. -/
theorem posteriorLP_rederived_witness :
    (2 + 1 ≤ 3 ∧ Shape 3 examplePO.Prior.Values ∧
      examplePO.PosteriorSample = NewStateMatrix 3 ["S", "I", "R"] ∧
      examplePO.StartingProbabilities = [F64.fin 1, F64.fin 0, F64.fin 0] ∧
      (0 : ℚ) ≤ 1 ∧ (0 : ℚ) ≤ 0 ∧ F64.round64 1 = F64.fin 1 ∧ F64.round64 0 = F64.fin 0 ∧
      (1 : ℚ) + 0 + 0 = 1 ∧
      exampleRNG.uniformAt exampleRNG.pos = F64.fin (1 / 2) ∧ (0 : ℚ) ≤ 1 / 2 ∧
      (1 / 2 : ℚ) < 1) ∧
    ∃ po2 rng2 st p,
      forwardPass examplePO 2 (F64.fin (1 / 2)) (F64.fin (1 / 2)) exampleRNG = some (po2, rng2) ∧
      column po2.PosteriorSample.Values 0 = some (hot st) ∧
      examplePO.StartingProbabilities[st]? = some p ∧
      po2.PriorLP = examplePO.PriorLP ∧
      rederivedLP (F64.fin (1 / 2)) (F64.fin (1 / 2)) po2.PosteriorSample.Values
        (LogVal.add po2.PriorLP (F64.log p)) 2 = some po2.PosteriorLP :=
  ⟨⟨by decide, shape_new 3, rfl, rfl, by norm_num, le_refl _, round64_one, round64_zero,
      by norm_num, rfl, by norm_num, by norm_num⟩,
    posteriorLP_rederived 3 examplePO 2 (F64.fin (1 / 2)) (F64.fin (1 / 2)) exampleRNG 1 0 0
      (1 / 2) (by decide) (shape_new 3) rfl rfl (by norm_num) (le_refl _) (le_refl _)
      round64_one round64_zero round64_zero (by norm_num) rfl (by norm_num) (by norm_num)⟩

/-! ## Claims on the prior constructor -/

theorem observationsToPriorSample_eq {T : Nat} (po : PartialObserved) (gamma : F64) (rng : RNG)
    (hP : Shape T po.Prior.Values) (hlen : po.Prior.Len = T) {l : List Int}
    (hl : po.InfectionObservations = l) :
    ∃ rows1, Shape T rows1 ∧
      (∀ t : Int, 0 ≤ t → t < T →
        column rows1 t = some (defaultColumn po.NonInfectionObservations t)) ∧
      ObservationsToPriorSample po gamma rng =
        l.foldlM (infectionObservationBody gamma)
          ({ po with Prior := { po.Prior with Values := rows1 }, PriorLP := LogVal.zero }, rng) := by
  obtain ⟨rows1, e1, s1, c1⟩ :=
    defaultLoop_spec (T := T) { po with PriorLP := LogVal.zero } po.NonInfectionObservations hP
  refine ⟨rows1, s1, c1, ?_⟩
  have hlen2 : (po.Prior.length : Int) = T := by
    have := hlen
    unfold StateMatrix.Len at this
    rw [this]
  rw [← hl]
  simp only [ObservationsToPriorSample, StateMatrix.Len, hlen2, e1, Option.some_bind]

theorem goodDraws_example : GoodDraws exampleRNG := by
  refine ⟨fun i mu => ?_, fun i n hn => ?_⟩
  · simp [exampleRNG, toInt_ceil_one]
  · simp only [exampleRNG]
    omega

/-- C4: for a single infection observation `io` in `[0, T)`, a drawn duration `d` and a drawn
offset `k` with `0 ≤ k < d`, with `s = max 0 (io - k)` and `e = min (io - k + d) (T - 1)`,
ObservationsToPriorSample returns and the prior column is `(1,0,0)` on `[0, s)`, `(0,1,0)` on
`[s, e]`, `(0,0,1)` for `e < t ≤ T - 2`, and, when `e < T - 1`, the last column keeps its default
value (`(1,0,1)` if `T - 1` is a non-infection observation, `(1,1,1)` otherwise). -/
theorem prior_single_window (T : Nat) (po : PartialObserved) (gamma : F64) (rng : RNG)
    (io d k : Int) (hP : Shape T po.Prior.Values) (hlen : po.Prior.Len = T)
    (hobs : po.InfectionObservations = [io]) (hio0 : 0 ≤ io) (hioT : io < T)
    (hd : (GeometricSample gamma rng).1 = d)
    (hk : ((GeometricSample gamma rng).2.UniformRandomInt d).1 = k)
    (_hd1 : 1 ≤ d) (hk0 : 0 ≤ k) (hkd : k < d) :
    ∃ po2 rng2, ObservationsToPriorSample po gamma rng = some (po2, rng2) ∧
      (∀ t : Int, 0 ≤ t → t < max 0 (io - k) → column po2.Prior.Values t = some onlyS) ∧
      (∀ t : Int, max 0 (io - k) ≤ t → t ≤ min (io - k + d) ((T : Int) - 1) →
        column po2.Prior.Values t = some onlyI) ∧
      (∀ t : Int, min (io - k + d) ((T : Int) - 1) < t → t ≤ (T : Int) - 2 →
        column po2.Prior.Values t = some onlyR) ∧
      (min (io - k + d) ((T : Int) - 1) < (T : Int) - 1 →
        column po2.Prior.Values ((T : Int) - 1) =
          some (defaultColumn po.NonInfectionObservations ((T : Int) - 1))) := by
  obtain ⟨rows1, s1, c1, e1⟩ := observationsToPriorSample_eq po gamma rng hP hlen hobs
  obtain ⟨rows2, e2, -, w1, w2, w3, w4⟩ :=
    infectionObservationBody_spec gamma
      { po with Prior := { po.Prior with Values := rows1 }, PriorLP := LogVal.zero } rng io d k
      s1 hlen hio0 hioT hd hk hk0 hkd
  rw [List.foldlM_cons, e2] at e1
  simp only [Option.bind_eq_bind, Option.some_bind, List.foldlM_nil, Option.pure_def] at e1
  refine ⟨_, _, e1, w1, w2, ?_, ?_⟩
  · intro t h1 h2
    exact w3 t h1 (by omega)
  · intro h
    rw [w4 h]
    exact c1 _ (by omega) (by omega)

/-- Witness of C4: horizon 6, one observation at time 2, duration 1 and offset 0, so that the
window is `[2, 3]`, time 4 is recovered-only and the last column 5 keeps its default. -/
theorem prior_single_window_witness :
    (Shape 6 { observedPO with InfectionObservations := [2] }.Prior.Values ∧
      { observedPO with InfectionObservations := [2] }.Prior.Len = 6 ∧
      { observedPO with InfectionObservations := [2] }.InfectionObservations = [2] ∧
      (0 : Int) ≤ 2 ∧ (2 : Int) < (6 : Nat) ∧
      (GeometricSample (F64.fin 1) exampleRNG).1 = 1 ∧
      ((GeometricSample (F64.fin 1) exampleRNG).2.UniformRandomInt 1).1 = 0 ∧
      (1 : Int) ≤ 1 ∧ (0 : Int) ≤ 0 ∧ (0 : Int) < 1) ∧
    ∃ po2 rng2, ObservationsToPriorSample { observedPO with InfectionObservations := [2] }
        (F64.fin 1) exampleRNG = some (po2, rng2) ∧
      (∀ t : Int, 0 ≤ t → t < max 0 (2 - 0) → column po2.Prior.Values t = some onlyS) ∧
      (∀ t : Int, max 0 (2 - 0) ≤ t → t ≤ min (2 - 0 + 1) (((6 : Nat) : Int) - 1) →
        column po2.Prior.Values t = some onlyI) ∧
      (∀ t : Int, min (2 - 0 + 1) (((6 : Nat) : Int) - 1) < t → t ≤ ((6 : Nat) : Int) - 2 →
        column po2.Prior.Values t = some onlyR) ∧
      (min (2 - 0 + 1) (((6 : Nat) : Int) - 1) < ((6 : Nat) : Int) - 1 →
        column po2.Prior.Values (((6 : Nat) : Int) - 1) =
          some (defaultColumn
            { observedPO with InfectionObservations := [2] }.NonInfectionObservations
            (((6 : Nat) : Int) - 1))) :=
  ⟨⟨shape_new 6, rfl, rfl, by decide, by decide, by simp [GeometricSample,
      RNG.ExponentialRandomFloat64, exampleRNG, toInt_ceil_one], rfl, by decide, by decide, by decide⟩,
    prior_single_window 6 { observedPO with InfectionObservations := [2] } (F64.fin 1) exampleRNG
      2 1 0 (shape_new 6) rfl rfl (by decide) (by decide)
      (by simp [GeometricSample, RNG.ExponentialRandomFloat64, exampleRNG, toInt_ceil_one]) rfl (by decide)
      (by decide) (by decide)⟩

/-- C5: for a non-empty list of infection observations all within `[0, T)` and draws with
durations `d ≥ 1` and offsets in `[0, d)`, ObservationsToPriorSample returns and the prior
column at the time of the last infection observation of the list is `(0,1,0)`. -/
theorem prior_last_observation_infected (T : Nat) (po : PartialObserved) (gamma : F64)
    (rng : RNG) (hP : Shape T po.Prior.Values) (hlen : po.Prior.Len = T)
    (hne : po.InfectionObservations ≠ [])
    (hin : ∀ io ∈ po.InfectionObservations, 0 ≤ io ∧ io < (T : Int)) (hg : GoodDraws rng) :
    ∃ po2 rng2, ObservationsToPriorSample po gamma rng = some (po2, rng2) ∧
      column po2.Prior.Values (po.InfectionObservations.getLast hne) = some onlyI := by
  have hsplit := List.dropLast_append_getLast hne
  generalize po.InfectionObservations.getLast hne = io at hsplit ⊢
  generalize po.InfectionObservations.dropLast = pre at hsplit
  obtain ⟨rows1, s1, -, e1⟩ := observationsToPriorSample_eq po gamma rng hP hlen hsplit.symm
  have hio : 0 ≤ io ∧ io < (T : Int) := hin io (by rw [← hsplit]; simp)
  obtain ⟨rows2, lp, n, e2, s2, -⟩ :=
    observations_fold (T := T) gamma (fun _ => True) (fun _ _ _ _ _ _ _ _ _ => trivial) pre
      { po with Prior := { po.Prior with Values := rows1 }, PriorLP := LogVal.zero } rng s1 hlen
      hg (fun x hx => hin x (by rw [← hsplit]; simp [hx])) trivial
  have hd1 : 1 ≤ (GeometricSample gamma { rng with pos := n }).1 := hg.1 _ _
  obtain ⟨hk0, hkd⟩ := hg.2 (n + 1) _ hd1
  obtain ⟨rows3, e3, -, -, w2, -, -⟩ :=
    infectionObservationBody_spec gamma
      { po with Prior := { po.Prior with Values := rows2 }, PriorLP := lp }
      { rng with pos := n } io _ _ s2 hlen hio.1 hio.2 rfl rfl hk0 hkd
  obtain ⟨-, b1, b2, -⟩ := window_bounds (T := T) hio.1 hio.2 hk0 hkd
  rw [List.foldlM_append, e2] at e1
  simp only [Option.bind_eq_bind, Option.some_bind, List.foldlM_cons, e3, List.foldlM_nil,
    Option.pure_def] at e1
  exact ⟨_, _, e1, w2 io b1 b2⟩

/-- Witness of C5: the scenario of horizon 6 with the single infection observation 3. -/
theorem prior_last_observation_infected_witness :
    (Shape 6 observedPO.Prior.Values ∧ observedPO.Prior.Len = 6 ∧
      (∀ io ∈ observedPO.InfectionObservations, 0 ≤ io ∧ io < ((6 : Nat) : Int)) ∧
      GoodDraws exampleRNG) ∧
    ∃ po2 rng2, ObservationsToPriorSample observedPO (F64.fin 1) exampleRNG = some (po2, rng2) ∧
      column po2.Prior.Values
        (observedPO.InfectionObservations.getLast (List.cons_ne_nil 3 [])) = some onlyI :=
  ⟨⟨shape_new 6, rfl, by simp [observedPO, NewPartialObserved], goodDraws_example⟩,
    prior_last_observation_infected 6 observedPO (F64.fin 1) exampleRNG (shape_new 6) rfl
      (List.cons_ne_nil 3 []) (by simp [observedPO, NewPartialObserved]) goodDraws_example⟩

theorem feasible_onlyS : Feasible onlyS := by simp [Feasible, onlyS]

theorem feasible_onlyI : Feasible onlyI := by simp [Feasible, onlyI]

theorem feasible_onlyR : Feasible onlyR := by simp [Feasible, onlyR]

theorem feasible_default (l : List Int) (t : Int) : Feasible (defaultColumn l t) := by
  unfold defaultColumn
  split_ifs <;> simp [Feasible]

theorem feasible_window {T : Nat} (rows rows2 : List (List F64)) (s e : Int)
    (h : ∀ t : Int, 0 ≤ t → t < T → ∃ c, column rows t = some c ∧ Feasible c) (_hs : 0 ≤ s)
    (_hse : s ≤ e) (_he : e ≤ (T : Int) - 1) (w : WindowWritten T s e rows rows2) :
    ∀ t : Int, 0 ≤ t → t < T → ∃ c, column rows2 t = some c ∧ Feasible c := by
  obtain ⟨-, w1, w2, w3, w4⟩ := w
  intro t h0 hT
  by_cases hts : t < s
  · exact ⟨onlyS, w1 t h0 hts, feasible_onlyS⟩
  · by_cases hte : t ≤ e
    · exact ⟨onlyI, w2 t (by omega) hte, feasible_onlyI⟩
    · by_cases hlast : t < (T : Int) - 1
      · exact ⟨onlyR, w3 t (by omega) hlast, feasible_onlyR⟩
      · have ht : t = (T : Int) - 1 := by omega
        subst ht
        rw [w4 (by omega)]
        exact h _ h0 hT

/-- C6 (evaluation at the failing input): horizon 6, one infection observation at time 3, a
drawn duration 5 and offset 0.  The window end is clamped to 5, and the term added to PriorLP is
`log (1/2)`, which is not `log (1/5)`. -/
theorem priorLP_clamped_window :
    ∃ po2 rng2, ObservationsToPriorSample observedPO (F64.fin 1) longDrawRNG = some (po2, rng2) ∧
      (GeometricSample (F64.fin 1) longDrawRNG).1 = 5 ∧
      ((GeometricSample (F64.fin 1) longDrawRNG).2.UniformRandomInt 5).1 = 0 ∧
      po2.PriorLP = F64.log (F64.div (F64.fin 1) (F64.ofInt 2)) ∧
      po2.PriorLP ≠ F64.log (F64.div (F64.fin 1) (F64.ofInt 5)) := by
  have hd : (GeometricSample (F64.fin 1) longDrawRNG).1 = 5 := by
    simp [GeometricSample, RNG.ExponentialRandomFloat64, longDrawRNG, toInt_ceil_five]
  obtain ⟨rows1, s1, -, e1⟩ :=
    observationsToPriorSample_eq (T := 6) observedPO (F64.fin 1) longDrawRNG (shape_new 6) rfl
      (l := [3]) rfl
  obtain ⟨rows2, e2, -⟩ :=
    infectionObservationBody_spec (T := 6) (F64.fin 1)
      { observedPO with Prior := { observedPO.Prior with Values := rows1 }, PriorLP := LogVal.zero }
      longDrawRNG 3 5 0 s1 rfl (by decide) (by decide) hd rfl (by decide) (by decide)
  rw [List.foldlM_cons, e2] at e1
  simp only [Option.bind_eq_bind, Option.some_bind, List.foldlM_nil, Option.pure_def] at e1
  refine ⟨_, _, e1, hd, rfl, ?_, ?_⟩
  · simp [LogVal.zero_add, F64.ofInt]
  · simp [LogVal.zero_add, F64.ofInt, F64.div, F64.log]
    norm_num

/-- C7: for every list of infection observations within `[0, T)` and draws with durations
`d ≥ 1` and offsets in `[0, d)`, ObservationsToPriorSample returns a prior of three rows of `T`
cells, every cell of which is 0 or 1, and no time column of which is all-zero. -/
theorem prior_columns_feasible (T : Nat) (po : PartialObserved) (gamma : F64) (rng : RNG)
    (hP : Shape T po.Prior.Values) (hlen : po.Prior.Len = T)
    (hin : ∀ io ∈ po.InfectionObservations, 0 ≤ io ∧ io < (T : Int)) (hg : GoodDraws rng) :
    ∃ po2 rng2, ObservationsToPriorSample po gamma rng = some (po2, rng2) ∧
      Shape T po2.Prior.Values ∧
      ∀ t : Int, 0 ≤ t → t < T → ∃ c, column po2.Prior.Values t = some c ∧ Feasible c := by
  obtain ⟨rows1, s1, c1, e1⟩ := observationsToPriorSample_eq po gamma rng hP hlen rfl
  obtain ⟨rows2, lp, n, e2, s2, p2⟩ :=
    observations_fold (T := T) gamma
      (fun rows => ∀ t : Int, 0 ≤ t → t < T → ∃ c, column rows t = some c ∧ Feasible c)
      (fun rows rows2 s e h hs hse he w => feasible_window rows rows2 s e h hs hse he w)
      po.InfectionObservations
      { po with Prior := { po.Prior with Values := rows1 }, PriorLP := LogVal.zero } rng s1 hlen
      hg hin (fun t h0 hT => ⟨_, c1 t h0 hT, feasible_default _ _⟩)
  rw [e2] at e1
  exact ⟨_, _, e1, s2, p2⟩

/-- Witness of C7: horizon 6 with the single infection observation 3. -/
theorem prior_columns_feasible_witness :
    (Shape 6 observedPO.Prior.Values ∧ observedPO.Prior.Len = 6 ∧
      (∀ io ∈ observedPO.InfectionObservations, 0 ≤ io ∧ io < ((6 : Nat) : Int)) ∧
      GoodDraws exampleRNG) ∧
    ∃ po2 rng2, ObservationsToPriorSample observedPO (F64.fin 1) exampleRNG = some (po2, rng2) ∧
      Shape 6 po2.Prior.Values ∧
      ∀ t : Int, 0 ≤ t → t < ((6 : Nat) : Int) →
        ∃ c, column po2.Prior.Values t = some c ∧ Feasible c :=
  ⟨⟨shape_new 6, rfl, by simp [observedPO, NewPartialObserved], goodDraws_example⟩,
    prior_columns_feasible 6 observedPO (F64.fin 1) exampleRNG (shape_new 6) rfl
      (by simp [observedPO, NewPartialObserved]) goodDraws_example⟩

/-- C8: with no infection observation, whatever PriorLP and the prior held before,
ObservationsToPriorSample returns with PriorLP equal to 0, without any draw, and the prior
column at each `t` in `[0, T)` is `(1,0,1)` if `t` occurs in NonInfectionObservations and
`(1,1,1)` otherwise. -/
theorem prior_without_infections (T : Nat) (po : PartialObserved) (gamma : F64) (rng : RNG)
    (hP : Shape T po.Prior.Values) (hlen : po.Prior.Len = T)
    (hobs : po.InfectionObservations = []) :
    ∃ po2, ObservationsToPriorSample po gamma rng = some (po2, rng) ∧
      po2.PriorLP = LogVal.zero ∧
      ∀ t : Int, 0 ≤ t → t < T →
        column po2.Prior.Values t =
          some (if t ∈ po.NonInfectionObservations then (F64.fin 1, F64.fin 0, F64.fin 1)
            else (F64.fin 1, F64.fin 1, F64.fin 1)) := by
  obtain ⟨rows1, -, c1, e1⟩ := observationsToPriorSample_eq po gamma rng hP hlen hobs
  simp only [List.foldlM_nil, Option.pure_def] at e1
  exact ⟨_, e1, rfl, c1⟩

/-- Witness of C8 at horizon 3. -/
theorem prior_without_infections_witness :
    (Shape 3 examplePO.Prior.Values ∧ examplePO.Prior.Len = 3 ∧
      examplePO.InfectionObservations = []) ∧
    ∃ po2, ObservationsToPriorSample examplePO (F64.fin 1) exampleRNG = some (po2, exampleRNG) ∧
      po2.PriorLP = LogVal.zero ∧
      ∀ t : Int, 0 ≤ t → t < ((3 : Nat) : Int) →
        column po2.Prior.Values t =
          some (if t ∈ examplePO.NonInfectionObservations then (F64.fin 1, F64.fin 0, F64.fin 1)
            else (F64.fin 1, F64.fin 1, F64.fin 1)) :=
  ⟨⟨shape_new 3, rfl, rfl⟩,
    prior_without_infections 3 examplePO (F64.fin 1) exampleRNG (shape_new 3) rfl rfl⟩

/-! ## Claims on the starting-state sampler -/

theorem excluded_loop :
    startingLoop excludedMassPO.StartingProbabilities
      (longDrawRNG.uniformAt longDrawRNG.pos) 3 0 (F64.fin 0) 0 (F64.fin 0) =
      some (0, F64.fin (1 / 10)) := by
  have hsmall : (1 : ℚ) / 2 ^ 53 < 1 / 100 := by norm_num
  obtain ⟨r1, e1, p1, b1⟩ := addRound_le 0 (1 / 5) (le_refl _) (by norm_num) (by norm_num)
  obtain ⟨r2, e2, p2, b2⟩ := addRound_le r1 (3 / 10) p1 (by norm_num) (by linarith)
  obtain ⟨r3, e3, -, b3⟩ := addRound_le r2 (1 / 10) p2 (by norm_num) (by linarith)
  have c0 : cumulativeMass [F64.fin (1 / 5), F64.fin (3 / 10), F64.fin (1 / 10)] 0 =
      F64.fin r1 := by rw [cumulativeMass_at_zero, e1]
  have c1 : cumulativeMass [F64.fin (1 / 5), F64.fin (3 / 10), F64.fin (1 / 10)] 1 =
      F64.fin r2 := by rw [cumulativeMass_at_one, e1, e2]
  have c2 : cumulativeMass [F64.fin (1 / 5), F64.fin (3 / 10), F64.fin (1 / 10)] 2 =
      F64.fin r3 := by rw [cumulativeMass_at_two, e1, e2, e3]
  have n1 : ¬ (9 / 10 : ℚ) ≤ r1 := by rw [not_le]; linarith
  have n2 : ¬ (9 / 10 : ℚ) ≤ r2 := by rw [not_le]; linarith
  have n3 : ¬ (9 / 10 : ℚ) ≤ r3 := by rw [not_le]; linarith
  show startingLoop [F64.fin (1 / 5), F64.fin (3 / 10), F64.fin (1 / 10)] (F64.fin (9 / 10)) 3 0
      (F64.fin 0) 0 (F64.fin 0) = some (0, F64.fin (1 / 10))
  rw [startingLoop_cumulative (1 / 5) (3 / 10) (1 / 10) (F64.fin (9 / 10)) (by norm_num)
    (by norm_num), c0, c1, c2]
  simp [F64.le, n1, n2, n3]

/-- C9 (evaluation at the failing input): starting distribution `[1/5, 3/10, 1/10]` and
uniform draw `9/10`.  No compartment is selected by the walk; column 0 marks S, whose starting
probability is `1/5`, and PosteriorLP is `PriorLP + log (1/10)`, the log of the last entry
examined, which is not `PriorLP + log (1/5)`. -/
theorem startingState_fallthrough :
    ∃ po2 rng2, SampleStartingState excludedMassPO longDrawRNG = some (F64.fin 0, po2, rng2) ∧
      column po2.PosteriorSample.Values 0 = some onlyS ∧
      excludedMassPO.StartingProbabilities[0]? = some (F64.fin (1 / 5)) ∧
      po2.PosteriorLP = LogVal.add excludedMassPO.PriorLP (F64.log (F64.fin (1 / 10))) ∧
      po2.PosteriorLP ≠ LogVal.add excludedMassPO.PriorLP (F64.log (F64.fin (1 / 5))) := by
  obtain ⟨rows2, e, -, c0, -⟩ :=
    sampleStartingState_of_loop (T := 3) excludedMassPO longDrawRNG excluded_loop (by decide)
      (by decide) (shape_new 3) (column_new 3 (le_refl _) (by decide))
  refine ⟨_, _, e, c0, rfl, rfl, ?_⟩
  simp [excludedMassPO, NewPartialObserved, LogVal.zero_add, F64.log]
  norm_num

theorem zero_loop :
    startingLoop zeroMassPO.StartingProbabilities
      (zeroDrawRNG.uniformAt zeroDrawRNG.pos) 3 0 (F64.fin 0) 0 (F64.fin 0) =
      some (0, F64.fin 0) := by
  show startingLoop [F64.fin 0, F64.fin 0, F64.fin 0] (F64.fin 0) 3 0
      (F64.fin 0) 0 (F64.fin 0) = some (0, F64.fin 0)
  rw [startingLoop_cumulative 0 0 0 (F64.fin 0) (le_refl _) (le_refl _)]
  simp

theorem round64_tenth :
    F64.round64 (3602879701896397 / 2 ^ 55) = F64.fin (3602879701896397 / 2 ^ 55) := by
  rw [round64_of_pos (by norm_num)]
  have h := roundPos_of_grid 3602879701896397 (-55) (by norm_num) (by norm_num) (by norm_num)
    (by norm_num)
  have e : ((3602879701896397 : ℤ) : ℚ) * (2 : ℚ) ^ (-55 : ℤ) = 3602879701896397 / 2 ^ 55 := by
    rw [zpow_neg]; norm_num
  rw [e] at h
  exact h

theorem decimal_loop :
    startingLoop decimalPO.StartingProbabilities
      (tieDrawRNG.uniformAt tieDrawRNG.pos) 3 0 (F64.fin 0) 0 (F64.fin 0) =
      some (1, F64.fin (3602879701896397 / 2 ^ 54)) := by
  have c0 : cumulativeMass [F64.fin (3602879701896397 / 2 ^ 55),
      F64.fin (3602879701896397 / 2 ^ 54), F64.fin (3152519739159347 / 2 ^ 52)] 0 =
      F64.fin (3602879701896397 / 2 ^ 55) := by
    rw [cumulativeMass_at_zero]
    simp only [F64.addRound, zero_add]
    exact round64_tenth
  have c1 : cumulativeMass [F64.fin (3602879701896397 / 2 ^ 55),
      F64.fin (3602879701896397 / 2 ^ 54), F64.fin (3152519739159347 / 2 ^ 52)] 1 =
      F64.fin (5404319552844596 / 2 ^ 54) := by
    rw [cumulativeMass_at_one]
    simp only [F64.addRound, zero_add]
    rw [round64_tenth]
    simp only [F64.addRound]
    rw [round64_of_pos (by norm_num)]
    exact roundPos_tenth_plus_fifth
  show startingLoop [F64.fin (3602879701896397 / 2 ^ 55),
      F64.fin (3602879701896397 / 2 ^ 54), F64.fin (3152519739159347 / 2 ^ 52)]
      (F64.fin (5404319552844596 / 2 ^ 54)) 3 0 (F64.fin 0) 0 (F64.fin 0) =
      some (1, F64.fin (3602879701896397 / 2 ^ 54))
  rw [startingLoop_cumulative _ _ _ _ (by norm_num) (by norm_num), c0, c1]
  have n1 : ¬ (5404319552844596 / 2 ^ 54 : ℚ) ≤ 3602879701896397 / 2 ^ 55 := by norm_num
  simp only [F64.le, decide_eq_true_eq, n1, and_false, if_false, le_refl, and_true]
  rw [if_pos (by norm_num)]

/-- C10 fails as stated, in two ways.  First, for the all-zero starting distribution and the
uniform draw 0 (which does not exceed the total 0), no compartment has non-zero probability, so
there is no first such compartment to select; SampleStartingState marks S, whose probability
is 0.  Second, for the starting distribution of the `float64` values nearest to 0.1, 0.2, 0.7
and the uniform draw 0.30000000000000004 (which does not exceed their total), the first
compartment whose cumulative mass `p_0 + ... + p_i` is `≥ x` is R, the exact sum of the first
two entries being below the draw; SampleStartingState, which adds in `float64`, marks I and
returns 1.0. -/
theorem startingState_selects_first_counterexample :
    ((zeroMassPO.StartingProbabilities = [F64.fin 0, F64.fin 0, F64.fin 0] ∧
        zeroDrawRNG.uniformAt zeroDrawRNG.pos = F64.fin 0 ∧ (0 : ℚ) ≤ 0 + 0 + 0) ∧
      (∃ po2 rng2, SampleStartingState zeroMassPO zeroDrawRNG = some (F64.fin 0, po2, rng2) ∧
        column po2.PosteriorSample.Values 0 = some onlyS) ∧
      firstReaching [0, 0, 0] 0 = none ∧
      firstReachingRounded zeroMassPO.StartingProbabilities (F64.fin 0) = none) ∧
    ((decimalPO.StartingProbabilities =
          [F64.fin (3602879701896397 / 2 ^ 55), F64.fin (3602879701896397 / 2 ^ 54),
            F64.fin (3152519739159347 / 2 ^ 52)] ∧
        tieDrawRNG.uniformAt tieDrawRNG.pos = F64.fin (5404319552844596 / 2 ^ 54) ∧
        (0 : ℚ) ≤ 3602879701896397 / 2 ^ 55 ∧ (0 : ℚ) ≤ 3602879701896397 / 2 ^ 54 ∧
        (0 : ℚ) ≤ 3152519739159347 / 2 ^ 52 ∧
        (5404319552844596 / 2 ^ 54 : ℚ) ≤
          3602879701896397 / 2 ^ 55 + 3602879701896397 / 2 ^ 54 + 3152519739159347 / 2 ^ 52) ∧
      (∃ po2 rng2, SampleStartingState decimalPO tieDrawRNG = some (F64.fin 1, po2, rng2) ∧
        column po2.PosteriorSample.Values 0 = some onlyI) ∧
      firstReaching
        [3602879701896397 / 2 ^ 55, 3602879701896397 / 2 ^ 54, 3152519739159347 / 2 ^ 52]
        (5404319552844596 / 2 ^ 54) = some R) := by
  refine ⟨⟨⟨rfl, rfl, by norm_num⟩, ?_, ?_, ?_⟩, ⟨rfl, rfl, by norm_num, by norm_num,
    by norm_num, by norm_num⟩, ?_, ?_⟩
  · obtain ⟨rows2, e, -, c0, -⟩ :=
      sampleStartingState_of_loop (T := 3) zeroMassPO zeroDrawRNG zero_loop (by decide)
        (by decide) (shape_new 3) (column_new 3 (le_refl _) (by decide))
    exact ⟨_, _, e, c0⟩
  · rw [firstReaching_three]
    simp
  · show firstReachingRounded [F64.fin 0, F64.fin 0, F64.fin 0] (F64.fin 0) = none
    rw [firstReachingRounded_three]
    simp
  · obtain ⟨rows2, e, -, c0, -⟩ :=
      sampleStartingState_of_loop (T := 3) decimalPO tieDrawRNG decimal_loop (by decide)
        (by decide) (shape_new 3) (column_new 3 (le_refl _) (by decide))
    exact ⟨_, _, e, c0⟩
  · rw [firstReaching_three]
    norm_num [R]

/-- C10 (amended): for a starting distribution of three non-negative entries that are not all
zero and a uniform draw `x` that does not exceed their total, the cumulative masses being
added in `float64` in the order S, I, R, SampleStartingState on an individual whose posterior
sample is fresh selects the first compartment, in that order, that has non-zero probability
and whose cumulative mass reaches `x`; column 0 of the posterior sample is one-hot at that
compartment; and the returned value is 1.0 if that compartment is I and 0.0 otherwise. -/
theorem startingState_selects_first (T : Nat) (po : PartialObserved) (rng : RNG)
    (a b c x : ℚ) (hT : 1 ≤ T) (hQ : po.PosteriorSample = NewStateMatrix T ["S", "I", "R"])
    (hsp : po.StartingProbabilities = [F64.fin a, F64.fin b, F64.fin c])
    (ha : 0 ≤ a) (hb : 0 ≤ b) (_hc : 0 ≤ c) (hne : ¬(a = 0 ∧ b = 0 ∧ c = 0))
    (hu : rng.uniformAt rng.pos = F64.fin x)
    (hx : F64.le (F64.fin x) (cumulativeMass po.StartingProbabilities 2) = true) :
    ∃ ret po2 rng2 st, SampleStartingState po rng = some (ret, po2, rng2) ∧
      firstReachingRounded po.StartingProbabilities (F64.fin x) = some st ∧
      column po2.PosteriorSample.Values 0 = some (hot st) ∧
      ret = (if st = I then F64.fin 1 else F64.fin 0) := by
  obtain ⟨hsh, hzero⟩ := shape_of_eq_new hQ
  rw [hsp] at hx
  obtain ⟨st, p, hsel, -, hfirst, hst⟩ :=
    startingLoop_selects_rounded a b c (F64.fin x) ha hb hne hx
  rw [← hsp, ← hu] at hsel
  rw [← hsp] at hfirst
  obtain ⟨rows2, e, -, c0, -⟩ :=
    sampleStartingState_of_loop po rng hsel hst (by omega) hsh
      (hzero 0 (le_refl _) (by omega))
  exact ⟨_, _, _, st, e, hfirst, c0, rfl⟩

theorem infected_total :
    F64.le (F64.fin (1 / 2)) (cumulativeMass infectedPO.StartingProbabilities 2) = true := by
  show F64.le (F64.fin (1 / 2)) (cumulativeMass [F64.fin 0, F64.fin 1, F64.fin 0] 2) = true
  rw [cumulativeMass_exact_one 0 1 0 (le_refl _) (by norm_num) (le_refl _) round64_zero
    (by norm_num)]
  simp [F64.le]
  norm_num

/-- Witness of the amended C10: the distribution `[0, 1, 0]` and the draw `1/2`; the
compartment selected is I. -/
theorem startingState_selects_first_witness :
    (1 ≤ 3 ∧ infectedPO.PosteriorSample = NewStateMatrix 3 ["S", "I", "R"] ∧
      infectedPO.StartingProbabilities = [F64.fin 0, F64.fin 1, F64.fin 0] ∧
      (0 : ℚ) ≤ 0 ∧ (0 : ℚ) ≤ 1 ∧ ¬((0 : ℚ) = 0 ∧ (1 : ℚ) = 0 ∧ (0 : ℚ) = 0) ∧
      exampleRNG.uniformAt exampleRNG.pos = F64.fin (1 / 2) ∧
      F64.le (F64.fin (1 / 2)) (cumulativeMass infectedPO.StartingProbabilities 2) = true) ∧
    ∃ ret po2 rng2 st, SampleStartingState infectedPO exampleRNG = some (ret, po2, rng2) ∧
      firstReachingRounded infectedPO.StartingProbabilities (F64.fin (1 / 2)) = some st ∧
      column po2.PosteriorSample.Values 0 = some (hot st) ∧
      ret = (if st = I then F64.fin 1 else F64.fin 0) :=
  ⟨⟨by decide, rfl, rfl, le_refl _, by norm_num, by norm_num, rfl, infected_total⟩,
    startingState_selects_first 3 infectedPO exampleRNG 0 1 0 (1 / 2) (by decide) rfl rfl
      (le_refl _) (by norm_num) (le_refl _) (by norm_num) rfl infected_total⟩

/-! ## One forward step, branch by branch -/

theorem rateAndDraw_fst (rate cond : F64) (rng : RNG) :
    (rateAndDraw rate cond rng).1 =
      (F64.lt (F64.fin 0) rate && F64.lt (rng.uniformAt rng.pos) cond) := by
  unfold rateAndDraw
  cases h : F64.lt (F64.fin 0) rate <;> simp [RNG.UniformRandomFloat64]

theorem rateAndDraw_snd (rate cond : F64) (rng : RNG) :
    ∃ m, (rateAndDraw rate cond rng).2 = { rng with pos := m } := by
  unfold rateAndDraw
  cases h : F64.lt (F64.fin 0) rate
  · exact ⟨rng.pos, by simp⟩
  · exact ⟨rng.pos + 1, by simp [RNG.UniformRandomFloat64]⟩

theorem step_full {T : Nat} (po : PartialObserved) (t : Int) (StoI ItoR : F64) (rng : RNG)
    (hQ : Shape T po.PosteriorSample.Values) (h0 : 0 ≤ t)
    (hT : t + 1 < T) {c p : F64 × F64 × F64}
    (hc : column po.PosteriorSample.Values t = some c) (hhot : OneHot c)
    (hp : column po.Prior.Values (t + 1) = some p) :
    ∃ ret rows2 lp m, Step po t StoI ItoR rng =
        some (ret, { po with PosteriorSample := { po.PosteriorSample with Values := rows2 }
                             PosteriorLP := lp }, { rng with pos := m }) ∧
      Shape T rows2 ∧
      (∀ t2, t2 ≠ t + 1 → column rows2 t2 = column po.PosteriorSample.Values t2) ∧
      column rows2 (t + 1) = some (stepColumn StoI ItoR p c (rng.uniformAt rng.pos)) := by
  have h1 : (0 : Int) ≤ t + 1 := by omega
  obtain ⟨pS, pI, pR⟩ := p
  obtain ⟨hpS, hpI, hpR⟩ := column_cells hp
  obtain ⟨rS, eS, sS, cS, oS⟩ :=
    setPosteriorColumn_spec po hQ h1 hT (F64.fin 1) (F64.fin 0) (F64.fin 0)
  obtain ⟨rI, eI, sI, cI, oI⟩ :=
    setPosteriorColumn_spec po hQ h1 hT (F64.fin 0) (F64.fin 1) (F64.fin 0)
  obtain ⟨rR, eR, sR, cR, oR⟩ :=
    setPosteriorColumn_spec po hQ h1 hT (F64.fin 0) (F64.fin 0) (F64.fin 1)
  rcases hhot with hc1 | hc1 | hc1
  · subst hc1
    obtain ⟨gS, -, -⟩ := column_cells hc
    obtain ⟨m, hm⟩ := rateAndDraw_snd StoI
      (F64.div (F64.mul pI StoI)
        (F64.add (F64.mul pI StoI) (F64.mul pS (F64.sub (F64.fin 1) StoI)))) rng
    have hfst := rateAndDraw_fst StoI
      (F64.div (F64.mul pI StoI)
        (F64.add (F64.mul pI StoI) (F64.mul pS (F64.sub (F64.fin 1) StoI)))) rng
    cases hd : (rateAndDraw StoI
        (F64.div (F64.mul pI StoI)
          (F64.add (F64.mul pI StoI) (F64.mul pS (F64.sub (F64.fin 1) StoI)))) rng).1 with
    | true =>
      rw [hd] at hfst
      refine ⟨F64.fin 1, rI, LogVal.add po.PosteriorLP (F64.log StoI), m, ?_, sI, oI, ?_⟩
      · simp [Step, gS, F64.eq, stepFromS, hpI, hpS, hd, eI, hm]
      · rw [cI]
        simp only [stepColumn, if_true, ← hfst]
        rfl
    | false =>
      rw [hd] at hfst
      refine ⟨F64.fin 0, rS, LogVal.add po.PosteriorLP (F64.log (F64.sub (F64.fin 1) StoI)), m,
        ?_, sS, oS, ?_⟩
      · simp [Step, gS, F64.eq, stepFromS, hpI, hpS, hd, eS, hm]
      · rw [cS]
        simp only [stepColumn, if_true, ← hfst]
        rfl
  · subst hc1
    obtain ⟨gS, gI, -⟩ := column_cells hc
    obtain ⟨m, hm⟩ := rateAndDraw_snd ItoR
      (F64.div (F64.mul pR ItoR)
        (F64.add (F64.mul pR ItoR) (F64.mul pI (F64.sub (F64.fin 1) ItoR)))) rng
    have hfst := rateAndDraw_fst ItoR
      (F64.div (F64.mul pR ItoR)
        (F64.add (F64.mul pR ItoR) (F64.mul pI (F64.sub (F64.fin 1) ItoR)))) rng
    have hne : onlyI ≠ onlyS := fun h => onlyS_ne_onlyI h.symm
    cases hd : (rateAndDraw ItoR
        (F64.div (F64.mul pR ItoR)
          (F64.add (F64.mul pR ItoR) (F64.mul pI (F64.sub (F64.fin 1) ItoR)))) rng).1 with
    | true =>
      rw [hd] at hfst
      refine ⟨F64.fin 0, rR, LogVal.add po.PosteriorLP (F64.log ItoR), m, ?_, sR, oR, ?_⟩
      · simp [Step, gS, gI, F64.eq, stepFromI, hpI, hpR, hd, eR, hm]
      · rw [cR]
        simp only [stepColumn, if_neg hne, if_true, ← hfst]
        rfl
    | false =>
      rw [hd] at hfst
      refine ⟨F64.fin 1, rI, LogVal.add po.PosteriorLP (F64.log (F64.sub (F64.fin 1) ItoR)), m,
        ?_, sI, oI, ?_⟩
      · simp [Step, gS, gI, F64.eq, stepFromI, hpI, hpR, hd, eI, hm]
      · rw [cI]
        simp only [stepColumn, if_neg hne, if_true, ← hfst]
        rfl
  · subst hc1
    obtain ⟨gS, gI, gR⟩ := column_cells hc
    refine ⟨F64.fin 0, rR, po.PosteriorLP, rng.pos, ?_, sR, oR, ?_⟩
    · simp [Step, gS, gI, gR, F64.eq, eR]
    · rw [cR]
      have h1 : onlyR ≠ onlyS := fun h => onlyS_ne_onlyR h.symm
      have h2 : onlyR ≠ onlyI := fun h => onlyI_ne_onlyR h.symm
      simp only [stepColumn, if_neg h1, if_neg h2]
      rfl

/-! ## Arithmetic of the conditional weights -/

theorem stepColumn_S_feasible (a x : ℚ) (ItoR : F64) (p : F64 × F64 × F64) (ha : 0 < a)
    (ha1 : a < 1) (hx0 : 0 ≤ x) (hx1 : x < 1) (hf : Flags p)
    (hsome : p.1 = F64.fin 1 ∨ p.2.1 = F64.fin 1) :
    MarkedFeasible (stepColumn (F64.fin a) ItoR p onlyS (F64.fin x)) p := by
  obtain ⟨pS, pI, pR⟩ := p
  obtain ⟨fS, fI, -⟩ := hf
  simp only at fS fI hsome
  have hane : a ≠ 0 := ne_of_gt ha
  have h1a : (1 : ℚ) + -a ≠ 0 := by linarith
  have hnx : ¬ x < 0 := not_lt.mpr hx0
  rcases fS with hS | hS <;> rcases fI with hI | hI <;> subst hS <;> subst hI
  · rcases hsome with h | h <;> simp at h
  · have : stepColumn (F64.fin a) ItoR (F64.fin 0, F64.fin 1, pR) onlyS (F64.fin x) = onlyI := by
      simp [stepColumn, F64.lt, F64.mul, F64.sub, F64.add, F64.neg, F64.div, ha, hane, hx1]
    rw [this]
    refine ⟨fun h => absurd h.symm onlyS_ne_onlyI, fun _ => rfl, fun h => absurd h onlyI_ne_onlyR⟩
  · have : stepColumn (F64.fin a) ItoR (F64.fin 1, F64.fin 0, pR) onlyS (F64.fin x) = onlyS := by
      simp [stepColumn, F64.lt, F64.mul, F64.sub, F64.add, F64.neg, F64.div, ha, h1a, hnx]
    rw [this]
    refine ⟨fun _ => rfl, fun h => absurd h onlyS_ne_onlyI, fun h => absurd h onlyS_ne_onlyR⟩
  · unfold stepColumn
    simp only [if_true]
    split_ifs
    · refine ⟨fun h => absurd h.symm onlyS_ne_onlyI, fun _ => rfl,
        fun h => absurd h onlyI_ne_onlyR⟩
    · refine ⟨fun _ => rfl, fun h => absurd h onlyS_ne_onlyI, fun h => absurd h onlyS_ne_onlyR⟩

theorem stepColumn_I_feasible (b x : ℚ) (StoI : F64) (p : F64 × F64 × F64) (hb : 0 < b)
    (hb1 : b < 1) (hx0 : 0 ≤ x) (hx1 : x < 1) (hf : Flags p)
    (hsome : p.2.1 = F64.fin 1 ∨ p.2.2 = F64.fin 1) :
    MarkedFeasible (stepColumn StoI (F64.fin b) p onlyI (F64.fin x)) p := by
  obtain ⟨pS, pI, pR⟩ := p
  obtain ⟨-, fI, fR⟩ := hf
  simp only at fI fR hsome
  have hbne : b ≠ 0 := ne_of_gt hb
  have h1b : (1 : ℚ) + -b ≠ 0 := by linarith
  have hnx : ¬ x < 0 := not_lt.mpr hx0
  have hne : onlyI ≠ onlyS := fun h => onlyS_ne_onlyI h.symm
  rcases fI with hI | hI <;> rcases fR with hR | hR <;> subst hI <;> subst hR
  · rcases hsome with h | h <;> simp at h
  · have : stepColumn StoI (F64.fin b) (pS, F64.fin 0, F64.fin 1) onlyI (F64.fin x) = onlyR := by
      simp [stepColumn, hne, F64.lt, F64.mul, F64.sub, F64.add, F64.neg, F64.div, hb, hbne, hx1]
    rw [this]
    refine ⟨fun h => absurd h.symm onlyS_ne_onlyR, fun h => absurd h.symm onlyI_ne_onlyR,
      fun _ => rfl⟩
  · have : stepColumn StoI (F64.fin b) (pS, F64.fin 1, F64.fin 0) onlyI (F64.fin x) = onlyI := by
      simp [stepColumn, hne, F64.lt, F64.mul, F64.sub, F64.add, F64.neg, F64.div, hb, h1b, hnx]
    rw [this]
    refine ⟨fun h => absurd h.symm onlyS_ne_onlyI, fun _ => rfl, fun h => absurd h onlyI_ne_onlyR⟩
  · unfold stepColumn
    simp only [if_neg hne, if_true]
    split_ifs
    · refine ⟨fun h => absurd h.symm onlyS_ne_onlyR, fun h => absurd h.symm onlyI_ne_onlyR,
        fun _ => rfl⟩
    · refine ⟨fun h => absurd h.symm onlyS_ne_onlyI, fun _ => rfl,
        fun h => absurd h onlyI_ne_onlyR⟩

/-! ## Claims on the forward step -/

theorem shape_started :
    Shape 3 startedPO.Prior.Values ∧ Shape 3 startedPO.PosteriorSample.Values := by
  constructor <;> simp [Shape, startedPO]

theorem column_started :
    column startedPO.PosteriorSample.Values 0 = some onlyS ∧
      column startedPO.Prior.Values (0 + 1) = some (F64.fin 1, F64.fin 1, F64.fin 1) := by
  constructor <;> simp [column, getCell, startedPO, S, I, R, onlyS]

/-- C11: for `0 ≤ t`, `t + 1 < T`, a prior column at `t + 1` whose cells are 0 or 1, a uniform
draw in `[0, 1)` and rates strictly between 0 and 1, if the posterior sample marks S
(respectively I) at time `t` and one of the candidates S, I (respectively I, R) is flagged
feasible in the prior at `t + 1`, then Step returns and the compartment it marks at `t + 1`
is flagged feasible in the prior at `t + 1`. -/
theorem step_respects_prior (T : Nat) (po : PartialObserved) (t : Int) (a b x : ℚ) (rng : RNG)
    (p c : F64 × F64 × F64) (hP : Shape T po.Prior.Values)
    (hQ : Shape T po.PosteriorSample.Values) (h0 : 0 ≤ t) (hT : t + 1 < T)
    (ha : 0 < a) (ha1 : a < 1) (hb : 0 < b) (hb1 : b < 1)
    (hu : rng.uniformAt rng.pos = F64.fin x) (hx0 : 0 ≤ x) (hx1 : x < 1)
    (hp : column po.Prior.Values (t + 1) = some p) (hf : Flags p)
    (hc : column po.PosteriorSample.Values t = some c)
    (hcase : (c = onlyS ∧ (p.1 = F64.fin 1 ∨ p.2.1 = F64.fin 1)) ∨
      (c = onlyI ∧ (p.2.1 = F64.fin 1 ∨ p.2.2 = F64.fin 1))) :
    ∃ ret po2 rng2 c2, Step po t (F64.fin a) (F64.fin b) rng = some (ret, po2, rng2) ∧
      column po2.PosteriorSample.Values (t + 1) = some c2 ∧ OneHot c2 ∧
      MarkedFeasible c2 p := by
  have hhot : OneHot c := by
    rcases hcase with ⟨h, -⟩ | ⟨h, -⟩
    · exact Or.inl h
    · exact Or.inr (Or.inl h)
  obtain ⟨ret, rows2, lp, m, e, -, -, hcol⟩ :=
    step_full po t (F64.fin a) (F64.fin b) rng hQ h0 hT hc hhot hp
  obtain ⟨ret2, rows3, lp3, rng3, e3, -, -, -, c2, hc2, hmv, -, -⟩ :=
    step_spec po t (F64.fin a) (F64.fin b) rng hP hQ h0 hT hc hhot
  rw [e] at e3
  have hrows : rows2 = rows3 := by
    have h := Option.some.inj e3
    simp only [Prod.mk.injEq, PartialObserved.mk.injEq, StateMatrix.mk.injEq] at h
    exact h.2.1.2.2.2.2.2.1.2.1
  subst hrows
  refine ⟨ret, _, _, _, e, hcol, ?_, ?_⟩
  · rw [hcol] at hc2
    rw [Option.some.inj hc2]
    exact oneHot_of_move hmv
  · rw [hu]
    rcases hcase with ⟨h, hs⟩ | ⟨h, hs⟩
    · subst h
      exact stepColumn_S_feasible a x (F64.fin b) p ha ha1 hx0 hx1 hf hs
    · subst h
      exact stepColumn_I_feasible b x (F64.fin a) p hb hb1 hx0 hx1 hf hs

/-- Witness of C11: horizon 3, all compartments feasible, S marked at time 0, rates 1/2. -/
theorem step_respects_prior_witness :
    (Shape 3 startedPO.Prior.Values ∧ Shape 3 startedPO.PosteriorSample.Values ∧
      (0 : Int) ≤ 0 ∧ (0 : Int) + 1 < (3 : Nat) ∧ (0 : ℚ) < 1 / 2 ∧ (1 / 2 : ℚ) < 1 ∧
      exampleRNG.uniformAt exampleRNG.pos = F64.fin (1 / 2) ∧ (0 : ℚ) ≤ 1 / 2 ∧
      column startedPO.Prior.Values (0 + 1) = some (F64.fin 1, F64.fin 1, F64.fin 1) ∧
      Flags (F64.fin 1, F64.fin 1, F64.fin 1) ∧
      column startedPO.PosteriorSample.Values 0 = some onlyS) ∧
    ∃ ret po2 rng2 c2,
      Step startedPO 0 (F64.fin (1 / 2)) (F64.fin (1 / 2)) exampleRNG = some (ret, po2, rng2) ∧
      column po2.PosteriorSample.Values (0 + 1) = some c2 ∧ OneHot c2 ∧
      MarkedFeasible c2 (F64.fin 1, F64.fin 1, F64.fin 1) :=
  ⟨⟨shape_started.1, shape_started.2, le_refl _, by decide, by norm_num, by norm_num, rfl,
      by norm_num, column_started.2, by simp [Flags], column_started.1⟩,
    step_respects_prior 3 startedPO 0 (1 / 2) (1 / 2) (1 / 2) exampleRNG
      (F64.fin 1, F64.fin 1, F64.fin 1) onlyS shape_started.1 shape_started.2 (le_refl _)
      (by decide) (by norm_num) (by norm_num) (by norm_num) (by norm_num) rfl (by norm_num)
      (by norm_num) column_started.2 (by simp [Flags]) column_started.1
      (Or.inl ⟨rfl, Or.inl rfl⟩)⟩

/-- C12: for `t + 1 < T` and a state whose posterior column `t` is one-hot (any prior, rates
and draw), Step returns 1.0 exactly when the compartment it marks at `t + 1` is I, and 0.0
otherwise; from R it marks R, leaves PosteriorLP unchanged, makes no draw and returns 0.0. -/
theorem step_return_value (T : Nat) (po : PartialObserved) (t : Int) (StoI ItoR : F64)
    (rng : RNG) (c : F64 × F64 × F64) (hP : Shape T po.Prior.Values)
    (hQ : Shape T po.PosteriorSample.Values) (h0 : 0 ≤ t) (hT : t + 1 < T)
    (hc : column po.PosteriorSample.Values t = some c) (hhot : OneHot c) :
    ∃ ret po2 rng2 c2, Step po t StoI ItoR rng = some (ret, po2, rng2) ∧
      column po2.PosteriorSample.Values (t + 1) = some c2 ∧ OneHot c2 ∧
      (ret = F64.fin 1 ↔ c2 = onlyI) ∧ (c2 ≠ onlyI → ret = F64.fin 0) ∧
      (c = onlyR →
        c2 = onlyR ∧ po2.PosteriorLP = po.PosteriorLP ∧ rng2 = rng ∧ ret = F64.fin 0) := by
  obtain ⟨ret, rows2, lp, rng2, e, -, -, hrng, c2, hc2, hmv, hlp, hret⟩ :=
    step_spec po t StoI ItoR rng hP hQ h0 hT hc hhot
  refine ⟨ret, _, rng2, c2, e, hc2, oneHot_of_move hmv, ?_, ?_, ?_⟩
  · rw [hret]
    by_cases h : c2 = onlyI
    · simp [h]
    · simp [h]
  · intro h
    rw [hret, if_neg h]
  · intro hR
    subst hR
    have h2 : c2 = onlyR := by
      rcases hmv with ⟨h, -⟩ | ⟨h, -⟩ | ⟨-, h⟩
      · exact absurd h.symm onlyS_ne_onlyR
      · exact absurd h.symm onlyI_ne_onlyR
      · exact h
    subst h2
    refine ⟨rfl, ?_, hrng rfl, ?_⟩
    · rw [hlp]
      simp [moveLP, onlyS, onlyI, onlyR, LogVal.add_zero]
    · rw [hret, if_neg (fun h => onlyI_ne_onlyR h.symm)]

/-- Witness of C12: horizon 3, S marked at time 0. -/
theorem step_return_value_witness :
    (Shape 3 startedPO.Prior.Values ∧ Shape 3 startedPO.PosteriorSample.Values ∧
      (0 : Int) ≤ 0 ∧ (0 : Int) + 1 < (3 : Nat) ∧
      column startedPO.PosteriorSample.Values 0 = some onlyS ∧ OneHot onlyS) ∧
    ∃ ret po2 rng2 c2,
      Step startedPO 0 (F64.fin (1 / 2)) (F64.fin (1 / 2)) exampleRNG = some (ret, po2, rng2) ∧
      column po2.PosteriorSample.Values (0 + 1) = some c2 ∧ OneHot c2 ∧
      (ret = F64.fin 1 ↔ c2 = onlyI) ∧ (c2 ≠ onlyI → ret = F64.fin 0) ∧
      (onlyS = onlyR →
        c2 = onlyR ∧ po2.PosteriorLP = startedPO.PosteriorLP ∧ rng2 = exampleRNG ∧
          ret = F64.fin 0) :=
  ⟨⟨shape_started.1, shape_started.2, le_refl _, by decide, column_started.1, Or.inl rfl⟩,
    step_return_value 3 startedPO 0 (F64.fin (1 / 2)) (F64.fin (1 / 2)) exampleRNG onlyS
      shape_started.1 shape_started.2 (le_refl _) (by decide) column_started.1 (Or.inl rfl)⟩

/-! ## The forward pass, draw by draw -/

theorem oneHot_stepColumn (StoI ItoR : F64) (p c : F64 × F64 × F64) (u : F64) :
    OneHot (stepColumn StoI ItoR p c u) := by
  unfold stepColumn OneHot
  split_ifs <;> simp

theorem steps_trace {T : Nat} (StoI ItoR : F64) (po : PartialObserved) (rng : RNG)
    (hP : Shape T po.Prior.Values) (hQ : Shape T po.PosteriorSample.Values)
    {c0 : F64 × F64 × F64} (hc0 : column po.PosteriorSample.Values 0 = some c0)
    (hh : OneHot c0) :
    ∀ n : Nat, (n : Int) < T →
      ∃ rows2 lp m, forLoopAux (stepBody StoI ItoR) n 0 (po, rng) =
          some ({ po with PosteriorSample := { po.PosteriorSample with Values := rows2 }
                          PosteriorLP := lp }, { rng with pos := m }) ∧
        Shape T rows2 ∧ column rows2 0 = some c0 ∧
        (∀ t : Int, 0 ≤ t → t ≤ n → ∃ c, column rows2 t = some c ∧ OneHot c) ∧
        ∀ t : Int, 0 ≤ t → t < n →
          ∃ c p i, column rows2 t = some c ∧ column po.Prior.Values (t + 1) = some p ∧
            column rows2 (t + 1) = some (stepColumn StoI ItoR p c (rng.uniformAt i)) := by
  intro n
  induction n with
  | zero =>
    intro _
    refine ⟨po.PosteriorSample.Values, po.PosteriorLP, rng.pos, rfl, hQ, hc0, ?_, ?_⟩
    · intro t h0 h1
      have : t = 0 := by simp at h1; omega
      subst this
      exact ⟨c0, hc0, hh⟩
    · intro t h0 h1
      simp at h1
      omega
  | succ n ih =>
    intro hn
    have hn1 : (n : Int) + 1 < T := by push_cast at hn; exact hn
    obtain ⟨rows1, lp1, m1, e1, s1, z1, hot1, tr1⟩ := ih (by omega)
    obtain ⟨c, hc, hhc⟩ := hot1 (n : Int) (by omega) (le_refl _)
    obtain ⟨p, hp⟩ := column_isSome hP (t := (n : Int) + 1) (by omega) hn1
    obtain ⟨ret, rows2, lp2, m2, e2, s2, o2, hcol⟩ :=
      step_full
        { po with PosteriorSample := { po.PosteriorSample with Values := rows1 }
                  PosteriorLP := lp1 }
        (n : Int) StoI ItoR { rng with pos := m1 } s1 (by omega) hn1 hc hhc hp
    have keep : ∀ t : Int, t ≤ n → column rows2 t = column rows1 t := by
      intro t ht
      exact o2 t (by omega)
    refine ⟨rows2, lp2, m2, ?_, s2, ?_, ?_, ?_⟩
    · rw [forLoopAux_succ_last, e1]
      simp only [Option.some_bind, zero_add, stepBody, e2, Option.map_some']
    · rw [keep 0 (by omega)]
      exact z1
    · intro t h0 h1
      by_cases ht : t = (n : Int) + 1
      · subst ht
        exact ⟨_, hcol, oneHot_stepColumn _ _ _ _ _⟩
      · have hle : t ≤ n := by push_cast at h1; omega
        rw [keep t hle]
        exact hot1 t h0 hle
    · intro t h0 h1
      by_cases ht : t = (n : Int)
      · subst ht
        refine ⟨c, p, m1, ?_, hp, hcol⟩
        rw [keep _ (le_refl _)]
        exact hc
      · have hlt : t < n := by push_cast at h1; omega
        obtain ⟨d, q, i, hd, hq, hd2⟩ := tr1 t h0 hlt
        refine ⟨d, q, i, ?_, hq, ?_⟩
        · rw [keep t (by omega)]; exact hd
        · rw [keep (t + 1) (by omega)]; exact hd2

theorem forwardPass_full {T : Nat} (po : PartialObserved) (n : Nat) (StoI ItoR : F64) (rng : RNG)
    (hP : Shape T po.Prior.Values) (hQ : Shape T po.PosteriorSample.Values)
    (hz : column po.PosteriorSample.Values 0 = some (F64.fin 0, F64.fin 0, F64.fin 0))
    (hn : n < T) {st : Nat} {pr : F64}
    (hsel : startingLoop po.StartingProbabilities (rng.uniformAt rng.pos) 3 0 (F64.fin 0) 0
      (F64.fin 0) = some (st, pr))
    (hst : st < 3) :
    ∃ rows2 rng2, forwardPass po n StoI ItoR rng =
        some ({ po with PosteriorSample := { po.PosteriorSample with Values := rows2 }
                        PosteriorLP := LogVal.add (LogVal.add po.PriorLP (F64.log pr))
                          (realizedLP StoI ItoR rows2 n) }, rng2) ∧
      Shape T rows2 ∧ column rows2 0 = some (hot st) ∧
      ∀ t : Int, 0 ≤ t → t < n →
        ∃ c p i, column rows2 t = some c ∧ column po.Prior.Values (t + 1) = some p ∧
          column rows2 (t + 1) = some (stepColumn StoI ItoR p c (rng.uniformAt i)) := by
  obtain ⟨rows1, e1, s1, c1, -⟩ :=
    sampleStartingState_of_loop po rng hsel hst (by omega) hQ hz
  obtain ⟨rows2, lp, m, e2, s2, z2, -, tr2⟩ :=
    steps_trace StoI ItoR
      { po with PosteriorSample := { po.PosteriorSample with Values := rows1 }
                PosteriorLP := LogVal.add po.PriorLP (F64.log pr) }
      { rng with pos := rng.pos + 1 } hP s1 c1 oneHot_hot n (by omega)
  obtain ⟨rows3, lp3, rng3, e3, -, -, -, -, -, hlp⟩ :=
    forwardPass_spec po n StoI ItoR rng hP hQ hz hn hsel hst
  have e4 : forwardPass po n StoI ItoR rng =
      some ({ po with PosteriorSample := { po.PosteriorSample with Values := rows2 }
                      PosteriorLP := lp }, { rng with pos := m }) := by
    simp only [forwardPass, e1, Option.some_bind, forLoop, sub_zero, Int.toNat_ofNat]
    exact e2
  have hinj := e3.symm.trans e4
  have h := Option.some.inj hinj
  simp only [Prod.mk.injEq, PartialObserved.mk.injEq, StateMatrix.mk.injEq] at h
  obtain ⟨⟨-, -, -, -, -, ⟨-, hrows, -, -⟩, hlpeq⟩, -⟩ := h
  subst hrows
  subst hlpeq
  refine ⟨rows3, { rng with pos := m }, ?_, s2, z2, tr2⟩
  rw [e4, hlp]

theorem trace_follows {rows prior : List (List F64)} {n : Int} (StoI ItoR : F64) (rng : RNG)
    (target : Int → F64 × F64 × F64) (h0 : column rows 0 = some (target 0))
    (htrace : ∀ t : Int, 0 ≤ t → t < n →
      ∃ c p i, column rows t = some c ∧ column prior (t + 1) = some p ∧
        column rows (t + 1) = some (stepColumn StoI ItoR p c (rng.uniformAt i)))
    (hstep : ∀ (t : Int) p i, 0 ≤ t → t < n → column prior (t + 1) = some p →
      stepColumn StoI ItoR p (target t) (rng.uniformAt i) = target (t + 1)) :
    ∀ k : Nat, (k : Int) ≤ n → column rows (k : Int) = some (target k) := by
  intro k
  induction k with
  | zero => intro _; simpa using h0
  | succ k ih =>
    intro hk
    have hprev := ih (by push_cast at hk; omega)
    obtain ⟨c, p, i, hc, hp, hc2⟩ := htrace (k : Int) (by omega) (by push_cast at hk; omega)
    rw [hprev] at hc
    have hceq : c = target k := (Option.some.inj hc).symm
    subst hceq
    have := hstep (k : Int) p i (by omega) (by push_cast at hk; omega) hp
    push_cast
    rw [hc2, this]

/-! ## A trajectory through the infected and the recovered compartment -/

theorem shape_infected : Shape 3 infectedPO.Prior.Values := by
  simp [Shape, infectedPO]

theorem infected_loop :
    startingLoop infectedPO.StartingProbabilities
      (exampleRNG.uniformAt exampleRNG.pos) 3 0 (F64.fin 0) 0 (F64.fin 0) =
      some (1, F64.fin 1) := by
  have e0 : F64.addRound (F64.fin 0) (F64.fin 0) = F64.fin 0 := addRound_zero nonnegFloat_zero
  have e1 : F64.addRound (F64.fin 0) (F64.fin 1) = F64.fin 1 := by
    simp only [F64.addRound, zero_add]
    exact round64_one
  show startingLoop [F64.fin 0, F64.fin 1, F64.fin 0] (F64.fin (1 / 2)) 3 0
      (F64.fin 0) 0 (F64.fin 0) = some (1, F64.fin 1)
  rw [startingLoop_cumulative 0 1 0 (F64.fin (1 / 2)) (le_refl _) (by norm_num),
    cumulativeMass_at_one, e0, e1]
  simp [F64.le]
  norm_num

theorem stepColumn_recovers :
    stepColumn (F64.fin (1 / 2)) (F64.fin (3 / 4)) (F64.fin 1, F64.fin 1, F64.fin 1) onlyI
      (F64.fin (1 / 2)) = onlyR := by
  have hIS : onlyI ≠ onlyS := fun h => onlyS_ne_onlyI h.symm
  simp [stepColumn, hIS, F64.lt, F64.mul, F64.sub, F64.add, F64.div, F64.neg]
  norm_num

/-- Witness of C2 at horizon 3: an individual that starts infected, with the recovery rate
`3/4` and uniform draws `1/2`; the trajectory is I, R, R, so that the time 0 is marked I and
the time 1 is marked R. -/
theorem posteriorSample_monotone_witness :
    (1 ≤ 3 ∧ Shape 3 infectedPO.Prior.Values ∧
      infectedPO.PosteriorSample = NewStateMatrix 3 ["S", "I", "R"] ∧
      infectedPO.StartingProbabilities.length = 3) ∧
    ∃ po2 rng2, forwardPass infectedPO (3 - 1) (F64.fin (1 / 2)) (F64.fin (3 / 4)) exampleRNG =
        some (po2, rng2) ∧
      column po2.PosteriorSample.Values 0 = some onlyI ∧
      column po2.PosteriorSample.Values 1 = some onlyR ∧
      column po2.PosteriorSample.Values 2 = some onlyR ∧
      ∀ t t2 : Int, 0 ≤ t → t < t2 → t2 < (3 : Nat) →
        (column po2.PosteriorSample.Values t = some onlyR →
          column po2.PosteriorSample.Values t2 = some onlyR) ∧
        (column po2.PosteriorSample.Values t = some onlyI →
          (column po2.PosteriorSample.Values t2 = some onlyI ∨
            column po2.PosteriorSample.Values t2 = some onlyR) ∧
          getCell po2.PosteriorSample.Values S t2 = some (F64.fin 0)) := by
  refine ⟨⟨by decide, shape_infected, rfl, rfl⟩, ?_⟩
  obtain ⟨po2, rng2, e, h⟩ :=
    posteriorSample_monotone 3 infectedPO (F64.fin (1 / 2)) (F64.fin (3 / 4)) exampleRNG
      (by decide) shape_infected rfl rfl
  obtain ⟨rows2, rng3, e2, -, c0, tr⟩ :=
    forwardPass_full (T := 3) infectedPO 2 (F64.fin (1 / 2)) (F64.fin (3 / 4)) exampleRNG
      shape_infected (shape_new 3) (column_new 3 (le_refl _) (by decide)) (by decide)
      infected_loop (by decide)
  have hpo : po2.PosteriorSample.Values = rows2 := by
    have h1 := e.symm.trans e2
    have h2 : po2 = _ := congrArg Prod.fst (Option.some.inj h1)
    rw [h2]
  have h0 : column po2.PosteriorSample.Values 0 = some onlyI := by
    rw [hpo]
    exact c0
  have h1 : column po2.PosteriorSample.Values 1 = some onlyR := by
    obtain ⟨c, p, i, hc, hp, hc2⟩ := tr 0 (le_refl _) (by decide)
    rw [c0] at hc
    have hc3 : c = onlyI := (Option.some.inj hc).symm
    have hp2 : p = (F64.fin 1, F64.fin 1, F64.fin 1) := by
      have : column infectedPO.Prior.Values (0 + 1) = some (F64.fin 1, F64.fin 1, F64.fin 1) := by
        simp [column, getCell, infectedPO, S, I, R]
      rw [this] at hp
      exact (Option.some.inj hp).symm
    rw [hpo]
    rw [hc3, hp2] at hc2
    have hu : exampleRNG.uniformAt i = F64.fin (1 / 2) := rfl
    rw [hu, stepColumn_recovers] at hc2
    simpa using hc2
  exact ⟨po2, rng2, e, h0, h1, (h 1 2 (by decide) (by decide) (by decide)).1 h1, h⟩

/-! ## The scenario without observations and without infection -/

theorem stepColumn_zero_rate (ItoR : F64) (p : F64 × F64 × F64) (u : F64) :
    stepColumn (F64.fin 0) ItoR p onlyS u = onlyS := by
  simp [stepColumn, F64.lt]

theorem log_one : F64.log (F64.fin 1) = LogVal.zero := by
  have h1 : ¬ (1 : ℚ) < 0 := by norm_num
  simp [F64.log, LogVal.zero, h1]

theorem sub_one_zero : F64.sub (F64.fin 1) (F64.fin 0) = F64.fin 1 := by
  simp [F64.sub, F64.add, F64.neg]

theorem realizedLP_susceptible (ItoR : F64) (rows : List (List F64)) :
    ∀ n : Nat, (∀ t : Int, 0 ≤ t → t ≤ n → column rows t = some onlyS) →
      realizedLP (F64.fin 0) ItoR rows n = LogVal.zero := by
  intro n
  induction n with
  | zero => intro _; rfl
  | succ n ih =>
    intro h
    have h1 := ih (fun t h0 hn => h t h0 (by push_cast; omega))
    have h2 := h (n : Int) (by omega) (by push_cast; omega)
    have h3 := h ((n : Int) + 1) (by omega) (by push_cast; omega)
    simp only [realizedLP, h1, h2, h3]
    have hm : moveLP (F64.fin 0) ItoR onlyS onlyS = LogVal.zero := by
      simp [moveLP, onlyS_ne_onlyI, sub_one_zero, log_one]
    rw [hm, LogVal.add_zero]

/-- C13: for every horizon `T ≥ 1`, with no infection and no non-infection observation,
StartingProbabilities `[1, 0, 0]`, `StoI = 0`, any `ItoR` and uniform draws in `[0, 1)`:
ObservationsToPriorSample returns without a draw; SampleStartingState and Step for
`t = 0, ..., T - 2` then return, the starting compartment is S, the posterior sample marks S at
every time index, and `PosteriorLP = PriorLP = 0`. -/
theorem susceptible_forever (T : Nat) (gamma ItoR : F64) (rng : RNG) (hT : 1 ≤ T)
    (hu : UnitDraws rng) :
    ∃ po1 po2 rng2,
      ObservationsToPriorSample (NewPartialObserved T [F64.fin 1, F64.fin 0, F64.fin 0] [] [])
        gamma rng = some (po1, rng) ∧
      forwardPass po1 (T - 1) (F64.fin 0) ItoR rng = some (po2, rng2) ∧
      column po2.PosteriorSample.Values 0 = some onlyS ∧
      (∀ t : Int, 0 ≤ t → t < T → column po2.PosteriorSample.Values t = some onlyS) ∧
      po2.PosteriorLP = LogVal.zero ∧ po2.PriorLP = LogVal.zero := by
  obtain ⟨rows1, s1, -, e1⟩ :=
    observationsToPriorSample_eq (T := T)
      (NewPartialObserved T [F64.fin 1, F64.fin 0, F64.fin 0] [] []) gamma rng (shape_new T) rfl
      (l := []) rfl
  simp only [List.foldlM_nil, Option.pure_def] at e1
  obtain ⟨x, hx, -, hx1⟩ := hu rng.pos
  have hsel : startingLoop [F64.fin 1, F64.fin 0, F64.fin 0] (rng.uniformAt rng.pos) 3 0
      (F64.fin 0) 0 (F64.fin 0) = some (0, F64.fin 1) := by
    rw [hx]
    exact startingLoop_certain x (le_of_lt hx1)
  obtain ⟨rows2, rng2, e2, s2, z2, tr2⟩ :=
    forwardPass_full (T := T)
      { NewPartialObserved T [F64.fin 1, F64.fin 0, F64.fin 0] [] [] with
        Prior := { (NewPartialObserved T [F64.fin 1, F64.fin 0, F64.fin 0] [] []).Prior with
          Values := rows1 }
        PriorLP := LogVal.zero }
      (T - 1) (F64.fin 0) ItoR rng s1 (shape_new T) (column_new T (le_refl _) (by omega))
      (by omega) hsel (by decide)
  have hcols : ∀ k : Nat, (k : Int) ≤ ((T - 1 : Nat) : Int) →
      column rows2 (k : Int) = some onlyS :=
    trace_follows (F64.fin 0) ItoR rng (fun _ => onlyS) z2 tr2
      (fun t p i _ _ _ => stepColumn_zero_rate ItoR p (rng.uniformAt i))
  have hall : ∀ t : Int, 0 ≤ t → t ≤ ((T - 1 : Nat) : Int) → column rows2 t = some onlyS := by
    intro t h0 h1
    have := hcols t.toNat (by omega)
    rwa [Int.toNat_of_nonneg h0] at this
  refine ⟨_, _, rng2, e1, e2, z2, ?_, ?_, rfl⟩
  · intro t h0 h1
    exact hall t h0 (by omega)
  · simp only
    rw [realizedLP_susceptible ItoR rows2 (T - 1) hall, log_one, LogVal.add_zero,
      LogVal.add_zero]

theorem unitDraws_example : UnitDraws exampleRNG := by
  intro i
  exact ⟨1 / 2, rfl, by norm_num, by norm_num⟩

/-- Witness of C13: the scenario of horizon 5. -/
theorem susceptible_forever_witness :
    (1 ≤ 5 ∧ UnitDraws exampleRNG) ∧
    ∃ po1 po2 rng2,
      ObservationsToPriorSample (NewPartialObserved 5 [F64.fin 1, F64.fin 0, F64.fin 0] [] [])
        (F64.fin 1) exampleRNG = some (po1, exampleRNG) ∧
      forwardPass po1 (5 - 1) (F64.fin 0) (F64.fin (1 / 2)) exampleRNG = some (po2, rng2) ∧
      column po2.PosteriorSample.Values 0 = some onlyS ∧
      (∀ t : Int, 0 ≤ t → t < ((5 : Nat) : Int) →
        column po2.PosteriorSample.Values t = some onlyS) ∧
      po2.PosteriorLP = LogVal.zero ∧ po2.PriorLP = LogVal.zero :=
  ⟨⟨by decide, unitDraws_example⟩,
    susceptible_forever 5 (F64.fin 1) (F64.fin (1 / 2)) exampleRNG (by decide)
      unitDraws_example⟩

/-! ## Construction of a state matrix -/

theorem insert_fresh (m : StateMap) (k : String) (v : Nat) (h : ∀ p ∈ m, p.1 ≠ k) :
    m.insert k v = m ++ [(k, v)] := by
  unfold StateMap.insert
  have hany : m.any (fun p => p.1 == k) = false := by
    rw [List.any_eq_false]
    intro p hp
    simpa using h p hp
  simp [hany]

theorem foldl_insert_fresh :
    ∀ (l : List String) (k : Nat) (acc : StateMap), l.Nodup →
      (∀ s ∈ l, ∀ p ∈ acc, p.1 ≠ s) →
      (l.enumFrom k).foldl (fun m p => m.insert p.2 p.1) acc =
        acc ++ (l.enumFrom k).map (fun p => (p.2, p.1)) := by
  intro l
  induction l with
  | nil => intro k acc _ _; simp
  | cons s l ih =>
    intro k acc hnd hfresh
    rw [List.enumFrom_cons, List.foldl_cons]
    simp only
    rw [insert_fresh acc s k (hfresh s (List.mem_cons_self _ _))]
    rw [ih (k + 1) (acc ++ [(s, k)]) (List.nodup_cons.mp hnd).2]
    · simp
    · intro s2 hs2 p hp
      rcases List.mem_append.mp hp with h | h
      · exact hfresh s2 (List.mem_cons_of_mem _ hs2) p h
      · simp at h
        subst h
        intro heq
        simp only at heq
        subst heq
        exact (List.nodup_cons.mp hnd).1 hs2

theorem states_of_nodup (T : Nat) (states : List String) (hnd : states.Nodup) :
    (NewStateMatrix T states).States = states.enum.map (fun p => (p.2, p.1)) := by
  have h := foldl_insert_fresh states 0 [] hnd (fun _ _ p hp => absurd hp (List.not_mem_nil p))
  simpa [NewStateMatrix, List.enum] using h

theorem values_rows (T : Nat) (states : List String) {r : Nat}
    (hr : r < (NewStateMatrix T states).States.length) :
    (NewStateMatrix T states).Values[r]? = some (List.replicate T (F64.fin 0)) := by
  have hr2 : r < List.length
      (List.foldl (fun m p => StateMap.insert m p.2 p.1) ([] : StateMap) states.enum) := hr
  simp [NewStateMatrix, zeroVector_eq, hr2]

theorem values_row_length (T : Nat) (states : List String) {r : Nat} {row : List F64}
    (h : (NewStateMatrix T states).Values[r]? = some row) : row.length = T := by
  have hmem : row ∈ (NewStateMatrix T states).Values := by
    obtain ⟨hlt, heq⟩ := List.getElem?_eq_some.mp h
    rw [← heq]
    exact List.getElem_mem hlt
  simp only [NewStateMatrix, List.mem_map] at hmem
  obtain ⟨_, _, hrow⟩ := hmem
  rw [← hrow, zeroVector_eq, List.length_replicate]

theorem lookup_lt_of_nodup (T : Nat) (states : List String) (hnd : states.Nodup)
    {label : String} (hmem : label ∈ states) :
    (NewStateMatrix T states).States.lookup label < (NewStateMatrix T states).States.length := by
  rw [states_of_nodup T states hnd]
  have hlen : (states.enum.map (fun p => (p.2, p.1))).length = states.length := by simp
  have hpos : 0 < states.length := List.length_pos_of_mem hmem
  unfold StateMap.lookup
  cases hf : List.find? (fun p => p.1 == label) (states.enum.map (fun p => (p.2, p.1))) with
  | none => simp only [hlen]; exact hpos
  | some p =>
    simp only [hlen]
    have hp := List.mem_of_find?_eq_some hf
    rw [List.mem_map] at hp
    obtain ⟨q, hq, hqp⟩ := hp
    rw [← hqp]
    exact List.fst_lt_of_mem_enum hq

theorem get_zero_of_row (T : Nat) (states : List String) {r : Nat}
    (hr : r < (NewStateMatrix T states).States.length) {i : Int} (h0 : 0 ≤ i) (hT : i < T) :
    getCell (NewStateMatrix T states).Values r i = some (F64.fin 0) := by
  have hlt : i.toNat < T := by omega
  simp [getCell, values_rows T states hr, not_lt.mpr h0, hlt]

/-- C14: for every horizon `T ≥ 1` and every list of distinct labels, the matrix returned by
NewStateMatrix has `Len() = T`, maps every label to a row of exactly `T` values and has
`Get(label, i) = 0` for every label and every `i` in `[0, T)`; the prior and the posterior sample
of an individual returned by NewPartialObserved share the horizon `T` and are all-zero. -/
theorem newStateMatrix_zero (T : Nat) (states : List String) (_hT : 1 ≤ T)
    (hnd : states.Nodup) :
    (NewStateMatrix T states).Len = T ∧
    (∀ label ∈ states,
      (∃ row, (NewStateMatrix T states).Values[(NewStateMatrix T states).States.lookup label]? =
          some row ∧ row.length = T) ∧
      ∀ i : Int, 0 ≤ i → i < T → (NewStateMatrix T states).Get label i = some (F64.fin 0)) ∧
    ∀ (sp : List F64) (infObs nonInfObs : List Int),
      (NewPartialObserved T sp infObs nonInfObs).Prior.Len = T ∧
      (NewPartialObserved T sp infObs nonInfObs).PosteriorSample.Len = T ∧
      ∀ label ∈ ["S", "I", "R"], ∀ i : Int, 0 ≤ i → i < T →
        (NewPartialObserved T sp infObs nonInfObs).Prior.Get label i = some (F64.fin 0) ∧
        (NewPartialObserved T sp infObs nonInfObs).PosteriorSample.Get label i =
          some (F64.fin 0) := by
  have hSIR : ["S", "I", "R"].Nodup := by decide
  refine ⟨rfl, ?_, ?_⟩
  · intro label hmem
    have hr := lookup_lt_of_nodup T states hnd hmem
    refine ⟨⟨_, values_rows T states hr, List.length_replicate _ _⟩, ?_⟩
    intro i h0 hi
    exact get_zero_of_row T states hr h0 hi
  · intro sp infObs nonInfObs
    refine ⟨rfl, rfl, ?_⟩
    intro label hmem i h0 hi
    have hr := lookup_lt_of_nodup T ["S", "I", "R"] hSIR hmem
    exact ⟨get_zero_of_row T _ hr h0 hi, get_zero_of_row T _ hr h0 hi⟩

/-- Witness of C14: horizon 3 and the labels S, I, R. -/
theorem newStateMatrix_zero_witness :
    (1 ≤ 3 ∧ ["S", "I", "R"].Nodup) ∧
    ((NewStateMatrix 3 ["S", "I", "R"]).Len = 3 ∧
    (∀ label ∈ ["S", "I", "R"],
      (∃ row, (NewStateMatrix 3 ["S", "I", "R"]).Values[
          (NewStateMatrix 3 ["S", "I", "R"]).States.lookup label]? = some row ∧
        row.length = 3) ∧
      ∀ i : Int, 0 ≤ i → i < ((3 : Nat) : Int) →
        (NewStateMatrix 3 ["S", "I", "R"]).Get label i = some (F64.fin 0)) ∧
    ∀ (sp : List F64) (infObs nonInfObs : List Int),
      (NewPartialObserved 3 sp infObs nonInfObs).Prior.Len = 3 ∧
      (NewPartialObserved 3 sp infObs nonInfObs).PosteriorSample.Len = 3 ∧
      ∀ label ∈ ["S", "I", "R"], ∀ i : Int, 0 ≤ i → i < ((3 : Nat) : Int) →
        (NewPartialObserved 3 sp infObs nonInfObs).Prior.Get label i = some (F64.fin 0) ∧
        (NewPartialObserved 3 sp infObs nonInfObs).PosteriorSample.Get label i =
          some (F64.fin 0)) :=
  ⟨⟨by decide, by decide⟩, newStateMatrix_zero 3 ["S", "I", "R"] (by decide) (by decide)⟩

/-! ## Access to a state matrix outside its labels and its horizon -/

theorem insert_keys (m : StateMap) (k : String) (v : Nat) :
    ∀ p ∈ m.insert k v, p.1 = k ∨ ∃ q ∈ m, q.1 = p.1 := by
  intro p hp
  unfold StateMap.insert at hp
  split_ifs at hp with h
  · rw [List.mem_map] at hp
    obtain ⟨q, hq, hqp⟩ := hp
    by_cases hk : (q.1 == k) = true
    · rw [if_pos hk] at hqp
      exact Or.inl (by rw [← hqp])
    · rw [if_neg hk] at hqp
      exact Or.inr ⟨q, hq, by rw [hqp]⟩
  · rcases List.mem_append.mp hp with h1 | h1
    · exact Or.inr ⟨p, h1, rfl⟩
    · simp at h1
      exact Or.inl (by rw [h1])

theorem foldl_insert_keys :
    ∀ (l : List (Nat × String)) (acc : StateMap),
      ∀ p ∈ l.foldl (fun m e => m.insert e.2 e.1) acc,
        (∃ q ∈ acc, q.1 = p.1) ∨ ∃ e ∈ l, e.2 = p.1 := by
  intro l
  induction l with
  | nil => intro acc p hp; exact Or.inl ⟨p, hp, rfl⟩
  | cons e l ih =>
    intro acc p hp
    rw [List.foldl_cons] at hp
    rcases ih _ p hp with ⟨q, hq, hqp⟩ | ⟨e2, he2, hep⟩
    · rcases insert_keys acc e.2 e.1 q hq with h | ⟨q2, hq2, h⟩
      · exact Or.inr ⟨e, List.mem_cons_self _ _, by rw [← h, hqp]⟩
      · exact Or.inl ⟨q2, hq2, by rw [h, hqp]⟩
    · exact Or.inr ⟨e2, List.mem_cons_of_mem _ he2, hep⟩

theorem lookup_unknown (T : Nat) (states : List String) {label : String}
    (h : label ∉ states) : (NewStateMatrix T states).States.lookup label = 0 := by
  unfold StateMap.lookup
  have hnone : List.find? (fun p => p.1 == label) (NewStateMatrix T states).States = none := by
    rw [List.find?_eq_none]
    intro p hp
    have hp2 : p ∈ List.foldl (fun m e => StateMap.insert m e.2 e.1) ([] : StateMap)
        states.enum := hp
    rcases foldl_insert_keys states.enum [] p hp2 with ⟨q, hq, -⟩ | ⟨e, he, hep⟩
    · exact absurd hq (List.not_mem_nil q)
    · intro heq
      have hpl : p.1 = label := by simpa using heq
      have hmem : e.2 ∈ states := by
        have := List.mem_enumFrom (show (e.1, e.2) ∈ List.enumFrom 0 states from he)
        rw [this.2.2]
        exact List.getElem_mem _
      rw [hep, hpl] at hmem
      exact h hmem
  rw [hnone]

theorem getCell_outside (T : Nat) (states : List String) (r : Nat) {i : Int}
    (h : i < 0 ∨ (T : Int) ≤ i) : getCell (NewStateMatrix T states).Values r i = none := by
  unfold getCell
  by_cases hi : i < 0
  · simp [hi]
  · simp only [hi, if_false]
    cases hrow : (NewStateMatrix T states).Values[r]? with
    | none => rfl
    | some row =>
      have hlen := values_row_length T states hrow
      simp only
      apply List.getElem?_eq_none
      omega

theorem setCell_outside (T : Nat) (states : List String) (r : Nat) {i : Int}
    (h : i < 0 ∨ (T : Int) ≤ i) (x : F64) :
    setCell (NewStateMatrix T states).Values r i x = none := by
  unfold setCell
  by_cases hi : i < 0
  · simp [hi]
  · simp only [hi, if_false]
    cases hrow : (NewStateMatrix T states).Values[r]? with
    | none => rfl
    | some row =>
      have hlen := values_row_length T states hrow
      simp only
      rw [if_neg]
      omega

/-- C15 fails as stated: on the matrix of horizon 2 with the labels S, I, R, the unknown label
X is looked up as row 0, so `Get("X", 0)` returns a value instead of failing and
`Set(1, "X", 0)` succeeds and overwrites the cell of label S at time 0. -/
theorem stateMatrix_unknown_label_counterexample :
    "X" ∉ ["S", "I", "R"] ∧
    (NewStateMatrix 2 ["S", "I", "R"]).Get "X" 0 = some (F64.fin 0) ∧
    (NewStateMatrix 2 ["S", "I", "R"]).Get "S" 0 = some (F64.fin 0) ∧
    ∃ sm2, (NewStateMatrix 2 ["S", "I", "R"]).Set (F64.fin 1) "X" 0 = some sm2 ∧
      sm2.Get "S" 0 = some (F64.fin 1) := by
  refine ⟨by decide, ?_, ?_, ?_⟩
  · rw [newStateMatrix_SIR]
    simp [StateMatrix.Get, StateMap.lookup, getCell]
  · rw [newStateMatrix_SIR]
    simp [StateMatrix.Get, StateMap.lookup, getCell]
  · rw [newStateMatrix_SIR]
    simp [StateMatrix.Set, StateMatrix.Get, StateMap.lookup, getCell, setCell]

/-- C15 (amended): on a matrix built by NewStateMatrix, Set and Get called with a time index
outside `[0, T)` fail and leave the matrix unchanged; called with a label that is not one of the
matrix's labels they do not fail on that account: the label is looked up as row 0, so Get
reads, and Set writes, the row of the first label. -/
theorem stateMatrix_access_outside (T : Nat) (states : List String) (label : String) (i : Int)
    (x : F64) :
    ((i < 0 ∨ (T : Int) ≤ i) →
      (NewStateMatrix T states).Get label i = none ∧
        (NewStateMatrix T states).Set x label i = none) ∧
    (label ∉ states →
      (NewStateMatrix T states).States.lookup label = 0 ∧
      (NewStateMatrix T states).Get label i = getCell (NewStateMatrix T states).Values 0 i ∧
      (NewStateMatrix T states).Set x label i =
        (setCell (NewStateMatrix T states).Values 0 i x).map
          (fun v => { NewStateMatrix T states with Values := v })) := by
  constructor
  · intro h
    constructor
    · exact getCell_outside T states _ h
    · unfold StateMatrix.Set
      rw [setCell_outside T states _ h x]
      rfl
  · intro h
    have hl := lookup_unknown T states h
    refine ⟨hl, ?_, ?_⟩
    · unfold StateMatrix.Get
      rw [hl]
    · unfold StateMatrix.Set
      rw [hl]

/-- Witness of the amended C15: horizon 2, labels S, I, R, the unknown label X and time 5. -/
theorem stateMatrix_access_outside_witness :
    (((5 : Int) < 0 ∨ ((2 : Nat) : Int) ≤ 5) ∧ "X" ∉ ["S", "I", "R"]) ∧
    ((((5 : Int) < 0 ∨ ((2 : Nat) : Int) ≤ 5) →
      (NewStateMatrix 2 ["S", "I", "R"]).Get "X" 5 = none ∧
        (NewStateMatrix 2 ["S", "I", "R"]).Set (F64.fin 1) "X" 5 = none) ∧
    ("X" ∉ ["S", "I", "R"] →
      (NewStateMatrix 2 ["S", "I", "R"]).States.lookup "X" = 0 ∧
      (NewStateMatrix 2 ["S", "I", "R"]).Get "X" 5 =
        getCell (NewStateMatrix 2 ["S", "I", "R"]).Values 0 5 ∧
      (NewStateMatrix 2 ["S", "I", "R"]).Set (F64.fin 1) "X" 5 =
        (setCell (NewStateMatrix 2 ["S", "I", "R"]).Values 0 5 (F64.fin 1)).map
          (fun v => { NewStateMatrix 2 ["S", "I", "R"] with Values := v }))) :=
  ⟨⟨Or.inr (by decide), by decide⟩,
    stateMatrix_access_outside 2 ["S", "I", "R"] "X" 5 (F64.fin 1)⟩

/-! ## What the samplers leave unchanged -/

theorem setPosteriorColumn_frame {T : Nat} (po : PartialObserved)
    (h : Shape T po.PosteriorSample.Values) {t : Int} (h0 : 0 ≤ t) (hT : t < T) (a b c : F64) :
    ∃ rows2, po.setPosteriorColumn t a b c =
        some { po with PosteriorSample := { po.PosteriorSample with Values := rows2 } } ∧
      ∀ r t2, t2 ≠ t → getCell rows2 r t2 = getCell po.PosteriorSample.Values r t2 := by
  obtain ⟨r1, e1, s1, -, o1⟩ := setCell_spec h (r := S) (by decide) h0 hT a
  obtain ⟨r2, e2, s2, -, o2⟩ := setCell_spec s1 (r := I) (by decide) h0 hT b
  obtain ⟨r3, e3, -, -, o3⟩ := setCell_spec s2 (r := R) (by decide) h0 hT c
  refine ⟨r3, ?_, ?_⟩
  · simp [PartialObserved.setPosteriorColumn, PartialObserved.setPosterior, e1, e2, e3]
  · intro r t2 hne
    rw [o3 r t2 (Or.inr hne), o2 r t2 (Or.inr hne), o1 r t2 (Or.inr hne)]

theorem step_frame {T : Nat} (po : PartialObserved) (t : Int) (StoI ItoR : F64) (rng : RNG)
    (hP : Shape T po.Prior.Values) (hQ : Shape T po.PosteriorSample.Values) (h0 : 0 ≤ t)
    (hT : t + 1 < T) :
    ∃ ret rows2 lp rng2, Step po t StoI ItoR rng =
        some (ret, { po with PosteriorSample := { po.PosteriorSample with Values := rows2 }
                             PosteriorLP := lp }, rng2) ∧
      ∀ r t2, t2 ≠ t + 1 → getCell rows2 r t2 = getCell po.PosteriorSample.Values r t2 := by
  have h1 : (0 : Int) ≤ t + 1 := by omega
  have htT : t < T := by omega
  obtain ⟨vS, hvS⟩ := getCell_isSome hQ (r := S) (by decide) h0 htT
  obtain ⟨vI, hvI⟩ := getCell_isSome hQ (r := I) (by decide) h0 htT
  obtain ⟨vR, hvR⟩ := getCell_isSome hQ (r := R) (by decide) h0 htT
  obtain ⟨pS, hpS⟩ := getCell_isSome hP (r := S) (by decide) h1 hT
  obtain ⟨pI, hpI⟩ := getCell_isSome hP (r := I) (by decide) h1 hT
  obtain ⟨pR, hpR⟩ := getCell_isSome hP (r := R) (by decide) h1 hT
  obtain ⟨rS, eS, oS⟩ :=
    setPosteriorColumn_frame po hQ h1 hT (F64.fin 1) (F64.fin 0) (F64.fin 0)
  obtain ⟨rI, eI, oI⟩ :=
    setPosteriorColumn_frame po hQ h1 hT (F64.fin 0) (F64.fin 1) (F64.fin 0)
  obtain ⟨rR, eR, oR⟩ :=
    setPosteriorColumn_frame po hQ h1 hT (F64.fin 0) (F64.fin 0) (F64.fin 1)
  cases hS : F64.eq vS (F64.fin 1) with
  | true =>
    cases hd : (rateAndDraw StoI
        (F64.div (F64.mul pI StoI)
          (F64.add (F64.mul pI StoI) (F64.mul pS (F64.sub (F64.fin 1) StoI)))) rng).1 with
    | true =>
      exact ⟨F64.fin 1, rI, LogVal.add po.PosteriorLP (F64.log StoI),
        (rateAndDraw StoI
          (F64.div (F64.mul pI StoI)
            (F64.add (F64.mul pI StoI) (F64.mul pS (F64.sub (F64.fin 1) StoI)))) rng).2,
        by simp [Step, hvS, hS, stepFromS, hpI, hpS, hd, eI], oI⟩
    | false =>
      exact ⟨F64.fin 0, rS, LogVal.add po.PosteriorLP (F64.log (F64.sub (F64.fin 1) StoI)),
        (rateAndDraw StoI
          (F64.div (F64.mul pI StoI)
            (F64.add (F64.mul pI StoI) (F64.mul pS (F64.sub (F64.fin 1) StoI)))) rng).2,
        by simp [Step, hvS, hS, stepFromS, hpI, hpS, hd, eS], oS⟩
  | false =>
    cases hI : F64.eq vI (F64.fin 1) with
    | true =>
      cases hd : (rateAndDraw ItoR
          (F64.div (F64.mul pR ItoR)
            (F64.add (F64.mul pR ItoR) (F64.mul pI (F64.sub (F64.fin 1) ItoR)))) rng).1 with
      | true =>
        exact ⟨F64.fin 0, rR, LogVal.add po.PosteriorLP (F64.log ItoR),
          (rateAndDraw ItoR
            (F64.div (F64.mul pR ItoR)
              (F64.add (F64.mul pR ItoR) (F64.mul pI (F64.sub (F64.fin 1) ItoR)))) rng).2,
          by simp [Step, hvS, hS, hvI, hI, stepFromI, hpI, hpR, hd, eR], oR⟩
      | false =>
        exact ⟨F64.fin 1, rI, LogVal.add po.PosteriorLP (F64.log (F64.sub (F64.fin 1) ItoR)),
          (rateAndDraw ItoR
            (F64.div (F64.mul pR ItoR)
              (F64.add (F64.mul pR ItoR) (F64.mul pI (F64.sub (F64.fin 1) ItoR)))) rng).2,
          by simp [Step, hvS, hS, hvI, hI, stepFromI, hpI, hpR, hd, eI], oI⟩
    | false =>
      cases hR : F64.eq vR (F64.fin 1) with
      | true =>
        exact ⟨F64.fin 0, rR, po.PosteriorLP, rng,
          by simp [Step, hvS, hS, hvI, hI, hvR, hR, eR], oR⟩
      | false =>
        exact ⟨F64.fin 0, po.PosteriorSample.Values, po.PosteriorLP, rng,
          by simp [Step, hvS, hS, hvI, hI, hvR, hR], fun _ _ _ => rfl⟩

theorem sampleStartingState_frame {T : Nat} (po : PartialObserved) (rd : RNG)
    (hsp : po.StartingProbabilities.length = 3) (hT : 0 < T)
    (hQ : Shape T po.PosteriorSample.Values) :
    ∃ ret rows2 lp rng2, SampleStartingState po rd =
        some (ret, { po with PosteriorSample := { po.PosteriorSample with Values := rows2 }
                             PosteriorLP := lp }, rng2) ∧
      ∀ r t2, t2 ≠ 0 → getCell rows2 r t2 = getCell po.PosteriorSample.Values r t2 := by
  obtain ⟨st, pr, hsel, hst⟩ :=
    startingLoop_total po.StartingProbabilities (rd.uniformAt rd.pos) hsp
  have hT2 : (0 : Int) < T := by omega
  obtain ⟨r1, e1, -, -, o1⟩ := setCell_spec hQ hst (le_refl (0 : Int)) hT2 (F64.fin 1)
  refine ⟨if st = I then F64.fin 1 else F64.fin 0, r1,
    LogVal.add LogVal.zero (LogVal.add po.PriorLP (F64.log pr)), { rd with pos := rd.pos + 1 },
    ?_, fun r t2 hne => o1 r t2 (Or.inr hne)⟩
  simp [SampleStartingState, RNG.UniformRandomFloat64, hsel, PartialObserved.setPosterior, e1]

/-- C16: for every state (prior and posterior sample of horizon `T`, three starting
probabilities), every `t` with `0 ≤ t` and `t + 1 < T`, every rates and draws,
SampleStartingState and Step return and leave every cell of the prior and the value of PriorLP
unchanged; SampleStartingState changes no cell of the posterior sample outside column 0, and
Step at `t` changes no cell of the posterior sample outside column `t + 1`. -/
theorem prior_unchanged (T : Nat) (po : PartialObserved) (t : Int) (StoI ItoR : F64) (rng : RNG)
    (hP : Shape T po.Prior.Values) (hQ : Shape T po.PosteriorSample.Values)
    (hsp : po.StartingProbabilities.length = 3) (h0 : 0 ≤ t) (hT : t + 1 < T) :
    (∃ ret po2 rng2, SampleStartingState po rng = some (ret, po2, rng2) ∧
      po2.Prior = po.Prior ∧ po2.PriorLP = po.PriorLP ∧
      ∀ r t2, t2 ≠ 0 →
        getCell po2.PosteriorSample.Values r t2 = getCell po.PosteriorSample.Values r t2) ∧
    ∃ ret po2 rng2, Step po t StoI ItoR rng = some (ret, po2, rng2) ∧
      po2.Prior = po.Prior ∧ po2.PriorLP = po.PriorLP ∧
      ∀ r t2, t2 ≠ t + 1 →
        getCell po2.PosteriorSample.Values r t2 = getCell po.PosteriorSample.Values r t2 := by
  constructor
  · obtain ⟨ret, rows2, lp, rng2, e, o⟩ :=
      sampleStartingState_frame po rng hsp (by omega) hQ
    exact ⟨ret, _, rng2, e, rfl, rfl, o⟩
  · obtain ⟨ret, rows2, lp, rng2, e, o⟩ := step_frame po t StoI ItoR rng hP hQ h0 hT
    exact ⟨ret, _, rng2, e, rfl, rfl, o⟩

/-- Witness of C16: horizon 3, S marked at time 0. -/
theorem prior_unchanged_witness :
    (Shape 3 startedPO.Prior.Values ∧ Shape 3 startedPO.PosteriorSample.Values ∧
      startedPO.StartingProbabilities.length = 3 ∧ (0 : Int) ≤ 0 ∧
      (0 : Int) + 1 < ((3 : Nat) : Int)) ∧
    ((∃ ret po2 rng2, SampleStartingState startedPO exampleRNG = some (ret, po2, rng2) ∧
      po2.Prior = startedPO.Prior ∧ po2.PriorLP = startedPO.PriorLP ∧
      ∀ r t2, t2 ≠ 0 →
        getCell po2.PosteriorSample.Values r t2 =
          getCell startedPO.PosteriorSample.Values r t2) ∧
    ∃ ret po2 rng2,
      Step startedPO 0 (F64.fin (1 / 2)) (F64.fin (1 / 2)) exampleRNG = some (ret, po2, rng2) ∧
      po2.Prior = startedPO.Prior ∧ po2.PriorLP = startedPO.PriorLP ∧
      ∀ r t2, t2 ≠ (0 : Int) + 1 →
        getCell po2.PosteriorSample.Values r t2 =
          getCell startedPO.PosteriorSample.Values r t2) :=
  ⟨⟨shape_started.1, shape_started.2, rfl, le_refl _, by decide⟩,
    prior_unchanged 3 startedPO 0 (F64.fin (1 / 2)) (F64.fin (1 / 2)) exampleRNG
      shape_started.1 shape_started.2 rfl (le_refl _) (by decide)⟩

/-! ## Durations and window widths -/

theorem toInt_ceil_zero : F64.toInt (F64.ceil (F64.fin 0)) = 0 := by
  rw [toInt_ceil_of_range 0 (le_refl _) (by norm_num)]
  simp

theorem toInt_ceil_huge : F64.toInt (F64.ceil (F64.fin (10 ^ 19))) = -(2 : Int) ^ 63 := by
  have h : ((10 : ℚ) ^ 19) = (((10 ^ 19 : Int)) : ℚ) := by norm_num
  have hq : (0 : ℚ) ≤ (((10 ^ 19 : Int)) : ℚ) := by norm_num
  simp only [F64.ceil, F64.toInt]
  rw [h, Int.ceil_intCast, if_pos hq, Int.floor_intCast, if_neg (by norm_num)]

/-- C17 fails as stated, at both ends of the range of draws.  For the exponential draw 0, which
is `≥ 0`, GeometricSample returns `ceil 0 = 0`, a duration that is not `≥ 1`.  For the
exponential draw `10 ^ 19`, which is above the largest 64-bit integer, GeometricSample returns
`-2 ^ 63`, which is neither `ceil x` nor `≥ 1`. -/
theorem geometricSample_counterexample :
    ((zeroExpRNG.ExponentialRandomFloat64 (F64.div (F64.fin 1) (F64.fin 1))).1 = F64.fin 0 ∧
      (0 : ℚ) ≤ 0 ∧
      (GeometricSample (F64.fin 1) zeroExpRNG).1 = 0 ∧
      ¬ 1 ≤ (GeometricSample (F64.fin 1) zeroExpRNG).1) ∧
    ((hugeExpRNG.ExponentialRandomFloat64 (F64.div (F64.fin 1) (F64.fin 1))).1 =
        F64.fin (10 ^ 19) ∧
      (0 : ℚ) ≤ 10 ^ 19 ∧
      (GeometricSample (F64.fin 1) hugeExpRNG).1 = -(2 : Int) ^ 63 ∧
      (GeometricSample (F64.fin 1) hugeExpRNG).1 ≠ Int.ceil ((10 : ℚ) ^ 19) ∧
      ¬ 1 ≤ (GeometricSample (F64.fin 1) hugeExpRNG).1) := by
  have h0 : (GeometricSample (F64.fin 1) zeroExpRNG).1 = 0 := by
    simp [GeometricSample, RNG.ExponentialRandomFloat64, zeroExpRNG, toInt_ceil_zero]
  have h1 : (GeometricSample (F64.fin 1) hugeExpRNG).1 = -(2 : Int) ^ 63 := by
    simp only [GeometricSample, RNG.ExponentialRandomFloat64, hugeExpRNG]
    exact toInt_ceil_huge
  have hc : Int.ceil ((10 : ℚ) ^ 19) = 10 ^ 19 := by
    have h : ((10 : ℚ) ^ 19) = (((10 ^ 19 : Int)) : ℚ) := by norm_num
    rw [h, Int.ceil_intCast]
  refine ⟨⟨rfl, le_refl _, h0, ?_⟩, rfl, by norm_num, h1, ?_, ?_⟩
  · rw [h0]
    decide
  · rw [h1, hc]
    norm_num
  · rw [h1]
    norm_num

/-- C17 (amended): for every exponential draw `x` supplied by the generator that is a number
with `0 ≤ x ≤ 2 ^ 63 - 1`, GeometricSample returns the integer `ceil x`; this duration is
`≥ 0`, and it is `≥ 1` exactly when `x > 0`. -/
theorem geometricSample_ceil (l : F64) (rd : RNG) (x : ℚ)
    (hx : (rd.ExponentialRandomFloat64 (F64.div (F64.fin 1) l)).1 = F64.fin x) (hx0 : 0 ≤ x)
    (hx1 : x ≤ 2 ^ 63 - 1) :
    (GeometricSample l rd).1 = Int.ceil x ∧ 0 ≤ (GeometricSample l rd).1 ∧
      (1 ≤ (GeometricSample l rd).1 ↔ 0 < x) := by
  have h : (GeometricSample l rd).1 = Int.ceil x := by
    simp only [GeometricSample]
    rw [hx]
    exact toInt_ceil_of_range x hx0 hx1
  refine ⟨h, ?_, ?_⟩
  · rw [h]
    exact Int.ceil_nonneg hx0
  · rw [h]
    constructor
    · intro h1
      exact Int.ceil_pos.mp (by omega)
    · intro h1
      have := Int.ceil_pos.mpr h1
      omega

/-- Witness of the amended C17: the exponential draw 5. -/
theorem geometricSample_ceil_witness :
    ((longDrawRNG.ExponentialRandomFloat64 (F64.div (F64.fin 1) (F64.fin 1))).1 = F64.fin 5 ∧
      (0 : ℚ) ≤ 5 ∧ (5 : ℚ) ≤ 2 ^ 63 - 1) ∧
    ((GeometricSample (F64.fin 1) longDrawRNG).1 = Int.ceil (5 : ℚ) ∧
      0 ≤ (GeometricSample (F64.fin 1) longDrawRNG).1 ∧
      (1 ≤ (GeometricSample (F64.fin 1) longDrawRNG).1 ↔ (0 : ℚ) < 5)) :=
  ⟨⟨rfl, by norm_num, by norm_num⟩,
    geometricSample_ceil (F64.fin 1) longDrawRNG 5 rfl (by norm_num) (by norm_num)⟩

/-- C18 (evaluation at the failing input): horizon 6, one infection observation at the last
time 5, a drawn duration 1 and offset 0.  The window start is 5 and its end is clamped to 5, so
the width the code divides by is 0 and the term added to PriorLP is `log (1/0) = +Inf`. -/
theorem priorLP_zero_width :
    ∃ po2 rng2, ObservationsToPriorSample lastTimePO (F64.fin 1) exampleRNG = some (po2, rng2) ∧
      (GeometricSample (F64.fin 1) exampleRNG).1 = 1 ∧
      ((GeometricSample (F64.fin 1) exampleRNG).2.UniformRandomInt 1).1 = 0 ∧
      min ((5 : Int) - 0 + 1) (((6 : Nat) : Int) - 1) - max 0 ((5 : Int) - 0) = 0 ∧
      po2.PriorLP = LogVal.pinf := by
  have hd : (GeometricSample (F64.fin 1) exampleRNG).1 = 1 := by
    simp [GeometricSample, RNG.ExponentialRandomFloat64, exampleRNG, toInt_ceil_one]
  obtain ⟨rows1, s1, -, e1⟩ :=
    observationsToPriorSample_eq (T := 6) lastTimePO (F64.fin 1) exampleRNG (shape_new 6) rfl
      (l := [5]) rfl
  obtain ⟨rows2, e2, -⟩ :=
    infectionObservationBody_spec (T := 6) (F64.fin 1)
      { lastTimePO with Prior := { lastTimePO.Prior with Values := rows1 }, PriorLP := LogVal.zero }
      exampleRNG 5 1 0 s1 rfl (by decide) (by decide) hd rfl (by decide) (by decide)
  rw [List.foldlM_cons, e2] at e1
  simp only [Option.bind_eq_bind, Option.some_bind, List.foldlM_nil, Option.pure_def] at e1
  refine ⟨_, _, e1, hd, rfl, by decide, ?_⟩
  simp [F64.ofInt, F64.div, F64.infOfSign, F64.log, LogVal.add, LogVal.zero]

/-! ## The last observation decides the timeline -/

theorem infectionObservationBody_pos (gamma : F64) (st st1 : PartialObserved × RNG) (io : Int)
    (h : infectionObservationBody gamma st io = some st1) : st1.2.pos = st.2.pos + 2 := by
  unfold infectionObservationBody at h
  simp only [Option.bind_eq_some] at h
  obtain ⟨_, _, _, _, _, _, h⟩ := h
  have h2 := Option.some.inj h
  rw [← h2, sampleGeometricInfectiousPeriod_eq]

theorem foldlM_pos (gamma : F64) :
    ∀ (l : List Int) (st st2 : PartialObserved × RNG),
      l.foldlM (infectionObservationBody gamma) st = some st2 →
      st2.2.pos = st.2.pos + 2 * l.length := by
  intro l
  induction l with
  | nil =>
    intro st st2 h
    simp only [List.foldlM_nil, Option.pure_def, Option.some.injEq] at h
    rw [← h]
    simp
  | cons io l ih =>
    intro st st2 h
    rw [List.foldlM_cons] at h
    cases hb : infectionObservationBody gamma st io with
    | none => rw [hb] at h; simp at h
    | some st1 =>
      rw [hb] at h
      simp only [Option.bind_eq_bind, Option.some_bind] at h
      rw [ih st1 st2 h, infectionObservationBody_pos gamma st st1 io hb, List.length_cons]
      ring

theorem window_columns_eq {T : Nat} {s e : Int} {rowsA rowsA2 rowsB rowsB2 : List (List F64)}
    (wA : WindowWritten T s e rowsA rowsA2) (wB : WindowWritten T s e rowsB rowsB2) :
    ∀ t : Int, 0 ≤ t → t ≤ (T : Int) - 2 → column rowsA2 t = column rowsB2 t := by
  obtain ⟨-, a1, a2, a3, -⟩ := wA
  obtain ⟨-, b1, b2, b3, -⟩ := wB
  intro t h0 hT
  by_cases hts : t < s
  · rw [a1 t h0 hts, b1 t h0 hts]
  · by_cases hte : t ≤ e
    · rw [a2 t (by omega) hte, b2 t (by omega) hte]
    · rw [a3 t (by omega) (by omega), b3 t (by omega) (by omega)]

/-- C19: for a non-empty list of infection observations within `[0, T)`, of last element `io`,
and draws with durations `d ≥ 1` and offsets in `[0, d)`, the columns `0, ..., T - 2` of the
prior that ObservationsToPriorSample produces are those it produces from the observation `io`
alone, with the same draw for it (the generator advanced past the draws of the earlier
observations) and with no non-infection observation. -/
theorem prior_last_observation_wins (T : Nat) (po : PartialObserved) (gamma : F64) (rng : RNG)
    (pre : List Int) (io : Int) (hP : Shape T po.Prior.Values) (hlen : po.Prior.Len = T)
    (hobs : po.InfectionObservations = pre ++ [io])
    (hin : ∀ x ∈ pre ++ [io], 0 ≤ x ∧ x < (T : Int)) (hg : GoodDraws rng) :
    ∃ po2 rng2 po3 rng3, ObservationsToPriorSample po gamma rng = some (po2, rng2) ∧
      ObservationsToPriorSample
        { po with InfectionObservations := [io], NonInfectionObservations := [] } gamma
        { rng with pos := rng.pos + 2 * pre.length } = some (po3, rng3) ∧
      ∀ t : Int, 0 ≤ t → t ≤ (T : Int) - 2 →
        column po2.Prior.Values t = column po3.Prior.Values t := by
  have hio : 0 ≤ io ∧ io < (T : Int) := hin io (by simp)
  -- the run over the whole list
  obtain ⟨rows1, s1, -, e1⟩ := observationsToPriorSample_eq po gamma rng hP hlen hobs
  obtain ⟨rows2, lp, n, e2, s2, -⟩ :=
    observations_fold (T := T) gamma (fun _ => True) (fun _ _ _ _ _ _ _ _ _ => trivial) pre
      { po with Prior := { po.Prior with Values := rows1 }, PriorLP := LogVal.zero } rng s1 hlen
      hg (fun x hx => hin x (by simp [hx])) trivial
  have hn : n = rng.pos + 2 * pre.length := foldlM_pos gamma pre _ _ e2
  subst hn
  have hd1 : 1 ≤ (GeometricSample gamma { rng with pos := rng.pos + 2 * pre.length }).1 :=
    hg.1 _ _
  obtain ⟨hk0, hkd⟩ := hg.2 (rng.pos + 2 * pre.length + 1) _ hd1
  obtain ⟨rows3, e3, w3⟩ :=
    infectionObservationBody_spec gamma
      { po with Prior := { po.Prior with Values := rows2 }, PriorLP := lp }
      { rng with pos := rng.pos + 2 * pre.length } io _ _ s2 hlen hio.1 hio.2 rfl rfl hk0 hkd
  rw [List.foldlM_append, e2] at e1
  simp only [Option.bind_eq_bind, Option.some_bind, List.foldlM_cons, e3, List.foldlM_nil,
    Option.pure_def] at e1
  -- the run over the last observation alone
  obtain ⟨rowsB1, sB1, -, eB1⟩ :=
    observationsToPriorSample_eq (T := T)
      { po with InfectionObservations := [io], NonInfectionObservations := [] } gamma
      { rng with pos := rng.pos + 2 * pre.length } hP hlen (l := [io]) rfl
  obtain ⟨rowsB3, eB3, wB3⟩ :=
    infectionObservationBody_spec gamma
      { po with
        InfectionObservations := [io]
        NonInfectionObservations := []
        Prior := { po.Prior with Values := rowsB1 }
        PriorLP := LogVal.zero }
      { rng with pos := rng.pos + 2 * pre.length } io _ _ sB1 hlen hio.1 hio.2 rfl rfl hk0 hkd
  rw [List.foldlM_cons, eB3] at eB1
  simp only [Option.bind_eq_bind, Option.some_bind, List.foldlM_nil, Option.pure_def] at eB1
  exact ⟨_, _, _, _, e1, eB1, window_columns_eq w3 wB3⟩

/-- Witness of C19: horizon 6 and the infection observations 1 and 3. -/
theorem prior_last_observation_wins_witness :
    (Shape 6 { observedPO with InfectionObservations := [1, 3] }.Prior.Values ∧
      { observedPO with InfectionObservations := [1, 3] }.Prior.Len = 6 ∧
      { observedPO with InfectionObservations := [1, 3] }.InfectionObservations = [1] ++ [3] ∧
      (∀ x ∈ [1] ++ [(3 : Int)], 0 ≤ x ∧ x < ((6 : Nat) : Int)) ∧ GoodDraws exampleRNG) ∧
    ∃ po2 rng2 po3 rng3,
      ObservationsToPriorSample { observedPO with InfectionObservations := [1, 3] } (F64.fin 1)
        exampleRNG = some (po2, rng2) ∧
      ObservationsToPriorSample
        { { observedPO with InfectionObservations := [1, 3] } with
          InfectionObservations := [3], NonInfectionObservations := [] } (F64.fin 1)
        { exampleRNG with pos := exampleRNG.pos + 2 * [(1 : Int)].length } = some (po3, rng3) ∧
      ∀ t : Int, 0 ≤ t → t ≤ ((6 : Nat) : Int) - 2 →
        column po2.Prior.Values t = column po3.Prior.Values t :=
  ⟨⟨shape_new 6, rfl, rfl, by decide, goodDraws_example⟩,
    prior_last_observation_wins 6 { observedPO with InfectionObservations := [1, 3] } (F64.fin 1)
      exampleRNG [1] 3 (shape_new 6) rfl rfl (by decide) goodDraws_example⟩

/-! ## The sampled trajectory follows a one-window prior -/

theorem stepColumn_follow (a b x : ℚ) (ha : 0 < a) (ha1 : a < 1) (hb : 0 < b) (hb1 : b < 1)
    (hx0 : 0 ≤ x) (hx1 : x < 1) :
    stepColumn (F64.fin a) (F64.fin b) onlyS onlyS (F64.fin x) = onlyS ∧
    stepColumn (F64.fin a) (F64.fin b) onlyI onlyS (F64.fin x) = onlyI ∧
    stepColumn (F64.fin a) (F64.fin b) onlyI onlyI (F64.fin x) = onlyI ∧
    stepColumn (F64.fin a) (F64.fin b) onlyR onlyI (F64.fin x) = onlyR ∧
    ∀ p, stepColumn (F64.fin a) (F64.fin b) p onlyR (F64.fin x) = onlyR := by
  have hane : a ≠ 0 := ne_of_gt ha
  have hbne : b ≠ 0 := ne_of_gt hb
  have h1a : (1 : ℚ) + -a ≠ 0 := by linarith
  have h1b : (1 : ℚ) + -b ≠ 0 := by linarith
  have hnx : ¬ x < 0 := not_lt.mpr hx0
  have hIS : onlyI ≠ onlyS := fun h => onlyS_ne_onlyI h.symm
  have hRS : onlyR ≠ onlyS := fun h => onlyS_ne_onlyR h.symm
  have hRI : onlyR ≠ onlyI := fun h => onlyI_ne_onlyR h.symm
  refine ⟨?_, ?_, ?_, ?_, ?_⟩
  · simp [stepColumn, onlyS, F64.lt, F64.mul, F64.sub, F64.add, F64.neg, F64.div, ha, h1a, hnx]
  · simp only [stepColumn, if_true]
    simp [onlyI, F64.lt, F64.mul, F64.sub, F64.add, F64.neg, F64.div, ha, hane, hx1]
  · simp only [stepColumn, if_neg hIS, if_true]
    simp [onlyI, F64.lt, F64.mul, F64.sub, F64.add, F64.neg, F64.div, hb, h1b, hnx]
  · simp only [stepColumn, if_neg hIS, if_true]
    simp [onlyR, F64.lt, F64.mul, F64.sub, F64.add, F64.neg, F64.div, hb, hbne, hx1]
  · intro p
    simp only [stepColumn, if_neg hRS, if_neg hRI]

theorem follow_window (a b : ℚ) (rng : RNG) (ha : 0 < a) (ha1 : a < 1) (hb : 0 < b)
    (hb1 : b < 1) (hu : UnitDraws rng) {s e : Int} (hse : s ≤ e)
    (tg : Int → F64 × F64 × F64)
    (htg : ∀ t, tg t = if t < s then onlyS else if t ≤ e then onlyI else onlyR)
    (t : Int) (i : Nat) :
    stepColumn (F64.fin a) (F64.fin b) (tg (t + 1)) (tg t) (rng.uniformAt i) = tg (t + 1) := by
  obtain ⟨x, hx, hx0, hx1⟩ := hu i
  obtain ⟨f1, f2, f3, f4, f5⟩ := stepColumn_follow a b x ha ha1 hb hb1 hx0 hx1
  rw [hx]
  by_cases h1 : t + 1 < s
  · have e1 : tg t = onlyS := by rw [htg, if_pos (by omega)]
    have e2 : tg (t + 1) = onlyS := by rw [htg, if_pos h1]
    rw [e1, e2]; exact f1
  · by_cases h2 : t < s
    · have e1 : tg t = onlyS := by rw [htg, if_pos h2]
      have e2 : tg (t + 1) = onlyI := by rw [htg, if_neg h1, if_pos (by omega)]
      rw [e1, e2]; exact f2
    · by_cases h3 : t + 1 ≤ e
      · have e1 : tg t = onlyI := by rw [htg, if_neg h2, if_pos (by omega)]
        have e2 : tg (t + 1) = onlyI := by rw [htg, if_neg h1, if_pos h3]
        rw [e1, e2]; exact f3
      · by_cases h4 : t ≤ e
        · have e1 : tg t = onlyI := by rw [htg, if_neg h2, if_pos h4]
          have e2 : tg (t + 1) = onlyR := by rw [htg, if_neg h1, if_neg h3]
          rw [e1, e2]; exact f4
        · have e1 : tg t = onlyR := by rw [htg, if_neg h2, if_neg h4]
          have e2 : tg (t + 1) = onlyR := by rw [htg, if_neg h1, if_neg h3]
          rw [e1, e2]; exact f5 _

/-- C20: for a single infection observation `io` with `1 ≤ io < T`, draws `d ≥ 1` and
`0 ≤ k < min d io`, StartingProbabilities `[1, 0, 0]`, rates strictly between 0 and 1 and uniform
draws in `[0, 1)`: ObservationsToPriorSample, SampleStartingState and Step for
`t = 0, ..., T - 2` return, every column `t ≤ T - 2` of the posterior sample equals the prior
column at `t`, and the posterior sample marks I at time `io`. -/
theorem trajectory_honours_observation (T : Nat) (po : PartialObserved) (gamma : F64) (a b : ℚ)
    (rng : RNG) (io d k : Int) (hP : Shape T po.Prior.Values) (hlen : po.Prior.Len = T)
    (hQ : po.PosteriorSample = NewStateMatrix T ["S", "I", "R"])
    (hobs : po.InfectionObservations = [io])
    (hsp : po.StartingProbabilities = [F64.fin 1, F64.fin 0, F64.fin 0])
    (hio1 : 1 ≤ io) (hioT : io < T) (hd : (GeometricSample gamma rng).1 = d)
    (hk : ((GeometricSample gamma rng).2.UniformRandomInt d).1 = k)
    (_hd1 : 1 ≤ d) (hk0 : 0 ≤ k) (hkd : k < d) (hkio : k < io)
    (ha : 0 < a) (ha1 : a < 1) (hb : 0 < b) (hb1 : b < 1) (hu : UnitDraws rng) :
    ∃ po1 rng1 po2 rng2, ObservationsToPriorSample po gamma rng = some (po1, rng1) ∧
      forwardPass po1 (T - 1) (F64.fin a) (F64.fin b) rng1 = some (po2, rng2) ∧
      (∀ t : Int, 0 ≤ t → t ≤ (T : Int) - 2 →
        column po2.PosteriorSample.Values t = column po2.Prior.Values t) ∧
      column po2.PosteriorSample.Values io = some onlyI := by
  obtain ⟨hsh, hzero⟩ := shape_of_eq_new hQ
  obtain ⟨rows1, s1, -, e1⟩ := observationsToPriorSample_eq po gamma rng hP hlen hobs
  obtain ⟨rowsP, eP, wP⟩ :=
    infectionObservationBody_spec gamma
      { po with Prior := { po.Prior with Values := rows1 }, PriorLP := LogVal.zero } rng io d k
      s1 hlen (by omega) hioT hd hk hk0 hkd
  rw [List.foldlM_cons, eP] at e1
  simp only [Option.bind_eq_bind, Option.some_bind, List.foldlM_nil, Option.pure_def] at e1
  obtain ⟨-, b1, b2, b3⟩ := window_bounds (T := T) (show 0 ≤ io by omega) hioT hk0 hkd
  have hs1 : 1 ≤ max 0 (io - k) := le_max_of_le_right (by omega)
  generalize max 0 (io - k) = s at *
  generalize min (io - k + d) ((T : Int) - 1) = e at *
  obtain ⟨sP, w1, w2, w3, -⟩ := wP
  -- the starting state is S
  obtain ⟨x, hx, -, hx1⟩ := hu (rng.pos + 2)
  have hsel : startingLoop po.StartingProbabilities (rng.uniformAt (rng.pos + 2)) 3 0
      (F64.fin 0) 0 (F64.fin 0) = some (0, F64.fin 1) := by
    rw [hsp, hx]
    exact startingLoop_certain x (le_of_lt hx1)
  obtain ⟨rows2, rng2, e2, -, z2, tr2⟩ :=
    forwardPass_full (T := T)
      { po with
        Prior := { po.Prior with Values := rowsP }
        PriorLP := LogVal.add LogVal.zero
          (F64.log (F64.div (F64.fin 1) (F64.ofInt (e - s)))) }
      (T - 1) (F64.fin a) (F64.fin b) { rng with pos := rng.pos + 2 } sP hsh
      (hzero 0 (le_refl _) (by omega)) (by omega) hsel (by decide)
  -- the trajectory the prior forces
  obtain ⟨tg, htg⟩ : ∃ tg : Int → F64 × F64 × F64,
      ∀ t, tg t = if t < s then onlyS else if t ≤ e then onlyI else onlyR :=
    ⟨fun t => if t < s then onlyS else if t ≤ e then onlyI else onlyR, fun _ => rfl⟩
  have hprior : ∀ t : Int, 0 ≤ t → (t ≤ (T : Int) - 2 ∨ t ≤ e) →
      column rowsP t = some (tg t) := by
    intro t h0 hT
    rw [htg]
    by_cases hts : t < s
    · rw [if_pos hts]; exact w1 t h0 hts
    · rw [if_neg hts]
      by_cases hte : t ≤ e
      · rw [if_pos hte]; exact w2 t (by omega) hte
      · rw [if_neg hte]; exact w3 t (by omega) (by omega)
  have hz : column rows2 0 = some (tg 0) := by
    rw [z2, htg, if_pos (by omega)]
    rfl
  have key : ∀ N : Int, N ≤ (T : Int) - 1 →
      (∀ t : Int, 0 ≤ t → t ≤ N → column rowsP t = some (tg t)) →
      ∀ t : Int, 0 ≤ t → t ≤ N → column rows2 t = some (tg t) := by
    intro N hN hpr t h0 htN
    have hfollow :=
      @trace_follows rows2 rowsP N (F64.fin a) (F64.fin b) rng tg hz
        (fun t h0 hlt => tr2 t h0 (by omega))
        (fun t p i h0 hlt hp => by
          have hpt := hpr (t + 1) (by omega) (by omega)
          rw [hpt] at hp
          rw [← Option.some.inj hp]
          exact follow_window a b rng ha ha1 hb hb1 hu (le_trans b1 b2) tg htg t i)
        t.toNat (by omega)
    rwa [Int.toNat_of_nonneg h0] at hfollow
  have hio : tg io = onlyI := by rw [htg, if_neg (by omega), if_pos b2]
  refine ⟨_, _, _, rng2, e1, e2, ?_, ?_⟩
  · intro t h0 hT
    have h1 := key ((T : Int) - 2) (by omega) (fun t h0 ht => hprior t h0 (Or.inl ht)) t h0 hT
    have h2 := hprior t h0 (Or.inl hT)
    simp only
    rw [h1, h2]
  · by_cases he : e = (T : Int) - 1
    · have h1 := key ((T : Int) - 1) (le_refl _)
        (fun t h0 ht => hprior t h0 (Or.inr (by omega))) io (by omega) (by omega)
      simp only
      rw [h1, hio]
    · have h1 := key ((T : Int) - 2) (by omega) (fun t h0 ht => hprior t h0 (Or.inl ht)) io
        (by omega) (by omega)
      simp only
      rw [h1, hio]

/-- Witness of C20: horizon 6, one observation at time 2, duration 1 and offset 0. -/
theorem trajectory_honours_observation_witness :
    (Shape 6 { observedPO with InfectionObservations := [2] }.Prior.Values ∧
      { observedPO with InfectionObservations := [2] }.Prior.Len = 6 ∧
      { observedPO with InfectionObservations := [2] }.PosteriorSample =
        NewStateMatrix 6 ["S", "I", "R"] ∧
      { observedPO with InfectionObservations := [2] }.InfectionObservations = [2] ∧
      { observedPO with InfectionObservations := [2] }.StartingProbabilities =
        [F64.fin 1, F64.fin 0, F64.fin 0] ∧
      (1 : Int) ≤ 2 ∧ (2 : Int) < ((6 : Nat) : Int) ∧
      (GeometricSample (F64.fin 1) exampleRNG).1 = 1 ∧
      ((GeometricSample (F64.fin 1) exampleRNG).2.UniformRandomInt 1).1 = 0 ∧
      (1 : Int) ≤ 1 ∧ (0 : Int) ≤ 0 ∧ (0 : Int) < 1 ∧ (0 : Int) < 2 ∧
      (0 : ℚ) < 1 / 2 ∧ (1 / 2 : ℚ) < 1 ∧ UnitDraws exampleRNG) ∧
    ∃ po1 rng1 po2 rng2,
      ObservationsToPriorSample { observedPO with InfectionObservations := [2] } (F64.fin 1)
        exampleRNG = some (po1, rng1) ∧
      forwardPass po1 (6 - 1) (F64.fin (1 / 2)) (F64.fin (1 / 2)) rng1 = some (po2, rng2) ∧
      (∀ t : Int, 0 ≤ t → t ≤ ((6 : Nat) : Int) - 2 →
        column po2.PosteriorSample.Values t = column po2.Prior.Values t) ∧
      column po2.PosteriorSample.Values 2 = some onlyI :=
  ⟨⟨shape_new 6, rfl, rfl, rfl, rfl, by decide, by decide,
      by simp [GeometricSample, RNG.ExponentialRandomFloat64, exampleRNG, toInt_ceil_one], rfl, by decide,
      by decide, by decide, by decide, by norm_num, by norm_num, unitDraws_example⟩,
    trajectory_honours_observation 6 { observedPO with InfectionObservations := [2] } (F64.fin 1)
      (1 / 2) (1 / 2) exampleRNG 2 1 0 (shape_new 6) rfl rfl rfl rfl (by decide) (by decide)
      (by simp [GeometricSample, RNG.ExponentialRandomFloat64, exampleRNG, toInt_ceil_one]) rfl (by decide)
      (by decide) (by decide) (by decide) (by norm_num) (by norm_num) (by norm_num)
      (by norm_num) unitDraws_example⟩

end Epibayes
